import Mathlib

/-!
Verification development for the variable-enhanced CSS-to-SCSS converter
(`src/variable-enhanced-converter.ts`).

The TypeScript class `VariableEnhancedCSSToSCSSConverter` is shallowly embedded
here.  The external CSS parser (`css-tree`) is treated as a collaborator: its
output AST is modelled by the inductive type `CssNode`, and `csstree.walk`
(which visits every node of the tree in document pre-order; a plain `return`
from the callback does NOT skip a node's children) is modelled by a worklist
recursion (`walkRun`).  JavaScript `Map`s (insertion-ordered, `set` replaces in
place) are modelled by association lists with the helpers `jmGet` / `jmSet` /
`jmHas`.  JavaScript string operations are modelled over `String` / `List Char`;
the inputs of interest are ASCII, where `Char.toLower`, `String.trim` and
lexicographic comparison agree with their JavaScript counterparts.
-/

/-- ValueCategory mirrors the union type used for variable candidates:
color, size, font or other. -/
inductive ValueCategory where
  | color
  | size
  | font
  | other
deriving DecidableEq, Repr

/-- DeclKind mirrors the `type` discriminator of the `Declaration` interface. -/
inductive DeclKind where
  | decl
  | comment
deriving DecidableEq, Repr

/-- Declaration mirrors the `Declaration` interface: `property?`, `value`,
`important?` and `originalValue?` (`important` is only ever compared against
booleans, so the absent value is modelled as `false`). -/
structure Declaration where
  kind : DeclKind
  property : Option String := none
  value : String
  important : Bool := false
  originalValue : Option String := none
deriving DecidableEq, Repr

/-- AdvancedBEMInfo mirrors the interface of the same name. -/
structure AdvancedBEMInfo where
  block : String
  elements : List String
  modifier : Option String := none
  type : String
  level : Nat
deriving DecidableEq, Repr

/-- ParsedRule mirrors the interface of the same name.  The `hash` values that
the source derives from `Date.now()` are modelled as `none`; they are never
read anywhere downstream. -/
structure ParsedRule where
  selector : String
  declarations : List Declaration
  specificity : List Nat
  bemInfo : Option AdvancedBEMInfo := none
  mediaQuery : Option String := none
  hash : Option String := none
deriving DecidableEq, Repr

/-- VariableCandidate mirrors the interface of the same name. -/
structure VariableCandidate where
  value : String
  property : String
  occurrences : Nat
  contexts : List String
  category : ValueCategory
  suggestedName : String
deriving DecidableEq, Repr

/-- ExtractedVariable mirrors the interface of the same name. -/
structure ExtractedVariable where
  name : String
  value : String
  category : ValueCategory
  occurrences : Nat
deriving DecidableEq, Repr

/-- ConverterState models the two instance fields of the converter class,
`variableCandidates` and `extractedVariables`.  They are initialised to empty
maps by the class field initialisers and are never cleared by `convert`. -/
structure ConverterState where
  variableCandidates : List (String × VariableCandidate) := []
  extractedVariables : List (String × ExtractedVariable) := []
deriving DecidableEq, Repr

/-- IndentType mirrors the `indentType` option values. -/
inductive IndentType where
  | spaces
  | tabs
deriving DecidableEq, Repr

/-- ConvOptions mirrors `Required<VariableEnhancedConversionOptions>`, the
resolved options stored by the constructor.  The field `variablePrefix` is
named `varPfx` here. -/
structure ConvOptions where
  indentSize : Nat
  indentType : IndentType
  preserveComments : Bool
  sortProperties : Bool
  enableBEM : Bool
  enableSmartNesting : Bool
  maxNestingDepth : Nat
  enableDuplicateDetection : Bool
  enableAdvancedBEM : Bool
  enableMediaQueryGrouping : Bool
  enableVariableExtraction : Bool
  varPfx : String
  minOccurrences : Nat
  extractColors : Bool
  extractSizes : Bool
  extractFonts : Bool
  extractOthers : Bool
deriving DecidableEq, Repr

/-- Opts is the part of `ConvOptions` that the conversion pipeline actually
reads.  `maxNestingDepth` and `enableAdvancedBEM` are resolved and stored by
the constructor but are never read by any other method of the class, so the
pipeline functions below take `Opts`; `ConvOptions.used` performs the
projection. -/
structure Opts where
  indentSize : Nat
  indentType : IndentType
  preserveComments : Bool
  sortProperties : Bool
  enableBEM : Bool
  enableSmartNesting : Bool
  enableDuplicateDetection : Bool
  enableMediaQueryGrouping : Bool
  enableVariableExtraction : Bool
  varPfx : String
  minOccurrences : Nat
  extractColors : Bool
  extractSizes : Bool
  extractFonts : Bool
  extractOthers : Bool
deriving DecidableEq, Repr

/-- ConvOptions.used projects the options onto the fields the pipeline reads. -/
def ConvOptions.used (o : ConvOptions) : Opts :=
  { indentSize := o.indentSize
    indentType := o.indentType
    preserveComments := o.preserveComments
    sortProperties := o.sortProperties
    enableBEM := o.enableBEM
    enableSmartNesting := o.enableSmartNesting
    enableDuplicateDetection := o.enableDuplicateDetection
    enableMediaQueryGrouping := o.enableMediaQueryGrouping
    enableVariableExtraction := o.enableVariableExtraction
    varPfx := o.varPfx
    minOccurrences := o.minOccurrences
    extractColors := o.extractColors
    extractSizes := o.extractSizes
    extractFonts := o.extractFonts
    extractOthers := o.extractOthers }

/-- OptionsInput mirrors `VariableEnhancedConversionOptions`, the optional
options record passed to the constructor. -/
structure OptionsInput where
  indentSize : Option Nat := none
  indentType : Option IndentType := none
  preserveComments : Option Bool := none
  sortProperties : Option Bool := none
  enableBEM : Option Bool := none
  enableSmartNesting : Option Bool := none
  maxNestingDepth : Option Nat := none
  enableDuplicateDetection : Option Bool := none
  enableAdvancedBEM : Option Bool := none
  enableMediaQueryGrouping : Option Bool := none
  enableVariableExtraction : Option Bool := none
  varPfx : Option String := none
  minOccurrences : Option Nat := none
  extractColors : Option Bool := none
  extractSizes : Option Bool := none
  extractFonts : Option Bool := none
  extractOthers : Option Bool := none
deriving DecidableEq, Repr

/-- jsOrNat models `x || d` for an optional number: `undefined` and `0` are
falsy. -/
def jsOrNat (x : Option Nat) (d : Nat) : Nat :=
  match x with
  | none => d
  | some n => if n = 0 then d else n

/-- jsOrStr models `x || d` for an optional string: `undefined` and the empty
string are falsy. -/
def jsOrStr (x : Option String) (d : String) : String :=
  match x with
  | none => d
  | some s => if s = "" then d else s

/-- jsNotFalse models `x !== false`. -/
def jsNotFalse (x : Option Bool) : Bool :=
  match x with
  | none => true
  | some b => b

/-- jsOrFalse models `x || false` for an optional boolean. -/
def jsOrFalse (x : Option Bool) : Bool :=
  match x with
  | none => false
  | some b => b

/-- resolveOptions models the constructor of
`VariableEnhancedCSSToSCSSConverter`, which fills every option with its
default. -/
def resolveOptions (i : OptionsInput) : ConvOptions :=
  { indentSize := jsOrNat i.indentSize 2
    indentType := (i.indentType).getD IndentType.spaces
    preserveComments := jsNotFalse i.preserveComments
    sortProperties := jsOrFalse i.sortProperties
    enableBEM := jsNotFalse i.enableBEM
    enableSmartNesting := jsNotFalse i.enableSmartNesting
    maxNestingDepth := jsOrNat i.maxNestingDepth 5
    enableDuplicateDetection := jsNotFalse i.enableDuplicateDetection
    enableAdvancedBEM := jsNotFalse i.enableAdvancedBEM
    enableMediaQueryGrouping := jsNotFalse i.enableMediaQueryGrouping
    enableVariableExtraction := jsNotFalse i.enableVariableExtraction
    varPfx := jsOrStr i.varPfx "$"
    minOccurrences := jsOrNat i.minOccurrences 2
    extractColors := jsNotFalse i.extractColors
    extractSizes := jsNotFalse i.extractSizes
    extractFonts := jsNotFalse i.extractFonts
    extractOthers := jsNotFalse i.extractOthers }

/-! ### JavaScript `Map` model: insertion-ordered association lists -/

/-- jmGet models `Map.get`: the value at the first (and, for maps built with
`jmSet`, only) entry with the given key. -/
def jmGet {α : Type} (m : List (String × α)) (k : String) : Option α :=
  (m.find? fun p => p.1 = k).map (·.2)

/-- jmHas models `Map.has`. -/
def jmHas {α : Type} (m : List (String × α)) (k : String) : Bool :=
  m.any fun p => p.1 = k

/-- jmSet models `Map.set`: replace in place when the key is present,
otherwise append (JavaScript maps preserve insertion order). -/
def jmSet {α : Type} (m : List (String × α)) (k : String) (v : α) :
    List (String × α) :=
  if jmHas m k then m.map fun p => if p.1 = k then (k, v) else p
  else m ++ [(k, v)]

/-! ### String helpers used by the converter -/

/-- strToLower models `String.prototype.toLowerCase` (the strings involved are
ASCII). -/
def strToLower (s : String) : String :=
  (s.toList.map Char.toLower).asString

/-- strContains models `String.prototype.includes` for a nonempty needle. -/
def strContains (s t : String) : Bool :=
  decide (t.toList <:+: s.toList)

/-- splitOnPred splits a character list at every character satisfying `p`
(modelling `String.split` with a single-character-class regexp: adjacent
separators yield empty segments). -/
def splitOnPred (p : Char → Bool) : List Char → List (List Char)
  | [] => [[]]
  | c :: rest =>
    let r := splitOnPred p rest
    if p c then [] :: r
    else
      match r with
      | [] => [[c]]
      | seg :: segs => (c :: seg) :: segs

/-- jsSplitChars models `s.split(/[...]/)` for the character class given by
`p`, returning strings. -/
def jsSplitChars (p : Char → Bool) (s : String) : List String :=
  (splitOnPred p s.toList).map List.asString

/-- selSepChar is the character class `[\s>+~]` used to split selectors. -/
def selSepChar (c : Char) : Bool :=
  c.isWhitespace || c = '>' || c = '+' || c = '~'

/-- countChar counts occurrences of a character, modelling
`(s.match(/c/g) || []).length`. -/
def countChar (s : String) (c : Char) : Nat :=
  s.toList.count c

/-- charListLe is lexicographic comparison of character lists by code point,
modelling the JavaScript string order (UTF-16 code units; the strings
involved are ASCII, where the two agree). -/
def charListLe : List Char → List Char → Bool
  | [], _ => true
  | _ :: _, [] => false
  | a :: as, b :: bs =>
    if a.toNat < b.toNat then true
    else if b.toNat < a.toNat then false
    else charListLe as bs

/-- strLeB compares strings in JavaScript order. -/
def strLeB (a b : String) : Bool :=
  charListLe a.toList b.toList

/-- jsTrimStr models `String.prototype.trim`. -/
def jsTrimStr (s : String) : String :=
  (((s.toList.dropWhile Char.isWhitespace).reverse.dropWhile
      Char.isWhitespace).reverse).asString

/-- strStartsWith models `String.prototype.startsWith`. -/
def strStartsWith (s t : String) : Bool :=
  t.toList.isPrefixOf s.toList

/-- splitOnChars splits a character list at every occurrence of the nonempty
separator (leftmost, non-overlapping), as `String.prototype.split` with a
string separator does; the fuel is the list length, which is always
sufficient since every step consumes at least one character. -/
def splitOnChars (sep : List Char) : Nat → List Char → List (List Char)
  | _, [] => [[]]
  | 0, l => [l]
  | fuel + 1, c :: rest =>
    if sep.isPrefixOf (c :: rest) ∧ ¬ sep.isEmpty then
      [] :: splitOnChars sep fuel ((c :: rest).drop sep.length)
    else
      match splitOnChars sep fuel rest with
      | [] => [[c]]
      | seg :: segs => (c :: seg) :: segs

/-- strSplitOn models `s.split(sep)` for a nonempty string separator. -/
def strSplitOn (s sep : String) : List String :=
  (splitOnChars sep.toList (s.toList.length + 1) s.toList).map List.asString

/-- insertSorted inserts an element into a sorted list, before the first
element it is `le`-related to. -/
def insertSorted {α : Type} (le : α → α → Bool) (x : α) : List α → List α
  | [] => [x]
  | y :: ys => if le x y then x :: y :: ys else y :: insertSorted le x ys

/-- stableSortBy is a stable insertion sort: for a total preorder `le` it
produces the same order as the stable JavaScript `Array.prototype.sort`. -/
def stableSortBy {α : Type} (le : α → α → Bool) : List α → List α
  | [] => []
  | x :: xs => insertSorted le x (stableSortBy le xs)

/-! ### The advanced BEM matcher

The source matches `cleanSelector` against the regular expression

  `^\.([a-zA-Z0-9-]+)(?:__((?:[a-zA-Z0-9-]+(?:__)?)+))?(?:--([a-zA-Z0-9-]+))?$`

after deleting pseudo-class suffixes (`/:[^,\s]+/g`) and attribute selectors
(`/\[[^\]]+\]/g`).  The functions below implement the JavaScript regex engine
behaviour for exactly this pattern: leftmost match with greedy quantifiers and
backtracking, alternatives explored in preference order. -/

/-- bemChar is the character class `[a-zA-Z0-9-]`. -/
def bemChar (c : Char) : Bool :=
  c.isAlpha || c.isDigit || c = '-'

/-- bemTail matches the pattern suffix `(?:--([a-zA-Z0-9-]+))?$` against the
remaining input, trying the group-present branch first; it yields the modifier
capture on success. -/
def bemTail : List Char → Option (Option String)
  | '-' :: '-' :: t =>
    if t ≠ [] ∧ t.all bemChar then some (some t.asString) else none
  | [] => some none
  | _ => none

/-- bemIterTokHO tries token lengths `L, L-1, ..., 1` for the current
iteration of the element-group matcher; `recFn` performs the next (deeper)
iteration. -/
def bemIterTokHO (recFn : List Char → Option (Nat × Option String))
    (r : List Char) : Nat → Option (Nat × Option String)
  | 0 => none
  | L + 1 =>
    let r1 := r.drop (L + 1)
    let attempt : Option (Nat × Option String) :=
      if r1.take 2 = ['_', '_'] then
        let r2 := r1.drop 2
        match recFn r2 with
        | some (n, m) => some (L + 3 + n, m)
        | none =>
          match bemTail r2 with
          | some m => some (L + 3, m)
          | none =>
            match recFn r1 with
            | some (n, m) => some (L + 1 + n, m)
            | none => (bemTail r1).map fun m => (L + 1, m)
      else
        match recFn r1 with
        | some (n, m) => some (L + 1 + n, m)
        | none => (bemTail r1).map fun m => (L + 1, m)
    match attempt with
    | some res => some res
    | none => bemIterTokHO recFn r L

/-- bemIterRec matches one-or-more iterations of `(?:[a-zA-Z0-9-]+(?:__)?)`
starting at `r`, followed by `bemTail` on whatever remains; it returns the
number of characters consumed by the iterations together with the modifier
capture, exploring choices in the engine preference order (longest token
first, separator taken before skipped, more iterations before stopping).
Every iteration consumes at least one character, so fuel bounded by the
input length is always sufficient. -/
def bemIterRec : Nat → List Char → Option (Nat × Option String)
  | 0, _ => none
  | fuel + 1, r => bemIterTokHO (bemIterRec fuel) r (r.takeWhile bemChar).length

/-- bemMatchA tries block-token lengths `L, L-1, ..., 1`, and for each one the
optional element group (present first) followed by `bemTail`; it returns the
three capture groups of the regex. -/
def bemMatchA (rest : List Char) :
    Nat → Option (String × Option String × Option String)
  | 0 => none
  | L + 1 =>
    let a := (rest.take (L + 1)).asString
    let r1 := rest.drop (L + 1)
    let withElems : Option (String × Option String × Option String) :=
      if r1.take 2 = ['_', '_'] then
        match bemIterRec (r1.length + 1) (r1.drop 2) with
        | some (n, m) => some (a, some ((r1.drop 2).take n).asString, m)
        | none => none
      else none
    match withElems with
    | some res => some res
    | none =>
      match bemTail r1 with
      | some m => some (a, none, m)
      | none => bemMatchA rest L

/-- bemMatch runs the whole regex against a string: a literal dot, then the
block token (greedy, longest first), then the optional groups. -/
def bemMatch (s : String) : Option (String × Option String × Option String) :=
  match s.toList with
  | '.' :: rest => bemMatchA rest (rest.takeWhile bemChar).length
  | _ => none

/-- stripPseudoList deletes every match of `/:[^,\s]+/g` (a colon followed by
one or more characters that are neither a comma nor whitespace), scanning left
to right and continuing after each match, as `String.replace` with a global
regex does. -/
def stripPseudoAux : Nat → List Char → List Char
  | _, [] => []
  | 0, l => l
  | fuel + 1, c :: rest =>
    if c = ':' then
      let run := rest.takeWhile fun d => ¬ (d = ',' || d.isWhitespace)
      if run.isEmpty then c :: stripPseudoAux fuel rest
      else stripPseudoAux fuel (rest.drop run.length)
    else c :: stripPseudoAux fuel rest

/-- stripPseudoList runs `stripPseudoAux` with enough fuel (every step
consumes at least one character). -/
def stripPseudoList (l : List Char) : List Char :=
  stripPseudoAux (l.length + 1) l

/-- stripAttrList deletes every match of `/\[[^\]]+\]/g`; when no closing
bracket follows, the opening bracket is kept and scanning resumes after it. -/
def stripAttrAux : Nat → List Char → List Char
  | _, [] => []
  | 0, l => l
  | fuel + 1, c :: rest =>
    if c = '[' then
      let run := rest.takeWhile fun d => ¬ d = ']'
      if run.isEmpty then c :: stripAttrAux fuel rest
      else if (rest.drop run.length).isEmpty then c :: stripAttrAux fuel rest
      else stripAttrAux fuel ((rest.drop run.length).tail)
    else c :: stripAttrAux fuel rest

/-- stripAttrList runs `stripAttrAux` with enough fuel (every step consumes
at least one character). -/
def stripAttrList (l : List Char) : List Char :=
  stripAttrAux (l.length + 1) l

/-- jsTruthyStrOpt models the truthiness test of an optional string capture. -/
def jsTruthyStrOpt (o : Option String) : Bool :=
  match o with
  | none => false
  | some s => ¬ s = ""

/-- parseAdvancedBEM mirrors the method of the same name: strip pseudo and
attribute suffixes, run the advanced BEM regex, split the element part on
`__`, and classify. -/
def parseAdvancedBEM (selector : String) : Option AdvancedBEMInfo :=
  let cleanSelector :=
    (stripAttrList (stripPseudoList selector.toList)).asString
  match bemMatch cleanSelector with
  | none => none
  | some (block, elementPart, modifier) =>
    let elements :=
      if jsTruthyStrOpt elementPart then
        (strSplitOn (elementPart.getD "") "__").filter fun e => e.length > 0
      else []
    let level := elements.length
    if elements.length > 0 ∧ jsTruthyStrOpt modifier then
      some { block := block, elements := elements, modifier := modifier,
             type := "element-modifier", level := level + 1 }
    else if elements.length > 0 then
      some { block := block, elements := elements, modifier := none,
             type := "element", level := level }
    else if jsTruthyStrOpt modifier then
      some { block := block, elements := [], modifier := modifier,
             type := "modifier", level := 1 }
    else
      some { block := block, elements := [], modifier := none,
             type := "block", level := 0 }

/-! ### Value categorization -/

/-- isColorProperty mirrors the method of the same name. -/
def isColorProperty (property : String) : Bool :=
  [ "color", "background-color", "border-color", "outline-color",
    "text-decoration-color", "caret-color", "column-rule-color",
    "border-top-color", "border-right-color", "border-bottom-color",
    "border-left-color" ].contains property

/-- isHexDigitChar is the character class `[0-9a-fA-F]`. -/
def isHexDigitChar (c : Char) : Bool :=
  c.isDigit || ('a' ≤ c ∧ c ≤ 'f') || ('A' ≤ c ∧ c ≤ 'F')

/-- isColorValue mirrors the method of the same name: hex colors, `rgb(a)` /
`hsl(a)` prefixes, and a list of named colors matched against the lowercased
value.  The source's list ends in the camel-cased entry `currentColor`, which
the lowercased value can never equal: the entry is dead, and it is kept
verbatim here so that the model classifies `currentColor`-cased values
exactly as the program does (by the property fallback, not as a color). -/
def isColorValue (value : String) : Bool :=
  (match value.toList with
   | '#' :: t =>
     (t.length = 3 || t.length = 6 || t.length = 8) && t.all isHexDigitChar
   | _ => false)
  || strStartsWith value "rgb(" || strStartsWith value "rgba("
  || strStartsWith value "hsl(" || strStartsWith value "hsla("
  || [ "red", "blue", "green", "yellow", "orange", "purple", "pink",
       "brown", "black", "white", "gray", "grey", "transparent",
       "currentColor" ].contains (strToLower value)

/-- isSizeProperty mirrors the method of the same name. -/
def isSizeProperty (property : String) : Bool :=
  [ "width", "height", "min-width", "min-height", "max-width", "max-height",
    "padding", "padding-top", "padding-right", "padding-bottom",
    "padding-left", "margin", "margin-top", "margin-right", "margin-bottom",
    "margin-left", "border-width", "border-radius", "font-size",
    "line-height", "letter-spacing", "top", "right", "bottom", "left",
    "gap", "column-gap", "row-gap" ].contains property

/-- cssUnits lists the units of the size-value pattern
`^\d+(\.\d+)?(px|em|rem|%|vh|vw|vmin|vmax|pt|pc|in|cm|mm|ex|ch)$`. -/
def cssUnits : List String :=
  [ "px", "em", "rem", "%", "vh", "vw", "vmin", "vmax", "pt", "pc", "in",
    "cm", "mm", "ex", "ch" ]

/-- isSizeValue mirrors the method of the same name: an integer or decimal
number immediately followed by one of the listed units. -/
def isSizeValue (value : String) : Bool :=
  let cs := value.toList
  let ds := cs.takeWhile Char.isDigit
  if ds.isEmpty then false
  else
    let rest := cs.drop ds.length
    let unitPart :=
      match rest with
      | '.' :: t =>
        let fs := t.takeWhile Char.isDigit
        if fs.isEmpty then none else some (t.drop fs.length)
      | _ => some rest
    match unitPart with
    | none => false
    | some u => cssUnits.contains u.asString

/-- isFontProperty mirrors the method of the same name. -/
def isFontProperty (property : String) : Bool :=
  [ "font-family", "font-weight", "font-style", "font-variant",
    "font-stretch", "font-size", "line-height" ].contains property

/-- categorizeValue mirrors the method of the same name: color first, then
size, then font, else other. -/
def categorizeValue (property value : String) : ValueCategory :=
  if isColorProperty property || isColorValue value then ValueCategory.color
  else if isSizeProperty property || isSizeValue value then ValueCategory.size
  else if isFontProperty property then ValueCategory.font
  else ValueCategory.other

/-- shouldExtractCategory mirrors the method of the same name. -/
def shouldExtractCategory (cfg : Opts) (category : ValueCategory) : Bool :=
  match category with
  | ValueCategory.color => cfg.extractColors
  | ValueCategory.size => cfg.extractSizes
  | ValueCategory.font => cfg.extractFonts
  | ValueCategory.other => cfg.extractOthers

/-! ### Variable naming -/

/-- collapseDashes models `replace` with the dash-run regex (global), i.e. every maximal run of dashes becomes one dash. -/
def collapseDashesAux : Nat → List Char → List Char
  | _, [] => []
  | 0, l => l
  | fuel + 1, c :: rest =>
    if c = '-' then
      '-' :: collapseDashesAux fuel (rest.dropWhile fun d => d = '-')
    else c :: collapseDashesAux fuel rest

/-- collapseDashes runs `collapseDashesAux` with enough fuel (every step
consumes at least one character). -/
def collapseDashes (l : List Char) : List Char :=
  collapseDashesAux (l.length + 1) l

/-- trimDashes models `replace(/^-|-$/g, "")`: the global regex removes one
leading and one trailing dash. -/
def trimDashes (l : List Char) : List Char :=
  let l1 := match l with
    | '-' :: t => t
    | t => t
  match l1.getLast? with
  | some '-' => l1.dropLast
  | _ => l1

/-- cleanValueName models the `cleanValue` computation of
`generateVariableName`: non-alphanumeric characters become dashes, dash runs
collapse, outer dashes are trimmed, and the result is lowercased. -/
def cleanValueName (value : String) : String :=
  let step1 := value.toList.map fun c => if c.isAlpha || c.isDigit then c else '-'
  strToLower (trimDashes (collapseDashes step1)).asString

/-- semanticColorTable is the fixed hex-to-name table of
`getSemanticColorName`. -/
def semanticColorTable : List (String × String) :=
  [ ("#000000", "black"), ("#ffffff", "white"), ("#ff0000", "red"),
    ("#00ff00", "green"), ("#0000ff", "blue"), ("#ffff00", "yellow"),
    ("#ff00ff", "magenta"), ("#00ffff", "cyan"), ("#808080", "gray"),
    ("#c0c0c0", "silver"), ("#800000", "maroon"), ("#008000", "dark-green"),
    ("#000080", "navy"), ("#808000", "olive"), ("#800080", "purple"),
    ("#008080", "teal"), ("#007bff", "primary-blue"),
    ("#28a745", "success-green"), ("#dc3545", "danger-red"),
    ("#ffc107", "warning-yellow"), ("#17a2b8", "info-cyan"),
    ("#6c757d", "secondary-gray"), ("#f8f9fa", "light-gray"),
    ("#343a40", "dark-gray") ]

/-- getSemanticColorName mirrors the method of the same name. -/
def getSemanticColorName (hexColor : String) : Option String :=
  jmGet semanticColorTable (strToLower hexColor)

/-- generateVariableName mirrors the method of the same name (the source
replaces every dash of `property` with a dash, which is the identity on `property`). -/
def generateVariableName (pfx : String) (property value : String)
    (category : ValueCategory) : String :=
  let cleanValue := cleanValueName value
  match category with
  | ValueCategory.color =>
    if strStartsWith value "#" then
      let colorName := (getSemanticColorName value).getD cleanValue
      pfx ++ "color-" ++ colorName
    else if value = "inherit" then pfx ++ "color-inherit"
    else if value = "transparent" then pfx ++ "color-transparent"
    else pfx ++ "color-" ++ cleanValue
  | ValueCategory.size =>
    if value = "inherit" then pfx ++ "size-inherit"
    else if value = "auto" then pfx ++ "size-auto"
    else if value = "0" then pfx ++ "size-0"
    else if value = "100%" then pfx ++ "size-full"
    else if strContains property "font-size" then pfx ++ "text-" ++ cleanValue
    else if strContains property "padding" then pfx ++ "p-" ++ cleanValue
    else if strContains property "margin" then pfx ++ "m-" ++ cleanValue
    else if strContains property "border-radius" then
      pfx ++ "rounded-" ++ cleanValue
    else if strContains property "width" || strContains property "height" then
      pfx ++ "size-" ++ cleanValue
    else pfx ++ "spacing-" ++ cleanValue
  | ValueCategory.font =>
    if property = "font-family" then pfx ++ "font-" ++ cleanValue
    else if property = "font-weight" then pfx ++ "font-" ++ cleanValue
    else if property = "font-size" then pfx ++ "text-" ++ cleanValue
    else pfx ++ "font-" ++ cleanValue
  | ValueCategory.other =>
    if value = "none" then pfx ++ property ++ "-none"
    else if value = "inherit" then pfx ++ property ++ "-inherit"
    else if value = "auto" then pfx ++ property ++ "-auto"
    else pfx ++ property ++ "-" ++ cleanValue

/-! ### The stylesheet AST and rule extraction

`CssNode` models the css-tree AST nodes that the `extractRules` walk reacts
to: style rules (with their generated selector text and block children),
`@media` at-rules, `@keyframes` / `@-webkit-keyframes` at-rules (with their
serialized block text), other at-rules with a block, declarations and
comments.  `csstree.walk` visits nodes in document pre-order and a plain
`return` from the visitor does not skip the children, so the walk is modelled
as a worklist recursion that prepends each visited node's children. -/

inductive CssNode where
  | rule (selectorText : String) (children : List CssNode)
  | media (queryText : String) (children : List CssNode)
  | keyframes (atName preludeText blockText : String) (children : List CssNode)
  | atruleBlock (atName : String) (preludeText : Option String)
      (children : List CssNode)
  | declNode (property valueText : String) (important : Bool)
  | commentNode (text : String)

mutual

/-- cssNodeCount counts the nodes of a subtree (used as walk fuel: the
worklist node count decreases by exactly one per visited node). -/
def cssNodeCount : CssNode → Nat
  | CssNode.rule _ cs => 1 + cssListCount cs
  | CssNode.media _ cs => 1 + cssListCount cs
  | CssNode.keyframes _ _ _ cs => 1 + cssListCount cs
  | CssNode.atruleBlock _ _ cs => 1 + cssListCount cs
  | CssNode.declNode _ _ _ => 1
  | CssNode.commentNode _ => 1

/-- cssListCount counts the nodes of a forest. -/
def cssListCount : List CssNode → Nat
  | [] => 0
  | n :: t => cssNodeCount n + cssListCount t

end

/-- declKeyStr is the key used by the `seenProperties` set of `extractRules`:
the property name plus the important flag. -/
def declKeyStr (property : String) (important : Bool) : String :=
  property ++ ":" ++ (if important then "!important" else "")

/-- mkDecl builds the `Declaration` record pushed for a css-tree declaration
node. -/
def mkDecl (property valueText : String) (important : Bool) : Declaration :=
  { kind := DeclKind.decl, property := some property, value := valueText,
    important := important }

/-- extractBlockDecls models the declaration loop of `extractRules` for one
style-rule block: declarations are collected in order, and when a
property/important pair repeats, the earlier declaration is spliced out before
the new one is pushed (last wins). -/
def extractBlockDecls (children : List CssNode) : List Declaration :=
  (children.foldl
    (fun acc n =>
      match n with
      | CssNode.declNode p v imp =>
        let key := declKeyStr p imp
        let declarations :=
          if acc.2.contains key then
            acc.1.eraseP fun d =>
              decide (d.kind = DeclKind.decl ∧ d.property = some p ∧
                d.important = imp)
          else acc.1
        (declarations ++ [mkDecl p v imp], key :: acc.2)
      | _ => acc)
    (([], []) : List Declaration × List String)).1

/-- atruleBlockDecls models the declaration loop of the generic at-rule branch
of `extractRules` (no duplicate handling there). -/
def atruleBlockDecls (children : List CssNode) : List Declaration :=
  children.filterMap fun n =>
    match n with
    | CssNode.declNode p v imp => some (mkDecl p v imp)
    | _ => none

/-- calculateSpecificity mirrors the method of the same name. -/
def calculateSpecificity (selector : String) : List Nat :=
  let ids := countChar selector '#'
  let classes := countChar selector '.'
  let elements :=
    ((jsSplitChars selSepChar selector).filter fun s =>
      ¬ s = "" ∧
        ¬ s.toList.any fun c => c = '#' || c = '.' || c = ':').length
  [ids, classes, elements]

/-- sortedJoin models `array.sort().join(sep)` on strings (the default
JavaScript sort is lexicographic; equal elements make the order immaterial). -/
def sortedJoin (l : List String) (sep : String) : String :=
  String.intercalate sep (stableSortBy strLeB l)

/-- declHashEntry is the string built for one declaration inside the two
hashing methods (a missing property would render as `undefined` in
JavaScript). -/
def declHashEntry (d : Declaration) : String :=
  (match d.property with
   | some p => p
   | none => "undefined") ++ ":" ++ d.value ++
    (if d.important then "!important" else "")

/-- generateRuleHash mirrors the method of the same name. -/
def generateRuleHash (selector : String) (declarations : List Declaration) :
    String :=
  let declString :=
    sortedJoin
      ((declarations.filter fun d => d.kind = DeclKind.decl).map declHashEntry)
      ";"
  selector ++ "|" ++ declString

/-- generateDeclarationHash mirrors the method of the same name. -/
def generateDeclarationHash (declarations : List Declaration) : String :=
  sortedJoin
    ((declarations.filter fun d => d.kind = DeclKind.decl).map declHashEntry)
    ";"

/-- declarationsEqual mirrors the method of the same name: equal length and
equal declaration hash. -/
def declarationsEqual (decls1 decls2 : List Declaration) : Bool :=
  decls1.length = decls2.length &&
    generateDeclarationHash decls1 = generateDeclarationHash decls2

/-- isOrphanKeyframeSel decides the orphan filter regex
`^(0%|100%|\d+%|from|to)$` (the first two alternatives are subsumed by the
third). -/
def isOrphanKeyframeSel (s : String) : Bool :=
  s = "from" || s = "to" ||
    (let cs := s.toList
     ¬ cs.dropLast = [] && cs.dropLast.all Char.isDigit &&
       cs.getLast? = some '%')

/-- jsOptOfQuery models `currentMediaQuery || undefined`. -/
def jsOptOfQuery (q : String) : Option String :=
  if q = "" then none else some q

/-- ExtractState is the state of the `extractRules` walk: the flat media-query
context string (initially empty, set by every `@media` at-rule and never
reset) and the rules collected so far. -/
structure ExtractState where
  currentMediaQuery : String := ""
  rules : List ParsedRule := []
deriving DecidableEq, Repr

/-- processStyleRule models the `Rule` branch of the walk callback: extract
the block declarations (last-wins per property), split the generated selector
text at every comma, and push one `ParsedRule` per trimmed part, each carrying
the same declaration sequence and the current media query. -/
def processStyleRule (cfg : Opts) (st : ExtractState) (selectorText : String)
    (children : List CssNode) : ExtractState :=
  let declarations := extractBlockDecls children
  let newRules :=
    (strSplitOn selectorText ",").map fun part =>
      let trimmedSelector := jsTrimStr part
      { selector := trimmedSelector
        declarations := declarations
        specificity := calculateSpecificity trimmedSelector
        bemInfo :=
          if cfg.enableBEM then parseAdvancedBEM trimmedSelector else none
        mediaQuery := jsOptOfQuery st.currentMediaQuery
        hash := some (generateRuleHash trimmedSelector declarations) }
  { st with rules := st.rules ++ newRules }

/-- pushKeyframesRule models the keyframes branch of the walk callback: one
opaque rule whose single declaration holds the serialized block under the
`@keyframes-block` property. -/
def pushKeyframesRule (st : ExtractState) (atName preludeText blockText : String) :
    ExtractState :=
  { st with rules := st.rules ++
      [{ selector := "@" ++ atName ++ " " ++ preludeText
         declarations := [{ kind := DeclKind.decl,
                            property := some "@keyframes-block",
                            value := blockText, important := false }]
         specificity := [0, 0, 0]
         mediaQuery := jsOptOfQuery st.currentMediaQuery
         hash := some ("keyframes-" ++ atName ++ "-" ++ preludeText) }] }

/-- pushAtruleBlockRule models the generic at-rule branch of the walk callback
(the source hashes these with `Date.now()`, which is never read; the hash is
modelled as `none`). -/
def pushAtruleBlockRule (st : ExtractState) (atName : String)
    (preludeText : Option String) (children : List CssNode) : ExtractState :=
  { st with rules := st.rules ++
      [{ selector := "@" ++ atName ++
           (match preludeText with
            | some p => " " ++ p
            | none => "")
         declarations := atruleBlockDecls children
         specificity := [0, 0, 0]
         mediaQuery := jsOptOfQuery st.currentMediaQuery
         hash := none }] }

/-- pushCommentRule models the `Comment` branch of the walk callback. -/
def pushCommentRule (cfg : Opts) (st : ExtractState) (text : String) :
    ExtractState :=
  if cfg.preserveComments then
    { st with rules := st.rules ++
        [{ selector := "/* COMMENT */"
           declarations := [{ kind := DeclKind.comment, value := text }]
           specificity := [0, 0, 0]
           mediaQuery := jsOptOfQuery st.currentMediaQuery
           hash := none }] }
  else st

/-- nodeChildren lists the children that `csstree.walk` descends into. -/
def nodeChildren : CssNode → List CssNode
  | CssNode.rule _ cs => cs
  | CssNode.media _ cs => cs
  | CssNode.keyframes _ _ _ cs => cs
  | CssNode.atruleBlock _ _ cs => cs
  | CssNode.declNode _ _ _ => []
  | CssNode.commentNode _ => []

/-- walkStep is the visitor callback of the `extractRules` walk for one
node. -/
def walkStep (cfg : Opts) (st : ExtractState) : CssNode → ExtractState
  | CssNode.media q _ => { st with currentMediaQuery := q }
  | CssNode.rule sel cs => processStyleRule cfg st sel cs
  | CssNode.keyframes a p b _ => pushKeyframesRule st a p b
  | CssNode.atruleBlock a p cs => pushAtruleBlockRule st a p cs
  | CssNode.declNode _ _ _ => st
  | CssNode.commentNode t => pushCommentRule cfg st t

/-- walkAux processes the worklist in document pre-order: visit the head
node, then its children, then the rest.  The fuel only serves termination;
`sizeOf` of the worklist strictly decreases at every step, so the zero-fuel
case is unreachable from `walkRun`. -/
def walkAux (cfg : Opts) : Nat → List CssNode → ExtractState → ExtractState
  | _, [], st => st
  | 0, _, st => st
  | fuel + 1, n :: rest, st =>
    walkAux cfg fuel (nodeChildren n ++ rest) (walkStep cfg st n)

/-- walkRun models `csstree.walk` over a worklist of nodes in document
pre-order: each node is visited and its children are prepended to the
worklist. -/
def walkRun (cfg : Opts) (ws : List CssNode) (st : ExtractState) :
    ExtractState :=
  walkAux cfg (cssListCount ws + 1) ws st

/-- extractRules mirrors the method of the same name: walk the AST collecting
rules, then filter out orphaned keyframe-step selectors. -/
def extractRules (cfg : Opts) (ast : List CssNode) : List ParsedRule :=
  let rules := (walkRun cfg ast {}).rules
  rules.filter fun rule =>
    if strStartsWith rule.selector "@keyframes" ||
        strStartsWith rule.selector "@-webkit-keyframes" then true
    else ¬ isOrphanKeyframeSel rule.selector

/-! ### Variable candidate analysis and extraction -/

/-- OccInfo models the per-key record of the local `valueOccurrences` map of
`analyzeVariableCandidates` (`properties` is a JS `Set`, modelled as a
duplicate-free list in insertion order). -/
structure OccInfo where
  count : Nat
  contexts : List String
  properties : List String
deriving DecidableEq, Repr

/-- setAdd models `Set.add`. -/
def setAdd (l : List String) (x : String) : List String :=
  if l.contains x then l else l ++ [x]

/-- categoryStr is the string form of a category (the source stores the
category as one of these four strings). -/
def categoryStr : ValueCategory → String
  | ValueCategory.color => "color"
  | ValueCategory.size => "size"
  | ValueCategory.font => "font"
  | ValueCategory.other => "other"

/-- analyzeStep processes one (selector, declaration) pair of the nested
`forEach` loops of `analyzeVariableCandidates`, updating the local
`valueOccurrences` map and the instance `variableCandidates` map. -/
def analyzeStep (cfg : Opts)
    (acc : List (String × OccInfo) × List (String × VariableCandidate))
    (pair : String × Declaration) :
    List (String × OccInfo) × List (String × VariableCandidate) :=
  let sel := pair.1
  let d := pair.2
  match d.property with
  | none => acc
  | some p =>
    if d.kind = DeclKind.decl ∧ ¬ p = "" ∧ ¬ d.value = "" then
      let category := categorizeValue p d.value
      if shouldExtractCategory cfg category then
        let key := p ++ ":" ++ d.value
        let occ0 :=
          match jmGet acc.1 key with
          | some o => o
          | none => ({ count := 0, contexts := [], properties := [] } : OccInfo)
        let occ1 : OccInfo :=
          { count := occ0.count + 1
            contexts := occ0.contexts ++ [sel]
            properties := setAdd occ0.properties p }
        let occs := jmSet acc.1 key occ1
        let cands1 :=
          if jmHas acc.2 key then acc.2
          else
            jmSet acc.2 key
              { value := d.value, property := p, occurrences := 0,
                contexts := [], category := category,
                suggestedName := generateVariableName cfg.varPfx p d.value category }
        let cands2 :=
          match jmGet cands1 key with
          | some c =>
            jmSet cands1 key
              { c with occurrences := occ1.count, contexts := occ1.contexts }
          | none => cands1
        (occs, cands2)
      else acc
    else acc

/-- analyzeVariableCandidates mirrors the method of the same name; the nested
`rules.forEach` / `declarations.forEach` loops are the left fold over the
flattened (selector, declaration) sequence.  The instance map
`variableCandidates` is carried over from the converter state (the source
never clears it); `valueOccurrences` is local to the call. -/
def analyzeVariableCandidates (cfg : Opts) (st : ConverterState)
    (rules : List ParsedRule) : ConverterState :=
  let pairs := rules.flatMap fun r => r.declarations.map fun d => (r.selector, d)
  let res := pairs.foldl (analyzeStep cfg) ([], st.variableCandidates)
  { st with variableCandidates := res.2 }

/-- jmUpd models the `if (!m.has(k)) m.set(k, d); mutate(m.get(k)!)`
pattern: ensure the key is bound (to `d` when fresh), then transform its
binding in place. -/
def jmUpd {α : Type} (m : List (String × α)) (k : String) (d : α) (f : α → α) :
    List (String × α) :=
  let m1 := if jmHas m k then m else jmSet m k d
  m1.map fun p => if p.1 = k then (p.1, f p.2) else p

/-- jmPush models the `if (!m.has(k)) m.set(k, []); m.get(k)!.push(v)`
pattern: the pushed element lands at the end of the list bound at `k`. -/
def jmPush {α : Type} (m : List (String × List α)) (k : String) (v : α) :
    List (String × List α) :=
  jmUpd m k [] fun l => l ++ [v]

/-- freshVarName models the unique-name `while` loop of `extractVariables`:
the suggested name itself if unused, otherwise the first `base-k`
(`k = 1, 2, ...`) that no existing variable already uses.  The search range
`names.length + 1` is exhaustive by pigeonhole, so the fallback value is never
reached. -/
def freshVarName (names : List String) (base : String) : String :=
  if ¬ names.contains base then base
  else
    ((List.range (names.length + 1)).findSome? fun i =>
      let cand := base ++ "-" ++ toString (i + 1)
      if names.contains cand then none else some cand).getD
      (base ++ "-" ++ toString (names.length + 1))

/-- valueKeyOf is the `${candidate.category}:${candidate.value}` grouping key
of `extractVariables`. -/
def valueKeyOf (c : VariableCandidate) : String :=
  categoryStr c.category ++ ":" ++ c.value

/-- buildValueGroups is the first loop of `extractVariables`: group the
candidates that reach `minOccurrences` by their `(category, value)` key. -/
def buildValueGroups (cfg : Opts)
    (cands : List (String × VariableCandidate)) :
    List (String × List VariableCandidate) :=
  cands.foldl
    (fun groups kc =>
      if cfg.minOccurrences ≤ kc.2.occurrences then
        jmPush groups (valueKeyOf kc.2) kc.2
      else groups)
    []

/-- candOccDesc is the sort comparator `(a, b) => b.occurrences -
a.occurrences` of `extractVariables`; JavaScript sort is stable and
`stableSortBy` with this relation reproduces it. -/
def candOccDesc (a b : VariableCandidate) : Bool :=
  decide (b.occurrences ≤ a.occurrences)

/-- extractGroupStep processes one value group of `extractVariables`: sort by
occurrences (highest first, stable), take the best candidate, sum the
occurrences, make the name unique, and `set` the variable under the best
candidate's `property:value` key. -/
def extractGroupStep (evars : List (String × ExtractedVariable))
    (group : String × List VariableCandidate) :
    List (String × ExtractedVariable) :=
  match stableSortBy candOccDesc group.2 with
  | [] => evars
  | best :: _ =>
    let totalOccurrences := group.2.foldl (fun s c => s + c.occurrences) 0
    let variableName := freshVarName (evars.map fun e => e.2.name) best.suggestedName
    let bestKey := best.property ++ ":" ++ best.value
    jmSet evars bestKey
      { name := variableName, value := best.value,
        category := best.category, occurrences := totalOccurrences }

/-- extractVariables mirrors the method of the same name, updating the
instance map `extractedVariables` (which the source never clears between
calls). -/
def extractVariables (cfg : Opts) (st : ConverterState) : ConverterState :=
  let valueGroups := buildValueGroups cfg st.variableCandidates
  { st with extractedVariables :=
      valueGroups.foldl extractGroupStep st.extractedVariables }

/-- replaceDecl is the per-declaration body of `replaceValuesWithVariables`:
the lookup is keyed by the value alone, the `@keyframes-block` property is
skipped, the looked-up name must be truthy (`if (variableName)`: a present
but empty name is skipped like a missing one), and the original literal is
kept in `originalValue`. -/
def replaceDecl (cfg : Opts) (valueToVariable : List (String × String))
    (d : Declaration) : Declaration :=
  match d.property with
  | none => d
  | some p =>
    if d.kind = DeclKind.decl ∧ ¬ p = "" ∧ ¬ d.value = "" then
      if p = "@keyframes-block" then d
      else
        match jmGet valueToVariable d.value with
        | some variableName =>
          if ¬ variableName = "" then
            if shouldExtractCategory cfg (categorizeValue p d.value) then
              { d with originalValue := some d.value, value := variableName }
            else d
          else d
        | none => d
    else d

/-- buildValueToVariable is the `value -> variable name` lookup map of
`replaceValuesWithVariables` (later variables with the same value overwrite
earlier ones, as `Map.set` does). -/
def buildValueToVariable (evars : List (String × ExtractedVariable)) :
    List (String × String) :=
  evars.foldl (fun m e => jmSet m e.2.value e.2.name) []

/-- replaceValuesWithVariables mirrors the method of the same name (the
source mutates the declaration records in place; the model rebuilds the
rules). -/
def replaceValuesWithVariables (cfg : Opts) (st : ConverterState)
    (rules : List ParsedRule) : List ParsedRule :=
  let valueToVariable := buildValueToVariable st.extractedVariables
  rules.map fun r =>
    { r with declarations := r.declarations.map (replaceDecl cfg valueToVariable) }

/-- capitalizeStr models `s.charAt(0).toUpperCase() + s.slice(1)`. -/
def capitalizeStr (s : String) : String :=
  match s.toList with
  | [] => ""
  | c :: t => (c.toUpper :: t).asString

/-- varNameAsc is the `localeCompare` sort on variable names.  It is
modelled as code-point comparison, an approximation: ICU collation treats
punctuation such as the dash at lower strength, so names differing around a
dash (say a `-1-5rem` suffix against a `-10px` one) can order differently in
the program.  No theorem of this development depends on this order. -/
def varNameAsc (a b : ExtractedVariable) : Bool :=
  strLeB a.name b.name

/-- formatVariables mirrors the method of the same name: a `// Variables`
header, then per non-empty category (in the fixed order color, size, font,
other) a sub-header and one `name: value;` line per variable, sorted by
name. -/
def formatVariables (st : ConverterState) : String :=
  let categories :=
    st.extractedVariables.foldl
      (fun m e => jmPush m (categoryStr e.2.category) e.2) []
  ["color", "size", "font", "other"].foldl
    (fun acc categoryName =>
      match jmGet categories categoryName with
      | some vs =>
        if vs.length > 0 then
          acc ++ "\n// " ++ capitalizeStr categoryName ++ " variables\n" ++
            String.join
              ((stableSortBy varNameAsc vs).map fun v =>
                v.name ++ ": " ++ v.value ++ ";\n")
        else acc
      | none => acc)
    "// Variables\n"

/-! ### Duplicate detection and media-query grouping -/

/-- jsMediaKey models `rule.mediaQuery || "default"`. -/
def jsMediaKey (r : ParsedRule) : String :=
  match r.mediaQuery with
  | none => "default"
  | some q => if q = "" then "default" else q

/-- bbStep is the loop body of the grouping pass of
`detectAndMergeDuplicates`: file one rule under its media key and
declaration hash. -/
def bbStep (groups : List (String × List (String × List ParsedRule)))
    (rule : ParsedRule) : List (String × List (String × List ParsedRule)) :=
  let mediaKey := jsMediaKey rule
  let declHash := generateDeclarationHash rule.declarations
  jmUpd groups mediaKey [] fun inner => jmPush inner declHash rule

/-- buildBuckets is the grouping pass of `detectAndMergeDuplicates`: an
insertion-ordered map from media key to an insertion-ordered map from
declaration hash to the rules carrying it, in source order. -/
def buildBuckets (rules : List ParsedRule) :
    List (String × List (String × List ParsedRule)) :=
  rules.foldl bbStep []

/-- bucketOutput is the merge pass of `detectAndMergeDuplicates` for one
hash bucket: buckets of two or more rules whose first member is not a comment
pseudo-rule and whose members all pass `declarationsEqual` collapse to a
single rule with the comma-joined selector; all other buckets are emitted
unchanged (with the media query rewritten from the bucket key either way). -/
def bucketOutput (mediaKey declHash : String)
    (duplicateRules : List ParsedRule) : List ParsedRule :=
  let rewrittenQuery : Option String :=
    if mediaKey = "default" then none else some mediaKey
  match duplicateRules with
  | [] => []
  | firstRule :: _ =>
    if 1 < duplicateRules.length ∧ ¬ firstRule.selector = "/* COMMENT */" then
      let allIdentical := duplicateRules.all fun rule =>
        declarationsEqual rule.declarations firstRule.declarations
      if allIdentical then
        [{ firstRule with
            selector :=
              String.intercalate ", " (duplicateRules.map (·.selector))
            mediaQuery := rewrittenQuery
            hash := some ("merged-" ++ declHash) }]
      else duplicateRules.map fun r => { r with mediaQuery := rewrittenQuery }
    else duplicateRules.map fun r => { r with mediaQuery := rewrittenQuery }

/-- detectAndMergeDuplicates mirrors the method of the same name: group by
media key, then by declaration hash, and merge each qualifying bucket. -/
def detectAndMergeDuplicates (rules : List ParsedRule) : List ParsedRule :=
  (buildBuckets rules).flatMap fun mg =>
    mg.2.flatMap fun bucket => bucketOutput mg.1 bucket.1 bucket.2

/-- groupByMediaQuery mirrors the method of the same name (the key is
`rule.mediaQuery || ""`). -/
def groupByMediaQuery (rules : List ParsedRule) :
    List (String × List ParsedRule) :=
  rules.foldl (fun gs r => jmPush gs ((r.mediaQuery).getD "") r) []

/-! ### The nesting tree

`NestedRule` models the tree-node interface of the same name; `children` is a
JavaScript `Map` from selector fragment to node, modelled as an
insertion-ordered association list.  (The `mediaQuery` and `duplicateCount`
fields of the interface are never assigned by this class and are omitted.)
The source mutates nodes through references obtained from the map; the model
rebuilds the tree along the accessed path (`withChildAt`). -/

inductive NestedRule where
  | mk (selector : String) (declarations : List Declaration)
      (children : List (String × NestedRule))
      (bemInfo : Option AdvancedBEMInfo)

/-- NestedRule.selector projects the selector fragment. -/
def NestedRule.selector : NestedRule → String
  | NestedRule.mk s _ _ _ => s

/-- NestedRule.declarations projects the declaration list. -/
def NestedRule.declarations : NestedRule → List Declaration
  | NestedRule.mk _ d _ _ => d

/-- NestedRule.children projects the children map. -/
def NestedRule.children : NestedRule → List (String × NestedRule)
  | NestedRule.mk _ _ c _ => c

/-- NestedRule.bemInfo projects the BEM annotation. -/
def NestedRule.bemInfo : NestedRule → Option AdvancedBEMInfo
  | NestedRule.mk _ _ _ b => b

mutual

/-- nrNodeCount counts the nodes of a nesting tree (used as formatting
fuel: recursion descends strictly into children). -/
def nrNodeCount : NestedRule → Nat
  | NestedRule.mk _ _ cs _ => 1 + nrListCount cs

/-- nrListCount counts the nodes under a children map. -/
def nrListCount : List (String × NestedRule) → Nat
  | [] => 0
  | (_, n) :: t => nrNodeCount n + nrListCount t

end

/-- emptyChildNode is the fresh `{selector, declarations: [], children: new
Map()}` node created before descending. -/
def emptyChildNode (sel : String) : NestedRule :=
  NestedRule.mk sel [] [] none

/-- NestedRule.pushDecls models `node.declarations.push(...)`. -/
def NestedRule.pushDecls (n : NestedRule) (ds : List Declaration) : NestedRule :=
  match n with
  | NestedRule.mk s d c b => NestedRule.mk s (d ++ ds) c b

/-- NestedRule.withChildAt models the `if (!children.has(k))
children.set(k, init); mutate(children.get(k)!)` pattern: ensure the child
exists, then transform it in place. -/
def NestedRule.withChildAt (n : NestedRule) (key : String) (init : NestedRule)
    (f : NestedRule → NestedRule) : NestedRule :=
  match n with
  | NestedRule.mk s d c b =>
    if c.any fun p => p.1 = key then
      NestedRule.mk s d (c.map fun p => if p.1 = key then (p.1, f p.2) else p) b
    else
      NestedRule.mk s d (c ++ [(key, f init)]) b

/-- NestedRule.setChild models a plain `children.set(k, child)`. -/
def NestedRule.setChild (n : NestedRule) (key : String) (child : NestedRule) :
    NestedRule :=
  match n with
  | NestedRule.mk s d c b =>
    if c.any fun p => p.1 = key then
      NestedRule.mk s d (c.map fun p => if p.1 = key then (key, child) else p) b
    else NestedRule.mk s d (c ++ [(key, child)]) b

/-- addAtPath descends/creates the chain of children given by `path` and
applies `f` to the final node, rebuilding the tree on the way back up. -/
def addAtPath (path : List (String × NestedRule)) (f : NestedRule → NestedRule)
    (n : NestedRule) : NestedRule :=
  match path with
  | [] => f n
  | (key, init) :: rest => n.withChildAt key init (addAtPath rest f)

/-- pseudoNotInEscaped is the character class `[^,\\s]` that appears (with a
doubled backslash, hence a literal backslash and the letter `s`) in
`addBEMBlockRule`, `addBEMModifier` and `addAdvancedBEMElementModifier`. -/
def pseudoNotInEscaped (c : Char) : Bool :=
  ¬ (c = ',' || c = '\\' || c = 's')

/-- pseudoNotInWs is the character class `[^,\s]` (not a comma, not
whitespace) used in `addAdvancedBEMElement`. -/
def pseudoNotInWs (c : Char) : Bool :=
  ¬ (c = ',' || c.isWhitespace)

/-- findPseudo models `selector.match(/(:+[allowed]+)/)`: the first (leftmost)
match of one or more colons followed by at least one allowed character, with
the engine backtracking on the colon run (a colon is itself an allowed
character in both classes used by the source, so a run of two or more colons
matches even when the following character is disallowed). -/
def findPseudo (allowed : Char → Bool) : List Char → Option String
  | [] => none
  | c :: rest =>
    if c = ':' then
      let colons := 1 + (rest.takeWhile fun d => d = ':').length
      let after := (c :: rest).drop colons
      let run := after.takeWhile allowed
      if ¬ run.isEmpty then some (((c :: rest).take colons) ++ run).asString
      else if 2 ≤ colons then some ((c :: rest).take colons).asString
      else findPseudo allowed rest
    else findPseudo allowed rest

/-- addBEMBlockRule mirrors the method of the same name: declarations go to a
`&:pseudo` child when the selector has a pseudo suffix, else to the block
node itself. -/
def addBEMBlockRule (blockNode : NestedRule) (rule : ParsedRule) : NestedRule :=
  match findPseudo pseudoNotInEscaped rule.selector.toList with
  | some m =>
    let pseudoSelector := "&" ++ m
    blockNode.withChildAt pseudoSelector (emptyChildNode pseudoSelector)
      fun c => c.pushDecls rule.declarations
  | none => blockNode.pushDecls rule.declarations

/-- elementPath is the chain of `&__element` children (with their sliced BEM
annotations) that `addAdvancedBEMElement` descends. -/
def elementPath (bi : AdvancedBEMInfo) : List (String × NestedRule) :=
  bi.elements.enum.map fun ie =>
    ("&__" ++ ie.2,
      NestedRule.mk ("&__" ++ ie.2) [] []
        (some { block := bi.block, elements := bi.elements.take (ie.1 + 1),
                modifier := none, type := "element", level := ie.1 + 1 }))

/-- addAdvancedBEMElement mirrors the method of the same name: descend/create
one child per element level, then attach the declarations (under a pseudo
child when the selector has a pseudo suffix; this method uses the
whitespace-aware pseudo class). -/
def addAdvancedBEMElement (blockNode : NestedRule) (rule : ParsedRule) :
    NestedRule :=
  match rule.bemInfo with
  | none => blockNode
  | some bi =>
    if bi.elements.isEmpty then blockNode
    else
      addAtPath (elementPath bi)
        (fun node =>
          match findPseudo pseudoNotInWs rule.selector.toList with
          | some m =>
            let pseudoSelector := "&" ++ m
            node.withChildAt pseudoSelector (emptyChildNode pseudoSelector)
              fun c => c.pushDecls rule.declarations
          | none => node.pushDecls rule.declarations)
        blockNode

/-- addBEMModifier mirrors the method of the same name. -/
def addBEMModifier (blockNode : NestedRule) (rule : ParsedRule) : NestedRule :=
  match rule.bemInfo with
  | none => blockNode
  | some bi =>
    if ¬ jsTruthyStrOpt bi.modifier then blockNode
    else
      let modifierSelector := "&--" ++ (bi.modifier).getD ""
      blockNode.withChildAt modifierSelector
        (NestedRule.mk modifierSelector [] [] rule.bemInfo)
        fun modifierNode =>
          match findPseudo pseudoNotInEscaped rule.selector.toList with
          | some m =>
            let pseudoSelector := "&" ++ m
            modifierNode.withChildAt pseudoSelector
              (emptyChildNode pseudoSelector)
              fun c => c.pushDecls rule.declarations
          | none => modifierNode.pushDecls rule.declarations

/-- addAdvancedBEMElementModifier mirrors the method of the same name:
descend the element chain, then a `&--modifier` child, then the optional
pseudo child. -/
def addAdvancedBEMElementModifier (blockNode : NestedRule) (rule : ParsedRule) :
    NestedRule :=
  match rule.bemInfo with
  | none => blockNode
  | some bi =>
    if ¬ jsTruthyStrOpt bi.modifier then blockNode
    else
      addAtPath (elementPath bi)
        (fun node =>
          let modifierSelector := "&--" ++ (bi.modifier).getD ""
          node.withChildAt modifierSelector
            (NestedRule.mk modifierSelector [] [] rule.bemInfo)
            fun modifierNode =>
              match findPseudo pseudoNotInEscaped rule.selector.toList with
              | some m =>
                let pseudoSelector := "&" ++ m
                modifierNode.withChildAt pseudoSelector
                  (emptyChildNode pseudoSelector)
                  fun c => c.pushDecls rule.declarations
              | none => modifierNode.pushDecls rule.declarations)
        blockNode

/-- buildAdvancedBEMBlock mirrors the method of the same name: ensure the
`.block` node exists, then dispatch every rule of the block on its BEM type. -/
def buildAdvancedBEMBlock (blockName : String) (rules : List ParsedRule)
    (root : NestedRule) : NestedRule :=
  let blockSelector := "." ++ blockName
  root.withChildAt blockSelector
    (NestedRule.mk blockSelector [] []
      (some { block := blockName, elements := [], modifier := none,
              type := "block", level := 0 }))
    fun blockNode =>
      rules.foldl
        (fun bn rule =>
          match rule.bemInfo with
          | none => bn
          | some bi =>
            if bi.type = "block" then addBEMBlockRule bn rule
            else if bi.type = "element" then addAdvancedBEMElement bn rule
            else if bi.type = "modifier" then addBEMModifier bn rule
            else if bi.type = "element-modifier" then
              addAdvancedBEMElementModifier bn rule
            else bn)
        blockNode

/-- extractBasePattern mirrors the method of the same name: comma-joined
selectors keep their full text; otherwise the first token (split on
whitespace, `>`, `+`, `~`), trimmed, with pseudo suffixes removed. -/
def extractBasePattern (selector : String) : String :=
  if strContains selector "," then selector
  else
    let parts := jsSplitChars selSepChar selector
    let firstPart := jsTrimStr (parts.headD "")
    (stripPseudoList firstPart.toList).asString

/-- removeFirstDotHash models `replace(/[.#]/, "")` (first occurrence only,
no global flag). -/
def removeFirstDotHash (s : String) : String :=
  (removeFirstDotHashList s.toList).asString
where
  removeFirstDotHashList : List Char → List Char
    | [] => []
    | c :: rest =>
      if c = '.' || c = '#' then rest else c :: removeFirstDotHashList rest

/-- parseComplexSelector mirrors the method of the same name. -/
def parseComplexSelector (selector basePattern : String) : List String :=
  let parts :=
    (jsSplitChars (fun c => c.isWhitespace) selector).filter
      fun p => 0 < p.length
  match parts.findIdx? fun part =>
      strContains part (removeFirstDotHash basePattern) with
  | some baseIndex => parts.drop (baseIndex + 1)
  | none => parts

/-- insertComplexNestedRule mirrors the method of the same name: descend a
chain of literal-token children and push the declarations at the end. -/
def insertComplexNestedRule (selectorParts : List String)
    (declarations : List Declaration) (parent : NestedRule) : NestedRule :=
  addAtPath (selectorParts.map fun part => (part, emptyChildNode part))
    (fun n => n.pushDecls declarations) parent

/-- insertSmartNestedRule mirrors the method of the same name. -/
def insertSmartNestedRule (rule : ParsedRule) (baseNode : NestedRule)
    (basePattern : String) : NestedRule :=
  let selector := rule.selector
  if strContains selector "," then baseNode.pushDecls rule.declarations
  else if selector = basePattern then baseNode.pushDecls rule.declarations
  else if strStartsWith selector basePattern then
    let nestedPart := (selector.toList.drop basePattern.length).asString
    let nestedSelector := "&" ++ nestedPart
    baseNode.withChildAt nestedSelector (emptyChildNode nestedSelector)
      fun c => c.pushDecls rule.declarations
  else
    insertComplexNestedRule (parseComplexSelector selector basePattern)
      rule.declarations baseNode

/-- groupRulesByPattern mirrors the method of the same name. -/
def groupRulesByPattern (rules : List ParsedRule) :
    List (String × List ParsedRule) :=
  rules.foldl
    (fun groups rule =>
      if rule.selector = "/* COMMENT */" then jmPush groups "COMMENTS" rule
      else if strStartsWith rule.selector "@" then
        jmPush groups rule.selector rule
      else jmPush groups (extractBasePattern rule.selector) rule)
    []

/-- buildSmartNestedGroup mirrors the method of the same name. -/
def buildSmartNestedGroup (basePattern : String) (rules : List ParsedRule)
    (root : NestedRule) : NestedRule :=
  if basePattern = "COMMENTS" then
    rules.foldl (fun r rule => r.pushDecls rule.declarations) root
  else if strStartsWith basePattern "@" then
    rules.foldl
      (fun r rule =>
        r.setChild rule.selector
          (NestedRule.mk rule.selector rule.declarations [] none))
      root
  else
    root.withChildAt basePattern (emptyChildNode basePattern)
      fun baseNode =>
        rules.foldl (fun bn rule => insertSmartNestedRule rule bn basePattern)
          baseNode

/-- buildSmartNestedStructure mirrors the method of the same name. -/
def buildSmartNestedStructure (rules : List ParsedRule) (root : NestedRule) :
    NestedRule :=
  (groupRulesByPattern rules).foldl
    (fun r g => buildSmartNestedGroup g.1 g.2 r) root

/-- buildBasicNestedStructure mirrors the method of the same name. -/
def buildBasicNestedStructure (rules : List ParsedRule) (root : NestedRule) :
    NestedRule :=
  rules.foldl
    (fun r rule =>
      if rule.selector = "/* COMMENT */" then r.pushDecls rule.declarations
      else
        insertComplexNestedRule
          ((jsSplitChars (fun c => c.isWhitespace) rule.selector).filter
            fun p => 0 < p.length)
          rule.declarations r)
    root

/-- buildAdvancedBEMStructure mirrors the method of the same name: one pass
partitions the rules (comments to the root declarations, at-rules aside,
BEM rules per block, the rest to smart nesting), then at-rules become direct
root children, BEM blocks are built, and non-BEM rules are smart-nested into
the same root. -/
def buildAdvancedBEMStructure (rules : List ParsedRule) (root : NestedRule) :
    NestedRule :=
  let acc :=
    rules.foldl
      (fun (a : List Declaration × List ParsedRule ×
            List (String × List ParsedRule) × List ParsedRule) rule =>
        if rule.selector = "/* COMMENT */" then
          (a.1 ++ rule.declarations, a.2.1, a.2.2.1, a.2.2.2)
        else if strStartsWith rule.selector "@" then
          (a.1, a.2.1 ++ [rule], a.2.2.1, a.2.2.2)
        else
          match rule.bemInfo with
          | some bi => (a.1, a.2.1, jmPush a.2.2.1 bi.block rule, a.2.2.2)
          | none => (a.1, a.2.1, a.2.2.1, a.2.2.2 ++ [rule]))
      ([], [], [], [])
  let root1 := root.pushDecls acc.1
  let root2 :=
    acc.2.1.foldl
      (fun r rule =>
        r.setChild rule.selector
          (NestedRule.mk rule.selector rule.declarations [] none))
      root1
  let root3 :=
    acc.2.2.1.foldl (fun r g => buildAdvancedBEMBlock g.1 g.2 r) root2
  if ¬ acc.2.2.2.isEmpty then buildSmartNestedStructure acc.2.2.2 root3
  else root3

/-- buildAdvancedNestedStructure mirrors the method of the same name: BEM
mode first, else smart nesting, else basic. -/
def buildAdvancedNestedStructure (cfg : Opts) (rules : List ParsedRule) :
    NestedRule :=
  let root := NestedRule.mk "" [] [] none
  if cfg.enableBEM then buildAdvancedBEMStructure rules root
  else if cfg.enableSmartNesting then buildSmartNestedStructure rules root
  else buildBasicNestedStructure rules root

/-! ### SCSS formatting -/

/-- getIndent mirrors the method of the same name. -/
def getIndent (cfg : Opts) (depth : Nat) : String :=
  let unit :=
    if cfg.indentType = IndentType.tabs then "\t"
    else (List.replicate cfg.indentSize ' ').asString
  String.join (List.replicate depth unit)

/-- indentContent mirrors the method of the same name: indent every line
whose trimmed form is nonempty. -/
def indentContent (cfg : Opts) (content : String) (level : Nat) : String :=
  let indent := getIndent cfg level
  String.intercalate "\n"
    ((strSplitOn content "\n").map fun line =>
      if ¬ jsTrimStr line = "" then indent ++ line else line)

/-- stripOuterBraces models `replace` with the anchored outer-brace regex
(global): one leading opening brace and one trailing closing brace are
removed. -/
def stripOuterBraces (s : String) : String :=
  let l := s.toList
  let l1 :=
    match l with
    | '\x7b' :: t => t
    | t => t
  ((match l1.getLast? with
    | some '\x7d' => l1.dropLast
    | _ => l1)).asString

/-- kfSegHead matches the alternation `(\d+%|from|to)` at the head of the
input, returning the matched length. -/
def kfSegHead (cs : List Char) : Option Nat :=
  let ds := cs.takeWhile Char.isDigit
  if ¬ ds.isEmpty ∧ (cs.drop ds.length).head? = some '%' then
    some (ds.length + 1)
  else if cs.take 4 = "from".toList then some 4
  else if cs.take 2 = "to".toList then some 2
  else none

/-- kfFindSegsAux models the global match of the keyframe-step regex (a
step token, optional whitespace, then a brace-delimited body with no nested
braces), returning each matched segment in order; every step consumes at
least one character, so fuel bounded by the input length is always
sufficient. -/
def kfFindSegsAux : Nat → List Char → List String
  | _, [] => []
  | 0, _ => []
  | fuel + 1, c :: rest =>
    let cs := c :: rest
    match kfSegHead cs with
    | some hl =>
      let afterHead := cs.drop hl
      let ws := afterHead.takeWhile Char.isWhitespace
      let r2 := afterHead.drop ws.length
      if r2.head? = some '\x7b' then
        let content := (r2.drop 1).takeWhile fun d => ¬ d = '\x7d'
        if ((r2.drop 1).drop content.length).head? = some '\x7d' then
          let consumed := hl + ws.length + 1 + content.length + 1
          (cs.take consumed).asString :: kfFindSegsAux fuel (cs.drop consumed)
        else kfFindSegsAux fuel rest
      else kfFindSegsAux fuel rest
    | none => kfFindSegsAux fuel rest

/-- kfFindSegs runs `kfFindSegsAux` with enough fuel. -/
def kfFindSegs (l : List Char) : List String :=
  kfFindSegsAux (l.length + 1) l

/-- formatKeyframeRule mirrors the method of the same name: re-parse one
captured keyframe segment and re-emit it with first-wins property
deduplication. -/
def formatKeyframeRule (cfg : Opts) (rule : String) (depth : Nat) : String :=
  let indent := getIndent cfg depth
  let cs := rule.toList
  let run := cs.takeWhile fun c => c.isDigit || c = '%'
  let headTok :=
    if ¬ run.isEmpty then some (run, cs.drop run.length)
    else if cs.take 4 = "from".toList then some ("from".toList, cs.drop 4)
    else if cs.take 2 = "to".toList then some ("to".toList, cs.drop 2)
    else none
  match headTok with
  | none => ""
  | some (keyframe, afterHead) =>
    let ws := afterHead.takeWhile Char.isWhitespace
    let r2 := afterHead.drop ws.length
    if r2.head? = some '\x7b' then
      let t := r2.drop 1
      if t.getLast? = some '\x7d' ∧ ¬ t.dropLast.isEmpty then
        let declsText := (t.dropLast).asString
        let declPairs := (strSplitOn declsText ";").filter fun d => ¬ jsTrimStr d = ""
        let body :=
          (declPairs.foldl
            (fun (acc : String × List String) decl =>
              let parts := (strSplitOn decl ":").map jsTrimStr
              let prop := parts.headD ""
              match parts.get? 1 with
              | some v =>
                if ¬ prop = "" ∧ ¬ v = "" ∧ ¬ acc.2.contains prop then
                  (acc.1 ++ getIndent cfg (depth + 1) ++ prop ++ ": " ++ v ++
                    ";\n", prop :: acc.2)
                else acc
              | none => acc)
            ("", [])).1
        indent ++ keyframe.asString ++ " \x7b\n" ++ body ++ indent ++ "\x7d\n\n"
      else ""
    else ""

/-- childSelLe converts the child-sorting comparator of `formatSCSS` (element
children before modifier children, then name order) into a stable-sort
relation. -/
def childSelLe (a b : String) : Bool :=
  if strStartsWith a "&__" ∧ strStartsWith b "&--" then true
  else if strStartsWith a "&--" ∧ strStartsWith b "&__" then false
  else strLeB a b

/-- declSortLe converts the property-sorting comparator of `formatSCSS`
(comments and property-less declarations compare equal) into a stable-sort
relation.  `localeCompare` is modelled as code-point comparison, an
approximation: ICU collation weighs the dash of properties such as the
`-webkit-` family at lower strength, so `sortProperties` output can order
such properties differently in the program.  No theorem of this development
depends on this order. -/
def declSortLe (a b : Declaration) : Bool :=
  if a.kind = DeclKind.comment ∨ b.kind = DeclKind.comment then true
  else
    match a.property, b.property with
    | some pa, some pb =>
      if pa = "" ∨ pb = "" then true else strLeB pa pb
    | _, _ => true

/-- formatSCSSAux mirrors the `formatSCSS` method: top-level comments
first, then each child in (optionally sorted) order, with special branches
for keyframes at-rules and other at-rules, and recursion into nested
children.  The fuel only serves termination; recursion descends strictly
into children, so fuel equal to the node count is always sufficient. -/
def formatSCSSAux (cfg : Opts) : Nat → NestedRule → Nat → String
  | 0, _, _ => ""
  | fuel + 1, NestedRule.mk _sel decls children _bem, depth =>
    let indent := getIndent cfg depth
    let head :=
      if depth = 0 ∧ 0 < decls.length then
        String.join
          (decls.map fun decl =>
            if decl.kind = DeclKind.comment then
              "/* " ++ decl.value ++ " */\n"
            else "") ++ "\n"
      else ""
    let ordered :=
      if cfg.sortProperties then
        stableSortBy (fun a b => childSelLe a.1 b.1) children
      else children
    let body :=
      ordered.foldl
        (fun acc pc =>
          let csel := pc.1
          let child := pc.2
          if 0 < child.declarations.length ∨ 0 < child.children.length then
            if strStartsWith csel "@keyframes" ||
                strStartsWith csel "@-webkit-keyframes" then
              acc ++ indent ++ csel ++ " \x7b\n" ++
                String.join
                  (child.declarations.map fun decl =>
                    if decl.property = some "@keyframes-block" then
                      let keyframeContent := jsTrimStr (stripOuterBraces decl.value)
                      String.join
                        ((kfFindSegs keyframeContent.toList).map fun seg =>
                          formatKeyframeRule cfg seg (depth + 1))
                    else "") ++
                indent ++ "\x7d\n\n"
            else if strStartsWith csel "@" then
              acc ++ indent ++ csel ++ " \x7b\n" ++
                String.join
                  (child.declarations.map fun decl =>
                    if decl.kind = DeclKind.comment then
                      getIndent cfg (depth + 1) ++ "/* " ++ decl.value ++ " */\n"
                    else if jsTruthyStrOpt decl.property ∧
                        ¬ decl.property = some "@keyframes-block" then
                      getIndent cfg (depth + 1) ++ (decl.property).getD "" ++
                        ": " ++ decl.value ++
                        (if decl.important then " !important" else "") ++ ";\n"
                    else "") ++
                indent ++ "\x7d\n\n"
            else
              let sortedDecls :=
                if cfg.sortProperties then
                  stableSortBy declSortLe child.declarations
                else child.declarations
              let declLines :=
                String.join
                  (sortedDecls.map fun decl =>
                    if decl.kind = DeclKind.comment then
                      getIndent cfg (depth + 1) ++ "/* " ++ decl.value ++ " */\n"
                    else if jsTruthyStrOpt decl.property then
                      getIndent cfg (depth + 1) ++ (decl.property).getD "" ++
                        ": " ++ decl.value ++
                        (if decl.important then " !important" else "") ++ ";\n"
                    else "")
              let nestedPart :=
                if 0 < child.children.length then
                  (if 0 < child.declarations.length then "\n" else "") ++
                    formatSCSSAux cfg fuel child (depth + 1)
                else ""
              acc ++ indent ++ csel ++ " \x7b\n" ++ declLines ++ nestedPart ++
                indent ++ "\x7d\n" ++ (if depth = 0 then "\n" else "")
          else acc)
        ""
    head ++ body

/-- formatSCSS runs `formatSCSSAux` with enough fuel. -/
def formatSCSS (cfg : Opts) (structure1 : NestedRule) (depth : Nat) : String :=
  formatSCSSAux cfg (nrNodeCount structure1) structure1 depth

/-- convertModel mirrors `convert`.  The external parser is the input
boundary: a parse failure is the only exception source inside the `try`
block, and the `catch` wraps its message.  The converter state is threaded in
and out because the instance maps persist across calls. -/
def convertModel (o : ConvOptions) (st : ConverterState)
    (parsed : Except String (List CssNode)) :
    Except String (String × ConverterState) :=
  let cfg := o.used
  match parsed with
  | Except.error msg => Except.error ("Failed to convert CSS: " ++ msg)
  | Except.ok ast =>
    let rules := extractRules cfg ast
    let stAndRules :=
      if cfg.enableVariableExtraction then
        let stB := extractVariables cfg (analyzeVariableCandidates cfg st rules)
        (stB, replaceValuesWithVariables cfg stB rules)
      else (st, rules)
    let st1 := stAndRules.1
    let rules1 := stAndRules.2
    let deduplicatedRules :=
      if cfg.enableDuplicateDetection then detectAndMergeDuplicates rules1
      else rules1
    let mediaGroups :=
      if cfg.enableMediaQueryGrouping then groupByMediaQuery deduplicatedRules
      else [("", deduplicatedRules)]
    let varsHeader :=
      if cfg.enableVariableExtraction ∧ 0 < st1.extractedVariables.length then
        formatVariables st1 ++ "\n"
      else ""
    let body :=
      mediaGroups.foldl
        (fun acc g =>
          let formatted := formatSCSS cfg (buildAdvancedNestedStructure cfg g.2) 0
          if ¬ g.1 = "" then
            acc ++ "@media " ++ g.1 ++ " \x7b\n" ++
              indentContent cfg formatted 1 ++ "\x7d\n\n"
          else acc ++ formatted)
        ""
    Except.ok (jsTrimStr (varsHeader ++ body) ++ "\n", st1)

/-! ### Statement-side definitions

These definitions are used to state the claims: the keep-last filter that
describes the declaration deduplication, the eligible (property, value)
occurrence pairs that variable analysis counts, the claim-side variable count
(written from the claim text, for comparison with the code), a media-node
search for the media-context theorem, and concrete input fixtures. -/

/-- sameDeclKeyB is the property-plus-important key comparison used by the
declaration deduplication of `extractRules`. -/
def sameDeclKeyB (d e : Declaration) : Bool :=
  d.property == e.property && d.important == e.important

/-- keepLastDecls keeps, in source order, only the last declaration of each
(property, important) key: the standard statement of last-wins
deduplication. -/
def keepLastDecls : List Declaration → List Declaration
  | [] => []
  | d :: rest =>
    if rest.any (sameDeclKeyB d) then keepLastDecls rest
    else d :: keepLastDecls rest

/-- declSelPairs flattens the rules into the (selector, declaration) sequence
that `analyzeVariableCandidates` iterates. -/
def declSelPairs (rules : List ParsedRule) : List (String × Declaration) :=
  rules.flatMap fun r => r.declarations.map fun d => (r.selector, d)

/-- eligibleDeclB decides whether `analyzeVariableCandidates` counts a
declaration: a declaration node with truthy property and value whose category
is enabled. -/
def eligibleDeclB (cfg : Opts) (d : Declaration) : Bool :=
  match d.property with
  | some p =>
    decide (d.kind = DeclKind.decl ∧ ¬ p = "" ∧ ¬ d.value = "") &&
      shouldExtractCategory cfg (categorizeValue p d.value)
  | none => false

/-- eligiblePairs is the subsequence of `declSelPairs` that variable analysis
counts. -/
def eligiblePairs (cfg : Opts) (rules : List ParsedRule) :
    List (String × Declaration) :=
  (declSelPairs rules).filter fun sd => eligibleDeclB cfg sd.2

/-- declKeyOf is the `property:value` candidate key of a declaration. -/
def declKeyOf (d : Declaration) : String :=
  (d.property).getD "" ++ ":" ++ d.value

/-- declCatOf is the category a declaration is counted under. -/
def declCatOf (d : Declaration) : ValueCategory :=
  match d.property with
  | some p => categorizeValue p d.value
  | none => ValueCategory.other

/-- specTotalOccCountC1 follows the claim text of C1: the total occurrence
count of a (category, value) pair summed across all contributing
(property, value) pairs. -/
def specTotalOccCountC1 (cfg : Opts) (rules : List ParsedRule)
    (cv : ValueCategory × String) : Nat :=
  ((eligiblePairs cfg rules).filter fun sd =>
    declCatOf sd.2 = cv.1 ∧ sd.2.value = cv.2).length

/-- specClaimVariableCountC1 follows the claim text of C1 (not the code): the
number of distinct (category, value) pairs whose total occurrence count,
summed across all contributing (property, value) pairs, reaches
`minOccurrences`. -/
def specClaimVariableCountC1 (cfg : Opts) (rules : List ParsedRule) : Nat :=
  ((((eligiblePairs cfg rules).map fun sd =>
      (declCatOf sd.2, sd.2.value)).dedup).filter fun cv =>
    cfg.minOccurrences ≤ specTotalOccCountC1 cfg rules cv).length

/-- runFreshVariableAnalysis runs the variable analysis and extraction steps
of `convert` on a freshly constructed converter. -/
def runFreshVariableAnalysis (cfg : Opts) (rules : List ParsedRule) :
    ConverterState :=
  extractVariables cfg (analyzeVariableCandidates cfg {} rules)

/-- isMediaNode recognizes a `@media` at-rule node. -/
def isMediaNode : CssNode → Bool
  | CssNode.media _ _ => true
  | _ => false

/-- containsMediaAux searches the worklist (at any depth) for a `@media`
node, following the same worklist recursion as `walkAux`. -/
def containsMediaAux : Nat → List CssNode → Bool
  | _, [] => false
  | 0, _ => false
  | fuel + 1, n :: rest =>
    if isMediaNode n then true
    else containsMediaAux fuel (nodeChildren n ++ rest)

/-- containsMediaNode decides whether any node of the worklist (at any
depth) is a `@media` at-rule. -/
def containsMediaNode (ws : List CssNode) : Bool :=
  containsMediaAux (cssListCount ws + 1) ws

/-- sameBucketB decides whether a rule falls in the duplicate-detection
bucket keyed by media key `mk` and declaration hash `h`. -/
def sameBucketB (mk h : String) (r : ParsedRule) : Bool :=
  decide (jsMediaKey r = mk) &&
    decide (generateDeclarationHash r.declarations = h)

/-! ### Concrete input fixtures -/

/-- optsDefault is the option record of a converter constructed with no
options, as in `new VariableEnhancedCSSToSCSSConverter()`. -/
def optsDefault : ConvOptions := resolveOptions {}

/-- cfgDefault is the pipeline part of the default options. -/
def cfgDefault : Opts := optsDefault.used

/-- astTwoSameColor is the AST of
`.a { color: #007bff; } .b { color: #007bff; }`. -/
def astTwoSameColor : List CssNode :=
  [ CssNode.rule ".a" [CssNode.declNode "color" "#007bff" false],
    CssNode.rule ".b" [CssNode.declNode "color" "#007bff" false] ]

/-- c2FirstRun is the first `convert` call of the C2 scenario, on a fresh
converter. -/
def c2FirstRun : Except String (String × ConverterState) :=
  convertModel optsDefault {} (Except.ok astTwoSameColor)

/-- outputOf projects the output text of a conversion result. -/
def outputOf (e : Except String (String × ConverterState)) : String :=
  match e with
  | Except.ok (s, _) => s
  | Except.error m => "ERROR: " ++ m

/-- stateOf projects the converter state after a conversion. -/
def stateOf (e : Except String (String × ConverterState)) : ConverterState :=
  match e with
  | Except.ok (_, st) => st
  | Except.error _ => {}

/-- c2SecondRun is the second `convert` call on the same converter instance
with the same input. -/
def c2SecondRun : Except String (String × ConverterState) :=
  convertModel optsDefault (stateOf c2FirstRun) (Except.ok astTwoSameColor)

/-- astMediaThenRule is the AST of
`@media (max-width:768px) { .a { color: red; } } .b { color: blue; }`. -/
def astMediaThenRule : List CssNode :=
  [ CssNode.media "(max-width:768px)"
      [CssNode.rule ".a" [CssNode.declNode "color" "red" false]],
    CssNode.rule ".b" [CssNode.declNode "color" "blue" false] ]

/-- astPoisonedBucket is the AST of `.a {} .b {} /* c */`: the two empty
rules and the comment pseudo-rule all hash to the empty declaration hash. -/
def astPoisonedBucket : List CssNode :=
  [ CssNode.rule ".a" [], CssNode.rule ".b" [], CssNode.commentNode "c" ]

/-- astTwoPropsOneValue is the AST of
`.a { color: #ababab; } .b { background-color: #ababab; }`: two distinct
properties share one value, each occurring once. -/
def astTwoPropsOneValue : List CssNode :=
  [ CssNode.rule ".a" [CssNode.declNode "color" "#ababab" false],
    CssNode.rule ".b" [CssNode.declNode "background-color" "#ababab" false] ]

/-- bemInfoDotCard is the classification of the selector `.card`. -/
def bemInfoDotCard : AdvancedBEMInfo :=
  { block := "card", elements := [], modifier := none, type := "block",
    level := 0 }

/-- dRed is a simple `color: red` declaration fixture. -/
def dRed : Declaration :=
  { kind := DeclKind.decl, property := some "color", value := "red" }

/-- ruleDotA is a parsed `.a` rule carrying only `dRed`. -/
def ruleDotA : ParsedRule :=
  { selector := ".a", declarations := [dRed], specificity := [0, 1, 0],
    bemInfo := none, mediaQuery := none, hash := none }

/-- ruleDotB is the same rule under selector `.b`. -/
def ruleDotB : ParsedRule :=
  { ruleDotA with selector := ".b" }

/-- bbInv is the loop invariant of the grouping pass of
`detectAndMergeDuplicates` after the rules in `processed` have been filed:
every hash bucket holds exactly the processed rules of its media key and
declaration hash, in source order, and a missing inner or outer key means no
processed rule falls in the corresponding bucket. -/
def bbInv (processed : List ParsedRule)
    (acc : List (String × List (String × List ParsedRule))) : Prop :=
  (∀ mi ∈ acc, ∀ hb ∈ mi.2,
    hb.2 = processed.filter (sameBucketB mi.1 hb.1)) ∧
  (∀ mi ∈ acc, ∀ h', jmHas mi.2 h' = false →
    processed.filter (sameBucketB mi.1 h') = []) ∧
  (∀ mk', jmHas acc mk' = false → ∀ h',
    processed.filter (sameBucketB mk' h') = [])

/-- varWhite is a concrete extracted variable fixture. -/
def varWhite : ExtractedVariable :=
  { name := "$color-white", value := "#fff", category := ValueCategory.color,
    occurrences := 3 }

/-- stWhite is a converter state holding only `varWhite`. -/
def stWhite : ConverterState :=
  { variableCandidates := [], extractedVariables := [("color:#fff", varWhite)] }

/-- declWhite is a `color: #fff` declaration fixture. -/
def declWhite : Declaration :=
  { kind := DeclKind.decl, property := some "color", value := "#fff" }

/-- v2vOk relates the value-to-variable-name lookup map of
`replaceValuesWithVariables` to the extracted variables it was built from:
every map entry comes from some extracted variable, and every extracted
variable's value is present as a key. -/
def v2vOk (S : List (String × ExtractedVariable))
    (m : List (String × String)) : Prop :=
  (∀ v name, jmGet m v = some name →
    ∃ e ∈ S, e.2.value = v ∧ e.2.name = name) ∧
  (∀ e ∈ S, ∃ name, jmGet m e.2.value = some name)

/-- cntKey counts the pairs of `P` whose declaration carries the given `property:value` candidate key. -/
def cntKey (P : List (String × Declaration)) (k : String) : Nat :=
  (P.filter fun sd => declKeyOf sd.2 = k).length

/-- aInv is the loop invariant of `analyzeVariableCandidates` after the eligible pairs in `P` have been counted: occurrence entries and candidates carry exact per-key counts, candidate keys are the `property:value` strings of their records, records are coherent with `categorizeValue` and `generateVariableName`, every candidate has a contributing pair, missing keys have count zero, and candidate keys are distinct. -/
def aInv (cfg : Opts) (P : List (String × Declaration))
    (acc : List (String × OccInfo) × List (String × VariableCandidate)) :
    Prop :=
  (∀ ko ∈ acc.1, ko.2.count = cntKey P ko.1) ∧
  (∀ k, jmHas acc.1 k = false → cntKey P k = 0) ∧
  (∀ kc ∈ acc.2, kc.2.occurrences = cntKey P kc.1 ∧
    kc.1 = kc.2.property ++ ":" ++ kc.2.value ∧
    kc.2.category = categorizeValue kc.2.property kc.2.value ∧
    kc.2.suggestedName = generateVariableName cfg.varPfx kc.2.property
      kc.2.value kc.2.category ∧
    ∃ sd ∈ P, sd.2.property = some kc.2.property ∧
      sd.2.value = kc.2.value) ∧
  (∀ k, jmHas acc.2 k = false → cntKey P k = 0) ∧
  ((acc.2.map fun kc => kc.1).Nodup)

/-- occ1Of restates the updated `valueOccurrences` entry of the eligible branch of `analyzeStep` (proved equal in `analyzeStep_elig`). -/
def occ1Of (occs : List (String × OccInfo)) (k sel p : String) : OccInfo :=
  let occ0 :=
    match jmGet occs k with
    | some o => o
    | none => ({ count := 0, contexts := [], properties := [] } : OccInfo)
  { count := occ0.count + 1, contexts := occ0.contexts ++ [sel],
    properties := setAdd occ0.properties p }

/-- cands1Of restates the ensure-key step on the candidate map of the eligible branch of `analyzeStep`. -/
def cands1Of (cfg : Opts) (cands : List (String × VariableCandidate))
    (k p v : String) : List (String × VariableCandidate) :=
  if jmHas cands k then cands
  else
    jmSet cands k
      { value := v, property := p, occurrences := 0, contexts := [],
        category := categorizeValue p v,
        suggestedName :=
          generateVariableName cfg.varPfx p v (categorizeValue p v) }

/-- cands2Of restates the candidate-map update of the eligible branch of `analyzeStep`. -/
def cands2Of (cfg : Opts) (occs : List (String × OccInfo))
    (cands : List (String × VariableCandidate)) (k sel p v : String) :
    List (String × VariableCandidate) :=
  match jmGet (cands1Of cfg cands k p v) k with
  | some c =>
    jmSet (cands1Of cfg cands k p v) k
      { value := c.value, property := c.property,
        occurrences := (occ1Of occs k sel p).count,
        contexts := (occ1Of occs k sel p).contexts,
        category := c.category, suggestedName := c.suggestedName }
  | none => cands1Of cfg cands k p v

/-- passB decides the `minOccurrences` threshold test of `extractVariables` for one candidate. -/
def passB (cfg : Opts) (c : VariableCandidate) : Bool :=
  decide (cfg.minOccurrences ≤ c.occurrences)

/-- gInv is the loop invariant of the grouping pass of `extractVariables`: every value group holds exactly the threshold-passing candidates of its `category:value` key in source order, missing keys have no passing candidate, group keys are distinct, and groups are nonempty. -/
def gInv (cfg : Opts) (Q : List (String × VariableCandidate))
    (groups : List (String × List VariableCandidate)) : Prop :=
  (∀ g ∈ groups, g.2 = (Q.map fun kc => kc.2).filter fun c =>
    passB cfg c && decide (valueKeyOf c = g.1)) ∧
  (∀ gk, jmHas groups gk = false →
    ((Q.map fun kc => kc.2).filter fun c =>
      passB cfg c && decide (valueKeyOf c = gk)) = []) ∧
  ((groups.map fun g => g.1).Nodup) ∧
  (∀ g ∈ groups, ¬ g.2 = [])

/-- sumOcc is the group's summed occurrence count computed by `extractGroupStep`. -/
def sumOcc (cs : List VariableCandidate) : Nat :=
  cs.foldl (fun s c => s + c.occurrences) 0

/-- EPayload describes one extracted variable produced by the extraction fold: it comes from one value group, is keyed by the best (maximal-occurrence) candidate of that group, copies its value and category, carries the summed occurrences, and its name is the best suggested name possibly with a numeric uniqueness suffix. -/
def EPayload (G : List (String × List VariableCandidate))
    (e : String × ExtractedVariable) : Prop :=
  ∃ g ∈ G, ∃ best rest2, stableSortBy candOccDesc g.2 = best :: rest2 ∧
    e.1 = best.property ++ ":" ++ best.value ∧
    e.2.value = best.value ∧ e.2.category = best.category ∧
    e.2.occurrences = sumOcc g.2 ∧
    (e.2.name = best.suggestedName ∨
      ∃ k : Nat, e.2.name = best.suggestedName ++ "-" ++ toString k)

/-- bkOf is the best candidate's `property:value` key of a value group, if any. -/
def bkOf (g : String × List VariableCandidate) : Option String :=
  match stableSortBy candOccDesc g.2 with
  | [] => none
  | b :: _ => some (b.property ++ ":" ++ b.value)

/-- keyC is a candidate's `property:value` key. -/
def keyC (c : VariableCandidate) : String := c.property ++ ":" ++ c.value

/-- pairKeyStr renders a (category, value) pair as the `category:value` grouping key. -/
def pairKeyStr (cv : ValueCategory × String) : String :=
  categoryStr cv.1 ++ ":" ++ cv.2

/-- indOccCountC1 is the individual occurrence count of one `property:value` candidate key over the eligible pairs of a stylesheet. -/
def indOccCountC1 (cfg : Opts) (rules : List ParsedRule) (k : String) : Nat :=
  cntKey (eligiblePairs cfg rules) k

/-- codeVariableCountC1 follows the amended C1 text: the number of distinct (category, value) pairs among eligible pairs whose own `property:value` key individually reaches `minOccurrences`. -/
def codeVariableCountC1 (cfg : Opts) (rules : List ParsedRule) : Nat :=
  ((((eligiblePairs cfg rules).filter fun sd =>
      decide (cfg.minOccurrences ≤
        indOccCountC1 cfg rules (declKeyOf sd.2))).map fun sd =>
    (declCatOf sd.2, sd.2.value)).dedup).length

/-- codeTotalOccCountC1 follows the amended C1 text: the number of eligible pairs of the given (category, value) whose own `property:value` key individually reaches `minOccurrences`. -/
def codeTotalOccCountC1 (cfg : Opts) (rules : List ParsedRule)
    (cv : ValueCategory × String) : Nat :=
  ((eligiblePairs cfg rules).filter fun sd =>
    decide ((declCatOf sd.2, sd.2.value) = cv) &&
      decide (cfg.minOccurrences ≤
        indOccCountC1 cfg rules (declKeyOf sd.2))).length

/-! ### Theorems -/

/-- C7: for every input stylesheet, converter state and configuration, any
two values of the `maxNestingDepth` option produce identical `convert`
output: the option is resolved and stored by the constructor but never read
by the pipeline. -/
theorem c7_max_nesting_depth_advisory (i : OptionsInput) (a b : Option Nat)
    (st : ConverterState) (p : Except String (List CssNode)) :
    convertModel (resolveOptions { i with maxNestingDepth := a }) st p =
      convertModel (resolveOptions { i with maxNestingDepth := b }) st p :=
  rfl

/-- C9: `convert` fails exactly on the inputs the external parser rejects,
propagating a single wrapped error that carries the parser message and
producing no output; every parsed input (the empty stylesheet included)
produces a successful result. -/
theorem c9_error_iff_parse_failure (o : ConvOptions) (st : ConverterState)
    (p : Except String (List CssNode)) :
    (∀ msg, p = Except.error msg →
      convertModel o st p =
        Except.error ("Failed to convert CSS: " ++ msg)) ∧
    (∀ ast, p = Except.ok ast →
      ∃ out st1, convertModel o st p = Except.ok (out, st1)) := by
  constructor
  · intro msg h
    subst h
    rfl
  · intro ast h
    subst h
    exact ⟨_, _, rfl⟩

/-- Witness for C9 at the error input `bad` and at the empty stylesheet. -/
theorem c9_error_iff_parse_failure_witness :
    convertModel optsDefault {} (Except.error "bad") =
      Except.error "Failed to convert CSS: bad" ∧
    ∃ out st1,
      convertModel optsDefault {} (Except.ok []) = Except.ok (out, st1) :=
  ⟨(c9_error_iff_parse_failure optsDefault {} (Except.error "bad")).1 "bad" rfl,
   (c9_error_iff_parse_failure optsDefault {} (Except.ok [])).2 [] rfl⟩

/-- C2 (code bug evidence): `convert` is not a pure function of its input and
configuration on one converter instance.  The instance maps
`variableCandidates` and `extractedVariables` persist across calls, so
converting `.a { color: #007bff; } .b { color: #007bff; }` twice on the same
instance renames the variable to `$color-primary-blue-1` in the second
output: the two outputs differ byte-wise. -/
theorem c2_state_leak_across_calls :
    outputOf c2FirstRun =
      "// Variables\n\n// Color variables\n$color-primary-blue: #007bff;\n\n.a \x7b\n  color: $color-primary-blue;\n\x7d\n" ∧
    outputOf c2SecondRun =
      "// Variables\n\n// Color variables\n$color-primary-blue-1: #007bff;\n\n.a \x7b\n  color: $color-primary-blue-1;\n\x7d\n" ∧
    ¬ outputOf c2FirstRun = outputOf c2SecondRun := by
  refine ⟨rfl, rfl, ?_⟩
  decide

/-- Counterexample to C3: the selector list is split at every comma, with no
bracket awareness: `a[title="x,y"]` (a comma inside an attribute selector)
yields two `ParsedRule`s with mangled selectors, where the claim requires a
single rule. -/
theorem c3_counterexample_comma_in_brackets :
    (extractRules cfgDefault
      [CssNode.rule "a[title=\"x,y\"]"
        [CssNode.declNode "color" "red" false]]).map ParsedRule.selector =
      ["a[title=\"x", "y\"]"] := by
  rfl

/-- Counterexample to C4: a top-level rule that appears after the end of a
`@media` block (with no intervening `@media`) still carries that block's
query, because the walk never resets the context. -/
theorem c4_counterexample_media_persists :
    (extractRules cfgDefault astMediaThenRule).map
      (fun r => (r.selector, r.mediaQuery)) =
      [(".a", some "(max-width:768px)"), (".b", some "(max-width:768px)")] := by
  rfl

/-- Counterexample to C5: `.a {} .b {} /* c */` — the two empty rules have
identical (empty) declaration sets in the same scope, but the comment
pseudo-rule shares their declaration hash, the bucket equality check fails on
it, and no merge happens; the claim requires `.a, .b` to merge. -/
theorem c5_counterexample_poisoned_bucket :
    (detectAndMergeDuplicates (extractRules cfgDefault astPoisonedBucket)).map
      ParsedRule.selector = [".a", ".b", "/* COMMENT */"] := by
  rfl

/-- Counterexample to C6: `.btn--primary` matches the grammar
`.block--modifier`, so the claim classifies it as kind `modifier`; the code
classifies it as a `block` named `btn--primary` with no modifier and level 0,
because the greedy block token (which admits dashes) absorbs the `--primary`
suffix. -/
theorem c6_counterexample_modifier_absorbed :
    parseAdvancedBEM ".btn--primary" =
      some { block := "btn--primary", elements := [], modifier := none,
             type := "block", level := 0 } := by
  rfl

/-- Counterexample to C1: `.a { color: #ababab; } .b { background-color:
#ababab; }` with the default `minOccurrences = 2`: the total occurrence count
of the (color, #ababab) pair across its two contributing (property, value)
pairs is 2, so the claim requires one emitted variable, but the code emits
none, because each individual (property, value) candidate occurs only once. -/
theorem c1_counterexample_threshold :
    (runFreshVariableAnalysis cfgDefault
      (extractRules cfgDefault astTwoPropsOneValue)).extractedVariables.length
      = 0 ∧
    specClaimVariableCountC1 cfgDefault
      (extractRules cfgDefault astTwoPropsOneValue) = 1 := by
  constructor
  · rfl
  · rfl

/-- Helper for C6: the final classification step of `parseAdvancedBEM`
satisfies the level invariant and maps kinds to the emptiness of the element
list and the presence of the modifier capture. -/
theorem bemClassifyAux (block : String) (E : List String) (mo : Option String)
    (info : AdvancedBEMInfo)
    (h : (if E.length > 0 ∧ jsTruthyStrOpt mo then
            some { block := block, elements := E, modifier := mo, type := "element-modifier", level := E.length + 1 }
          else if E.length > 0 then
            some { block := block, elements := E, modifier := none, type := "element", level := E.length }
          else if jsTruthyStrOpt mo then
            some { block := block, elements := [], modifier := mo, type := "modifier", level := 1 }
          else
            some ({ block := block, elements := [], modifier := none, type := "block", level := 0 } : AdvancedBEMInfo)) = some info) :
    info.level = info.elements.length +
      (if info.modifier.isSome then 1 else 0) ∧
    ((info.type = "element-modifier") ↔
      (¬ info.elements = [] ∧ info.modifier.isSome)) ∧
    ((info.type = "element") ↔
      (¬ info.elements = [] ∧ info.modifier = none)) ∧
    ((info.type = "modifier") ↔
      (info.elements = [] ∧ info.modifier.isSome)) ∧
    ((info.type = "block") ↔
      (info.elements = [] ∧ info.modifier = none)) := by
  split_ifs at h with h1 h2 h3 <;>
    simp only [Option.some.injEq] at h <;> subst h
  · obtain ⟨hlen, hmod⟩ := h1
    cases mo with
    | none => simp [jsTruthyStrOpt] at hmod
    | some m =>
      have hE : ¬ E = [] := by
        intro he
        subst he
        simp at hlen
      simp [hE]
  · have hE : ¬ E = [] := by
      intro he
      subst he
      simp at h2
    simp [hE]
  · cases mo with
    | none => simp [jsTruthyStrOpt] at h3
    | some m => simp
  · simp

/-- C6 (amended): the matcher strips pseudo-class and attribute suffixes and
matches the advanced BEM regex with backtracking; whenever it succeeds, the
level equals the number of elements, plus one if a modifier was captured,
and the kind follows the case split on (elements, modifier).  However the
block and element tokens admit dashes and the match is greedy, so a
`--modifier` suffix is absorbed into the preceding token and the modifier
group never matches in practice: `.card__header--active` is classified as
the element `header--active` (not an element with modifier `active`), a
multi-level element selector splits at `__` as claimed, and selectors
outside the leading-dot single-class grammar yield no classification. -/
theorem c6_amended_bem_classification :
    (∀ s info, parseAdvancedBEM s = some info →
      info.level = info.elements.length +
        (if info.modifier.isSome then 1 else 0) ∧
      ((info.type = "element-modifier") ↔
        (¬ info.elements = [] ∧ info.modifier.isSome)) ∧
      ((info.type = "element") ↔
        (¬ info.elements = [] ∧ info.modifier = none)) ∧
      ((info.type = "modifier") ↔
        (info.elements = [] ∧ info.modifier.isSome)) ∧
      ((info.type = "block") ↔
        (info.elements = [] ∧ info.modifier = none))) ∧
    parseAdvancedBEM ".card__header__title" =
      some { block := "card", elements := ["header", "title"],
             modifier := none, type := "element", level := 2 } ∧
    parseAdvancedBEM ".card__header--active" =
      some { block := "card", elements := ["header--active"],
             modifier := none, type := "element", level := 1 } ∧
    parseAdvancedBEM ".header__logo:hover" =
      some { block := "header", elements := ["logo"], modifier := none,
             type := "element", level := 1 } ∧
    parseAdvancedBEM "#id" = none ∧
    parseAdvancedBEM ".a .b" = none ∧
    parseAdvancedBEM ".a.b" = none := by
  refine ⟨?_, rfl, rfl, rfl, rfl, rfl, rfl⟩
  intro s info h
  simp only [parseAdvancedBEM] at h
  split at h
  · exact absurd h (by simp)
  · exact bemClassifyAux _ _ _ _ h

/-- Witness for C6: the amended classification applied to the concrete
selector `.card`. -/
theorem c6_amended_bem_classification_witness :
    bemInfoDotCard.level = bemInfoDotCard.elements.length +
      (if bemInfoDotCard.modifier.isSome then 1 else 0) ∧
    ((bemInfoDotCard.type = "element-modifier") ↔
      (¬ bemInfoDotCard.elements = [] ∧ bemInfoDotCard.modifier.isSome)) ∧
    ((bemInfoDotCard.type = "element") ↔
      (¬ bemInfoDotCard.elements = [] ∧ bemInfoDotCard.modifier = none)) ∧
    ((bemInfoDotCard.type = "modifier") ↔
      (bemInfoDotCard.elements = [] ∧ bemInfoDotCard.modifier.isSome)) ∧
    ((bemInfoDotCard.type = "block") ↔
      (bemInfoDotCard.elements = [] ∧ bemInfoDotCard.modifier = none)) :=
  c6_amended_bem_classification.1 ".card" bemInfoDotCard rfl

/-- Helper: node counts add over list append. -/
theorem cssListCount_append (a b : List CssNode) :
    cssListCount (a ++ b) = cssListCount a + cssListCount b := by
  induction a with
  | nil => simp [cssListCount]
  | cons n t ih =>
    simp [cssListCount, ih]
    omega

/-- Helper: a node counts itself plus its children. -/
theorem cssNodeCount_children (n : CssNode) :
    cssNodeCount n = 1 + cssListCount (nodeChildren n) := by
  cases n <;> rfl

/-- Helper: the walk result does not depend on the fuel, as long as the fuel
exceeds the node count of the worklist. -/
theorem walkAux_irrel (cfg : Opts) :
    ∀ f1 f2 ws st, cssListCount ws < f1 → cssListCount ws < f2 →
      walkAux cfg f1 ws st = walkAux cfg f2 ws st := by
  intro f1
  induction f1 with
  | zero =>
    intro f2 ws st h1 _
    exact absurd h1 (Nat.not_lt_zero _)
  | succ f1 ih =>
    intro f2 ws st h1 h2
    cases ws with
    | nil =>
      cases f2 with
      | zero => exact absurd h2 (Nat.not_lt_zero _)
      | succ f2 => rfl
    | cons n rest =>
      cases f2 with
      | zero => exact absurd h2 (Nat.not_lt_zero _)
      | succ f2 =>
        show walkAux cfg f1 (nodeChildren n ++ rest) (walkStep cfg st n) =
          walkAux cfg f2 (nodeChildren n ++ rest) (walkStep cfg st n)
        have hc : cssListCount (n :: rest) =
            1 + cssListCount (nodeChildren n) + cssListCount rest := by
          simp [cssListCount, cssNodeCount_children n]
        apply ih
        · have := cssListCount_append (nodeChildren n) rest
          omega
        · have := cssListCount_append (nodeChildren n) rest
          omega

/-- Helper: one step of the walk: visit the head node, then its children,
then the rest. -/
theorem walkRun_cons (cfg : Opts) (n : CssNode) (rest : List CssNode)
    (st : ExtractState) :
    walkRun cfg (n :: rest) st =
      walkRun cfg (nodeChildren n ++ rest) (walkStep cfg st n) := by
  show walkAux cfg (cssListCount (n :: rest) + 1) (n :: rest) st = _
  have h1 : walkAux cfg (cssListCount (n :: rest) + 1) (n :: rest) st =
      walkAux cfg (cssListCount (n :: rest)) (nodeChildren n ++ rest)
        (walkStep cfg st n) := rfl
  rw [h1]
  apply walkAux_irrel
  · have := cssListCount_append (nodeChildren n) rest
    have hc : cssListCount (n :: rest) =
        1 + cssListCount (nodeChildren n) + cssListCount rest := by
      simp [cssListCount, cssNodeCount_children n]
    omega
  · omega

/-- Helper: the walk over a worklist of declaration nodes only changes
nothing (the visitor ignores declaration nodes). -/
theorem walkRun_declNodes (cfg : Opts) (children : List CssNode)
    (st : ExtractState)
    (hdecl : ∀ c ∈ children, ∃ p v imp, c = CssNode.declNode p v imp) :
    walkRun cfg children st = st := by
  induction children with
  | nil => rfl
  | cons c t ih =>
    obtain ⟨p, v, imp, hc⟩ := hdecl c (by simp)
    subst hc
    rw [walkRun_cons]
    exact ih fun c hc => hdecl c (by simp [hc])

/-- C3 (amended): during rule extraction a style rule's generated selector
text is split into one `ParsedRule` per comma-separated part at EVERY comma
(the split has no bracket or parenthesis awareness, so a comma inside an
attribute selector or a functional pseudo-class argument also splits), each
part is trimmed, and every resulting `ParsedRule` carries the same extracted
declaration sequence. -/
theorem c3_amended_selector_split (cfg : Opts) (selText : String)
    (children : List CssNode)
    (hdecl : ∀ c ∈ children, ∃ p v imp, c = CssNode.declNode p v imp)
    (horphan : ∀ part ∈ strSplitOn selText ",",
      isOrphanKeyframeSel (jsTrimStr part) = false) :
    extractRules cfg [CssNode.rule selText children] =
      (strSplitOn selText ",").map fun part =>
        { selector := jsTrimStr part
          declarations := extractBlockDecls children
          specificity := calculateSpecificity (jsTrimStr part)
          bemInfo :=
            if cfg.enableBEM then parseAdvancedBEM (jsTrimStr part) else none
          mediaQuery := none
          hash := some (generateRuleHash (jsTrimStr part)
            (extractBlockDecls children)) } := by
  have hw : walkRun cfg [CssNode.rule selText children] {} =
      processStyleRule cfg {} selText children := by
    rw [walkRun_cons]
    simp only [nodeChildren, walkStep, List.append_nil]
    exact walkRun_declNodes cfg children _ hdecl
  simp only [extractRules, hw]
  rw [List.filter_eq_self.mpr]
  · simp [processStyleRule, jsOptOfQuery]
  · intro a ha
    simp only [processStyleRule, List.nil_append, List.mem_map] at ha
    obtain ⟨part, hpart, rfl⟩ := ha
    simp [horphan part hpart]

/-- Witness for C3 at `.x, .y` with one declaration. -/
theorem c3_amended_selector_split_witness :
    extractRules cfgDefault
      [CssNode.rule ".x, .y" [CssNode.declNode "color" "red" false]] =
      (strSplitOn ".x, .y" ",").map fun part =>
        { selector := jsTrimStr part
          declarations :=
            extractBlockDecls [CssNode.declNode "color" "red" false]
          specificity := calculateSpecificity (jsTrimStr part)
          bemInfo :=
            if cfgDefault.enableBEM then parseAdvancedBEM (jsTrimStr part)
            else none
          mediaQuery := none
          hash := some (generateRuleHash (jsTrimStr part)
            (extractBlockDecls [CssNode.declNode "color" "red" false])) } :=
  c3_amended_selector_split cfgDefault ".x, .y"
    [CssNode.declNode "color" "red" false]
    (by
      intro c hc
      rw [List.mem_singleton] at hc
      exact ⟨_, _, _, hc⟩)
    (by decide)

/-- Helper: the worklist composes: walking `l1 ++ l2` walks `l1`, then `l2`
from the resulting state. -/
theorem walkRun_append (cfg : Opts) (l1 l2 : List CssNode)
    (st : ExtractState) :
    walkRun cfg (l1 ++ l2) st = walkRun cfg l2 (walkRun cfg l1 st) := by
  generalize hk : cssListCount l1 = k
  induction k using Nat.strong_induction_on generalizing l1 st with
  | _ k ih =>
    cases l1 with
    | nil => rfl
    | cons n rest =>
      subst hk
      rw [List.cons_append, walkRun_cons, walkRun_cons cfg n rest]
      rw [← List.append_assoc]
      apply ih _ _ _ _ rfl
      have := cssListCount_append (nodeChildren n) rest
      have hc : cssListCount (n :: rest) =
          1 + cssListCount (nodeChildren n) + cssListCount rest := by
        simp [cssListCount, cssNodeCount_children n]
      omega

/-- Helper: `containsMediaAux` does not depend on its fuel above the node
count. -/
theorem containsMediaAux_irrel :
    ∀ f1 f2 ws, cssListCount ws < f1 → cssListCount ws < f2 →
      containsMediaAux f1 ws = containsMediaAux f2 ws := by
  intro f1
  induction f1 with
  | zero =>
    intro f2 ws h1 _
    exact absurd h1 (Nat.not_lt_zero _)
  | succ f1 ih =>
    intro f2 ws h1 h2
    cases ws with
    | nil =>
      cases f2 with
      | zero => exact absurd h2 (Nat.not_lt_zero _)
      | succ f2 => rfl
    | cons n rest =>
      cases f2 with
      | zero => exact absurd h2 (Nat.not_lt_zero _)
      | succ f2 =>
        show (if isMediaNode n then true
          else containsMediaAux f1 (nodeChildren n ++ rest)) =
          (if isMediaNode n then true
           else containsMediaAux f2 (nodeChildren n ++ rest))
        have hc : cssListCount (n :: rest) =
            1 + cssListCount (nodeChildren n) + cssListCount rest := by
          simp [cssListCount, cssNodeCount_children n]
        have := cssListCount_append (nodeChildren n) rest
        rw [ih]
        · omega
        · omega

/-- Helper: one step of the media-node search. -/
theorem containsMediaNode_cons (n : CssNode) (rest : List CssNode) :
    containsMediaNode (n :: rest) =
      (if isMediaNode n then true
       else containsMediaNode (nodeChildren n ++ rest)) := by
  show containsMediaAux (cssListCount (n :: rest) + 1) (n :: rest) = _
  have h1 : containsMediaAux (cssListCount (n :: rest) + 1) (n :: rest) =
      (if isMediaNode n then true
       else containsMediaAux (cssListCount (n :: rest))
        (nodeChildren n ++ rest)) := rfl
  rw [h1]
  split
  · rfl
  · apply containsMediaAux_irrel
    · have := cssListCount_append (nodeChildren n) rest
      have hc : cssListCount (n :: rest) =
          1 + cssListCount (nodeChildren n) + cssListCount rest := by
        simp [cssListCount, cssNodeCount_children n]
      omega
    · omega

/-- Helper: visiting a non-media node leaves the media context unchanged and
only appends rules carrying the current context. -/
theorem walkStep_nonMedia (cfg : Opts) (st : ExtractState) (n : CssNode)
    (h : isMediaNode n = false) :
    (walkStep cfg st n).currentMediaQuery = st.currentMediaQuery ∧
    ∀ r ∈ (walkStep cfg st n).rules,
      r ∈ st.rules ∨ r.mediaQuery = jsOptOfQuery st.currentMediaQuery := by
  cases n with
  | media q cs => simp [isMediaNode] at h
  | rule sel cs =>
    constructor
    · rfl
    · intro r hr
      simp only [walkStep, processStyleRule, List.mem_append] at hr
      rcases hr with hr | hr
      · exact Or.inl hr
      · simp only [List.mem_map] at hr
        obtain ⟨part, _, rfl⟩ := hr
        exact Or.inr rfl
  | keyframes a p b cs =>
    constructor
    · rfl
    · intro r hr
      simp only [walkStep, pushKeyframesRule, List.mem_append,
        List.mem_singleton] at hr
      rcases hr with hr | hr
      · exact Or.inl hr
      · subst hr
        exact Or.inr rfl
  | atruleBlock a p cs =>
    constructor
    · rfl
    · intro r hr
      simp only [walkStep, pushAtruleBlockRule, List.mem_append,
        List.mem_singleton] at hr
      rcases hr with hr | hr
      · exact Or.inl hr
      · subst hr
        exact Or.inr rfl
  | declNode p v imp =>
    exact ⟨rfl, fun r hr => Or.inl hr⟩
  | commentNode t =>
    constructor
    · simp only [walkStep, pushCommentRule]
      split <;> rfl
    · intro r hr
      simp only [walkStep, pushCommentRule] at hr
      split at hr
      · simp only [List.mem_append, List.mem_singleton] at hr
        rcases hr with hr | hr
        · exact Or.inl hr
        · subst hr
          exact Or.inr rfl
      · exact Or.inl hr

/-- Helper: walking a media-free worklist never changes the media context,
and every rule it appends carries the context it started with. -/
theorem walkRun_noMedia (cfg : Opts) :
    ∀ ws st, containsMediaNode ws = false →
      (walkRun cfg ws st).currentMediaQuery = st.currentMediaQuery ∧
      ∀ r ∈ (walkRun cfg ws st).rules,
        r ∈ st.rules ∨ r.mediaQuery = jsOptOfQuery st.currentMediaQuery := by
  intro ws
  generalize hk : cssListCount ws = k
  induction k using Nat.strong_induction_on generalizing ws with
  | _ k ih =>
    intro st hnm
    cases ws with
    | nil => exact ⟨rfl, fun r hr => Or.inl hr⟩
    | cons n rest =>
      subst hk
      rw [containsMediaNode_cons] at hnm
      have hn : isMediaNode n = false := by
        by_contra hc
        simp only [Bool.not_eq_false] at hc
        simp [hc] at hnm
      rw [if_neg (by simp [hn])] at hnm
      rw [walkRun_cons]
      have hstep := walkStep_nonMedia cfg st n hn
      have hlt : cssListCount (nodeChildren n ++ rest) <
          cssListCount (n :: rest) := by
        have := cssListCount_append (nodeChildren n) rest
        have hc : cssListCount (n :: rest) =
            1 + cssListCount (nodeChildren n) + cssListCount rest := by
          simp [cssListCount, cssNodeCount_children n]
        omega
      have hih := ih _ hlt _ rfl (walkStep cfg st n) hnm
      constructor
      · rw [hih.1, hstep.1]
      · intro r hr
        rcases hih.2 r hr with hmem | hmq
        · rcases hstep.2 r hmem with hmem2 | hmq2
          · exact Or.inl hmem2
          · exact Or.inr hmq2
        · rw [hstep.1] at hmq
          exact Or.inr hmq

/-- C4 (amended): the media-query context is set by each `@media` at-rule
in document order and is never reset at the end of the block.  Every rule
inside a `@media` block carries that block's query, and so does every rule
that follows the block until the next `@media` at-rule: a top-level rule
after the end of a `@media` block (with no intervening `@media`) carries
the previous block's query instead of none. -/
theorem c4_amended_media_context (cfg : Opts) (pre : List CssNode)
    (q : String) (cs post : List CssNode) (hq : ¬ q = "")
    (hnm : containsMediaNode (cs ++ post) = false) :
    ∀ r ∈ extractRules cfg (pre ++ CssNode.media q cs :: post),
      r ∈ (walkRun cfg pre {}).rules ∨ r.mediaQuery = some q := by
  intro r hr
  simp only [extractRules, List.mem_filter] at hr
  have hr1 := hr.1
  rw [walkRun_append, walkRun_cons] at hr1
  have hw := walkRun_noMedia cfg (cs ++ post)
    (walkStep cfg (walkRun cfg pre {}) (CssNode.media q cs)) hnm
  simp only [nodeChildren] at hr1
  rcases hw.2 r hr1 with hmem | hmq
  · exact Or.inl hmem
  · right
    simp only [walkStep] at hmq
    rw [hmq]
    simp [jsOptOfQuery, hq]

/-- Witness for C4 at the concrete stylesheet
`@media (max-width:768px) { .a { color: red; } } .b { color: blue; }`,
instantiated at the extracted `.b` rule. -/
theorem c4_amended_media_context_witness :
    ({ selector := ".b"
       declarations :=
         [{ kind := DeclKind.decl, property := some "color", value := "blue",
            important := false }]
       specificity := [0, 1, 0]
       bemInfo := parseAdvancedBEM ".b"
       mediaQuery := some "(max-width:768px)"
       hash := some ".b|color:blue" } : ParsedRule) ∈
        (walkRun cfgDefault [] {}).rules ∨
      ({ selector := ".b"
         declarations :=
           [{ kind := DeclKind.decl, property := some "color", value := "blue",
              important := false }]
         specificity := [0, 1, 0]
         bemInfo := parseAdvancedBEM ".b"
         mediaQuery := some "(max-width:768px)"
         hash := some ".b|color:blue" } : ParsedRule).mediaQuery =
        some "(max-width:768px)" :=
  c4_amended_media_context cfgDefault [] "(max-width:768px)"
    [CssNode.rule ".a" [CssNode.declNode "color" "red" false]]
    [CssNode.rule ".b" [CssNode.declNode "color" "blue" false]]
    (by decide) (by decide) _ (by decide)

/-- Helper: key presence after a `jmUpd`: the old keys plus the updated key. -/
theorem jmHas_jmUpd {α : Type} (m : List (String × α)) (k : String) (d : α)
    (f : α → α) (k' : String) :
    jmHas (jmUpd m k d f) k' = (jmHas m k' || decide (k = k')) := by
  unfold jmUpd
  by_cases hk : jmHas m k
  · simp only [hk, if_true]
    show (m.map fun p => if p.1 = k then (p.1, f p.2) else p).any
      (fun p => p.1 = k') = _
    rw [List.any_map]
    have h1 : ((fun (p : String × α) => decide (p.1 = k')) ∘
        fun p => if p.1 = k then (p.1, f p.2) else p) =
        fun p => decide (p.1 = k') := by
      funext p
      simp only [Function.comp]
      split <;> rfl
    rw [h1]
    by_cases hkk : k = k'
    · subst hkk
      have h2 : m.any (fun p => decide (p.1 = k)) = true := hk
      simp [h2]
    · simp [jmHas, hkk]
  · simp only [hk, if_false, jmSet]
    rw [if_neg (by simp [hk])]
    show ((m ++ [(k, d)]).map fun p => if p.1 = k then (p.1, f p.2) else p).any
      (fun p => p.1 = k') = _
    rw [List.any_map]
    have h1 : ((fun (p : String × α) => decide (p.1 = k')) ∘
        fun p => if p.1 = k then (p.1, f p.2) else p) =
        fun p => decide (p.1 = k') := by
      funext p
      simp only [Function.comp]
      split <;> rfl
    rw [h1]
    simp [jmHas, List.any_append]

/-- Helper: an absent key matches no entry of the map. -/
theorem not_mem_key_of_jmHas_false {α : Type} {m : List (String × α)}
    {k : String} (h : jmHas m k = false) :
    ∀ q ∈ m, ¬ q.1 = k := by
  intro q hq
  simp only [jmHas, List.any_eq_false] at h
  have := h q hq
  simpa using this

/-- Helper: an entry of `jmUpd m k d f` is either an untouched entry under another key, or an entry under `k` obtained by applying `f` to an old value (or to the default `d` when `k` was absent). -/
theorem mem_jmUpd {α : Type} {m : List (String × α)} {k : String} {d : α}
    {f : α → α} {p : String × α} (hp : p ∈ jmUpd m k d f) :
    (¬ p.1 = k ∧ p ∈ m) ∨
    (p.1 = k ∧ ((∃ q ∈ m, q.1 = k ∧ p = (k, f q.2)) ∨
      (jmHas m k = false ∧ p = (k, f d)))) := by
  unfold jmUpd at hp
  by_cases hk : jmHas m k
  · rw [if_pos hk] at hp
    rw [List.mem_map] at hp
    obtain ⟨q, hq, rfl⟩ := hp
    by_cases hqk : q.1 = k
    · right
      rw [if_pos hqk]
      exact ⟨hqk, Or.inl ⟨q, hq, hqk, by rw [hqk]⟩⟩
    · left
      rw [if_neg hqk]
      exact ⟨hqk, hq⟩
  · rw [if_neg hk, jmSet, if_neg (by simp [hk])] at hp
    rw [List.mem_map] at hp
    obtain ⟨q, hq, rfl⟩ := hp
    rw [List.mem_append] at hq
    rcases hq with hq | hq
    · have hqk := not_mem_key_of_jmHas_false (Bool.eq_false_iff.mpr hk) q hq
      left
      rw [if_neg hqk]
      exact ⟨hqk, hq⟩
    · rw [List.mem_singleton] at hq
      subst hq
      right
      simp only [if_pos rfl]
      exact ⟨rfl, Or.inr ⟨Bool.eq_false_iff.mpr hk, rfl⟩⟩

/-- Helper: filtering past a final element. -/
theorem filter_snoc {α : Type} (p : α → Bool) (l : List α) (a : α) :
    (l ++ [a]).filter p = l.filter p ++ if p a then [a] else [] := by
  rw [List.filter_append]
  simp [List.filter_cons]

/-- Helper: a rule of another media key falls outside the bucket. -/
theorem sameBucketB_false_left {mk h : String} {r : ParsedRule}
    (hne : ¬ jsMediaKey r = mk) : sameBucketB mk h r = false := by
  simp [sameBucketB, hne]

/-- Helper: a rule of another declaration hash falls outside the bucket. -/
theorem sameBucketB_false_right {mk h : String} {r : ParsedRule}
    (hne : ¬ generateDeclarationHash r.declarations = h) :
    sameBucketB mk h r = false := by
  simp [sameBucketB, hne]

/-- Helper: a rule of matching media key and declaration hash falls inside the bucket. -/
theorem sameBucketB_true {mk h : String} {r : ParsedRule}
    (h1 : jsMediaKey r = mk) (h2 : generateDeclarationHash r.declarations = h) :
    sameBucketB mk h r = true := by
  simp [sameBucketB, h1, h2]

/-- Helper: pushing into an empty map creates a one-entry map. -/
theorem jmPush_nil {α : Type} (k : String) (v : α) :
    jmPush ([] : List (String × List α)) k v = [(k, [v])] := by
  simp [jmPush, jmUpd, jmSet, jmHas]

/-- Helper: filing one rule preserves the grouping invariant. -/
theorem bbInv_step (processed : List ParsedRule)
    (acc : List (String × List (String × List ParsedRule)))
    (rule : ParsedRule) (h : bbInv processed acc) :
    bbInv (processed ++ [rule]) (bbStep acc rule) := by
  obtain ⟨hC, hI, hO⟩ := h
  refine ⟨?_, ?_, ?_⟩
  · intro mi hmi hb hhb
    have hmi2 : mi ∈ jmUpd acc (jsMediaKey rule) []
        (fun inner => jmPush inner (generateDeclarationHash rule.declarations)
          rule) := hmi
    rcases mem_jmUpd hmi2 with ⟨hne, hmem⟩ | ⟨heq, hrest⟩
    · rw [filter_snoc, if_neg (by simp [sameBucketB_false_left
        (fun hh => hne hh.symm)]), List.append_nil]
      exact hC mi hmem hb hhb
    · rcases hrest with ⟨q, hq, hq1, hmieq⟩ | ⟨hhas, hmieq⟩
      · subst hmieq
        have hhb2 : hb ∈ jmUpd q.2 (generateDeclarationHash rule.declarations)
            [] (fun l => l ++ [rule]) := hhb
        rcases mem_jmUpd hhb2 with ⟨hne2, hmem2⟩ | ⟨heq2, hrest2⟩
        · show hb.2 = List.filter (sameBucketB (jsMediaKey rule) hb.1)
            (processed ++ [rule])
          rw [filter_snoc, if_neg (by simp [sameBucketB_false_right
            (fun hh => hne2 hh.symm)]), List.append_nil]
          have hx := hC q hq hb hmem2
          rwa [hq1] at hx
        · rcases hrest2 with ⟨qq, hqq, hqq1, hhbeq⟩ | ⟨hhas2, hhbeq⟩
          · subst hhbeq
            show qq.2 ++ [rule] = List.filter (sameBucketB (jsMediaKey rule)
              (generateDeclarationHash rule.declarations)) (processed ++ [rule])
            rw [filter_snoc, if_pos (sameBucketB_true rfl rfl)]
            have hx := hC q hq qq hqq
            rw [hq1, hqq1] at hx
            rw [← hx]
          · subst hhbeq
            show [] ++ [rule] = List.filter (sameBucketB (jsMediaKey rule)
              (generateDeclarationHash rule.declarations)) (processed ++ [rule])
            rw [filter_snoc, if_pos (sameBucketB_true rfl rfl)]
            have hx := hI q hq (generateDeclarationHash rule.declarations) hhas2
            rw [hq1] at hx
            rw [hx]
      · subst hmieq
        have hhb2 : hb ∈ jmPush ([] : List (String × List ParsedRule))
            (generateDeclarationHash rule.declarations) rule := hhb
        rw [jmPush_nil, List.mem_singleton] at hhb2
        subst hhb2
        show [rule] = List.filter (sameBucketB (jsMediaKey rule)
          (generateDeclarationHash rule.declarations)) (processed ++ [rule])
        rw [filter_snoc, if_pos (sameBucketB_true rfl rfl)]
        have hx := hO (jsMediaKey rule) hhas
          (generateDeclarationHash rule.declarations)
        rw [hx]
        rfl
  · intro mi hmi h' hh'
    have hmi2 : mi ∈ jmUpd acc (jsMediaKey rule) []
        (fun inner => jmPush inner (generateDeclarationHash rule.declarations)
          rule) := hmi
    rcases mem_jmUpd hmi2 with ⟨hne, hmem⟩ | ⟨heq, hrest⟩
    · rw [filter_snoc, if_neg (by simp [sameBucketB_false_left
        (fun hh => hne hh.symm)]), List.append_nil]
      exact hI mi hmem h' hh'
    · rcases hrest with ⟨q, hq, hq1, hmieq⟩ | ⟨hhas, hmieq⟩
      · subst hmieq
        have hh2 : jmHas (jmUpd q.2 (generateDeclarationHash rule.declarations)
            [] fun l => l ++ [rule]) h' = false := hh'
        rw [jmHas_jmUpd] at hh2
        rcases Bool.or_eq_false_iff.mp hh2 with ⟨hh3, hh4⟩
        have hh5 : ¬ generateDeclarationHash rule.declarations = h' :=
          of_decide_eq_false hh4
        show List.filter (sameBucketB (jsMediaKey rule) h')
          (processed ++ [rule]) = []
        rw [filter_snoc, if_neg (by simp [sameBucketB_false_right hh5]),
          List.append_nil]
        have hx := hI q hq h' hh3
        rwa [hq1] at hx
      · subst hmieq
        have hh2 : jmHas (jmPush ([] : List (String × List ParsedRule))
            (generateDeclarationHash rule.declarations) rule) h' = false := hh'
        rw [jmPush_nil] at hh2
        simp only [jmHas, List.any_cons, List.any_nil, Bool.or_false] at hh2
        have hh5 : ¬ generateDeclarationHash rule.declarations = h' :=
          of_decide_eq_false hh2
        show List.filter (sameBucketB (jsMediaKey rule) h')
          (processed ++ [rule]) = []
        rw [filter_snoc, if_neg (by simp [sameBucketB_false_right hh5]),
          List.append_nil]
        exact hO (jsMediaKey rule) hhas h'
  · intro mk' hmk' h'
    have hh2 : jmHas (jmUpd acc (jsMediaKey rule) []
        fun inner => jmPush inner (generateDeclarationHash rule.declarations)
          rule) mk' = false := hmk'
    rw [jmHas_jmUpd] at hh2
    rcases Bool.or_eq_false_iff.mp hh2 with ⟨hh3, hh4⟩
    have hh5 : ¬ jsMediaKey rule = mk' := of_decide_eq_false hh4
    rw [filter_snoc, if_neg (by simp [sameBucketB_false_left hh5]),
      List.append_nil]
    exact hO mk' hh3 h'

/-- Helper: the grouping fold preserves the invariant across a batch of rules. -/
theorem bbInv_foldl :
    ∀ (rules processed : List ParsedRule)
      (acc : List (String × List (String × List ParsedRule))),
    bbInv processed acc → bbInv (processed ++ rules) (rules.foldl bbStep acc) := by
  intro rules
  induction rules with
  | nil => intro processed acc h; simpa using h
  | cons r rs ih =>
    intro processed acc h
    have h1 := bbInv_step processed acc r h
    have h2 := ih (processed ++ [r]) (bbStep acc r) h1
    simpa [List.append_assoc] using h2

/-- Helper: the grouping pass of `detectAndMergeDuplicates` satisfies the bucket invariant: every bucket is exactly the sub-list of input rules sharing its media key and declaration hash. -/
theorem bbInv_buildBuckets (rules : List ParsedRule) :
    bbInv rules (buildBuckets rules) := by
  have h0 : bbInv [] [] := by
    refine ⟨?_, ?_, ?_⟩
    · intro mi hmi; cases hmi
    · intro mi hmi; cases hmi
    · intro mk' _ h'; rfl
  have := bbInv_foldl rules [] [] h0
  simpa [buildBuckets] using this

/-- Helper: a qualifying bucket (two or more rules, non-comment first rule, all declaration sets equal in length and hash) collapses to the single merged rule with the comma-joined selectors in source order. -/
theorem bucketOutput_merge (mk h : String) (r0 : ParsedRule)
    (rest : List ParsedRule) (hrest : ¬ rest = [])
    (hcomment : ¬ r0.selector = "/* COMMENT */")
    (hall : ((r0 :: rest).all fun r =>
      declarationsEqual r.declarations r0.declarations) = true) :
    bucketOutput mk h (r0 :: rest) =
      [{ r0 with
          selector := String.intercalate ", " ((r0 :: rest).map (·.selector))
          mediaQuery := if mk = "default" then none else some mk
          hash := some ("merged-" ++ h) }] := by
  have hlen : 1 < (r0 :: rest).length := by
    have := List.length_pos.mpr hrest
    simp only [List.length_cons]
    omega
  simp only [bucketOutput]
  rw [if_pos ⟨hlen, hcomment⟩, if_pos hall]

/-- C5 (amended): with duplicate detection enabled, rules are grouped by the
pair (media key, declaration hash), so rules in different media scopes are
never merged; a group of two or more rules with order-insensitively equal
declaration sets in one media scope collapses to a single rule whose
selector comma-joins the original selectors in source order, provided the
group's first rule is not a comment pseudo-rule and every member passes
`declarationsEqual` against it (a comment pseudo-rule or a same-hash
different-length rule in the group suppresses the merge for the whole
group); every output rule arises from exactly one such group. -/
theorem c5_amended_duplicate_merge (rules : List ParsedRule) (mk h : String) :
    (∀ r0 rest, rules.filter (sameBucketB mk h) = r0 :: rest →
      ¬ rest = [] → ¬ r0.selector = "/* COMMENT */" →
      ((r0 :: rest).all fun r =>
        declarationsEqual r.declarations r0.declarations) = true →
      { r0 with
          selector := String.intercalate ", " ((r0 :: rest).map (·.selector))
          mediaQuery := if mk = "default" then none else some mk
          hash := some ("merged-" ++ h) } ∈ detectAndMergeDuplicates rules) ∧
    ∀ r ∈ detectAndMergeDuplicates rules, ∃ mk2 h2,
      r ∈ bucketOutput mk2 h2 (rules.filter (sameBucketB mk2 h2)) := by
  constructor
  · intro r0 rest hfilter hrest hcomment hall
    obtain ⟨hC, hI, hO⟩ := bbInv_buildBuckets rules
    have hne : ¬ rules.filter (sameBucketB mk h) = [] := by
      rw [hfilter]; simp
    have hhasO : jmHas (buildBuckets rules) mk = true := by
      by_contra hc
      exact hne (hO mk (Bool.eq_false_iff.mpr hc) h)
    obtain ⟨mg, hmg, hmgk⟩ : ∃ mg ∈ buildBuckets rules, mg.1 = mk := by
      simpa [jmHas] using hhasO
    have hhasI : jmHas mg.2 h = true := by
      by_contra hc
      have hx := hI mg hmg h (by simpa using hc)
      rw [hmgk] at hx
      exact hne hx
    obtain ⟨hb, hhb, hhbk⟩ : ∃ hb ∈ mg.2, hb.1 = h := by
      simpa [jmHas] using hhasI
    have hbucket : hb.2 = rules.filter (sameBucketB mk h) := by
      have hx := hC mg hmg hb hhb
      rwa [hmgk, hhbk] at hx
    unfold detectAndMergeDuplicates
    rw [List.mem_flatMap]
    refine ⟨mg, hmg, ?_⟩
    rw [List.mem_flatMap]
    refine ⟨hb, hhb, ?_⟩
    rw [hmgk, hhbk, hbucket, hfilter,
      bucketOutput_merge mk h r0 rest hrest hcomment hall]
    exact List.mem_singleton.mpr rfl
  · intro r hr
    unfold detectAndMergeDuplicates at hr
    rw [List.mem_flatMap] at hr
    obtain ⟨mg, hmg, hr⟩ := hr
    rw [List.mem_flatMap] at hr
    obtain ⟨hbp, hhb, hr⟩ := hr
    obtain ⟨hC, _, _⟩ := bbInv_buildBuckets rules
    have hx := hC mg hmg hbp hhb
    exact ⟨mg.1, hbp.1, by rw [← hx]; exact hr⟩

/-- Witness for C5: `.a` and `.b` both carrying only `color: red` in the
top-level scope merge into the single rule `.a, .b`. -/
theorem c5_amended_duplicate_merge_witness :
    ({ ruleDotA with selector := ".a, .b", hash := some "merged-color:red" } :
        ParsedRule) ∈
      detectAndMergeDuplicates [ruleDotA, ruleDotB] :=
  (c5_amended_duplicate_merge [ruleDotA, ruleDotB] "default" "color:red").1 ruleDotA [ruleDotB]
    (by decide) (by decide) (by decide) (by decide)

/-- Helper: the (property, important) key comparison, propositionally. -/
theorem sameDeclKeyB_iff (d e : Declaration) :
    sameDeclKeyB d e = true ↔
      d.property = e.property ∧ d.important = e.important := by
  simp [sameDeclKeyB]

/-- Helper: a list with pairwise distinct keys is already deduplicated. -/
theorem keepLast_pairwise (A : List Declaration)
    (h : A.Pairwise fun d e => sameDeclKeyB d e = false) :
    keepLastDecls A = A := by
  induction A with
  | nil => rfl
  | cons d rest ih =>
    rw [List.pairwise_cons] at h
    have hany : rest.any (sameDeclKeyB d) = false := by
      simp only [List.any_eq_false]
      intro e hmem
      simp [h.1 e hmem]
    show (if rest.any (sameDeclKeyB d) then keepLastDecls rest
      else d :: keepLastDecls rest) = d :: rest
    rw [if_neg (by simp [hany]), ih h.2]

/-- Helper: the `seenProperties` key string determines the (property, important) pair: the two possible suffixes end in different characters. -/
theorem declKeyStr_inj {p p' : String} {imp imp' : Bool}
    (h : declKeyStr p imp = declKeyStr p' imp') : p = p' ∧ imp = imp' := by
  have hd := congrArg String.data h
  simp only [declKeyStr] at hd
  rw [String.data_append, String.data_append,
    String.data_append, String.data_append] at hd
  by_cases himp : imp = imp'
  · subst himp
    refine ⟨?_, rfl⟩
    rw [List.append_assoc, List.append_assoc] at hd
    exact String.ext (List.append_cancel_right hd)
  · exfalso
    cases imp with
    | true =>
      cases imp' with
      | true => exact himp rfl
      | false =>
        simp at hd
        have h1 := congrArg List.getLast? hd
        rw [List.getLast?_append_cons, List.getLast?_append_cons] at h1
        simp at h1
    | false =>
      cases imp' with
      | false => exact himp rfl
      | true =>
        simp at hd
        have h1 := congrArg List.getLast? hd
        rw [List.getLast?_append_cons, List.getLast?_append_cons] at h1
        simp at h1

/-- Helper: dropping entries of a key other than that of `a` does not change whether a key match for `a` exists. -/
theorem any_filter_same (a d0 : Declaration)
    (had : sameDeclKeyB a d0 = false) (A : List Declaration) :
    A.any (sameDeclKeyB a) =
      (A.filter fun e => ! sameDeclKeyB e d0).any (sameDeclKeyB a) := by
  induction A with
  | nil => rfl
  | cons b B ihb =>
    by_cases hbd : sameDeclKeyB b d0 = true
    · have he := (sameDeclKeyB_iff b d0).mp hbd
      have h2 : sameDeclKeyB a b = sameDeclKeyB a d0 := by
        simp [sameDeclKeyB, he.1, he.2]
      have hfa : ((b :: B).filter fun e => ! sameDeclKeyB e d0) =
          B.filter fun e => ! sameDeclKeyB e d0 := by
        simp [List.filter_cons, hbd]
      rw [hfa]
      simp only [List.any_cons]
      rw [h2, had, ihb]
      simp
    · have hfa : ((b :: B).filter fun e => ! sameDeclKeyB e d0) =
          b :: B.filter fun e => ! sameDeclKeyB e d0 := by
        simp [List.filter_cons, hbd]
      rw [hfa]
      simp only [List.any_cons, ihb]

/-- Helper: entries whose key is overridden by a later declaration may be dropped without changing the last-wins result. -/
theorem keepLast_congr (A : List Declaration) (d0 : Declaration)
    (tail : List Declaration) :
    keepLastDecls (A ++ d0 :: tail) =
      keepLastDecls ((A.filter fun e => ! sameDeclKeyB e d0) ++ d0 :: tail) := by
  induction A with
  | nil => rfl
  | cons a A ih =>
    by_cases had : sameDeclKeyB a d0 = true
    · have hc : ((A ++ d0 :: tail).any (sameDeclKeyB a)) = true := by
        rw [List.any_append]
        have hx : (d0 :: tail).any (sameDeclKeyB a) = true := by
          simp only [List.any_cons]
          rw [had]
          simp
        rw [hx]
        simp
      have hfa : ((a :: A).filter fun e => ! sameDeclKeyB e d0) =
          A.filter fun e => ! sameDeclKeyB e d0 := by
        simp [List.filter_cons, had]
      show (if (A ++ d0 :: tail).any (sameDeclKeyB a) then
          keepLastDecls (A ++ d0 :: tail)
        else a :: keepLastDecls (A ++ d0 :: tail)) = _
      rw [if_pos hc, hfa, ih]
    · have had2 : sameDeclKeyB a d0 = false := Bool.eq_false_iff.mpr had
      have hany := any_filter_same a d0 had2 A
      have hfa : ((a :: A).filter fun e => ! sameDeclKeyB e d0) =
          a :: A.filter fun e => ! sameDeclKeyB e d0 := by
        simp [List.filter_cons, had2]
      rw [hfa]
      show (if (A ++ d0 :: tail).any (sameDeclKeyB a) then
          keepLastDecls (A ++ d0 :: tail)
        else a :: keepLastDecls (A ++ d0 :: tail)) =
        (if ((A.filter fun e => ! sameDeclKeyB e d0) ++ d0 :: tail).any
            (sameDeclKeyB a) then
          keepLastDecls ((A.filter fun e => ! sameDeclKeyB e d0) ++ d0 :: tail)
        else a :: keepLastDecls
          ((A.filter fun e => ! sameDeclKeyB e d0) ++ d0 :: tail))
      rw [List.any_append, List.any_append, ← hany, ih]

/-- Helper: on a key-distinct block of plain declarations, splicing out the first key match equals filtering out every key match. -/
theorem erase_matchkey (p v : String) (imp : Bool) (A : List Declaration)
    (hkind : ∀ d ∈ A, d.kind = DeclKind.decl)
    (hpair : A.Pairwise fun d e => sameDeclKeyB d e = false) :
    (A.eraseP fun d => decide (d.kind = DeclKind.decl ∧ d.property = some p ∧
      d.important = imp)) =
      A.filter fun e => ! sameDeclKeyB e (mkDecl p v imp) := by
  induction A with
  | nil => rfl
  | cons a A ih =>
    rw [List.pairwise_cons] at hpair
    have hpred : (decide (a.kind = DeclKind.decl ∧ a.property = some p ∧
        a.important = imp)) = sameDeclKeyB a (mkDecl p v imp) := by
      rw [Bool.eq_iff_iff]
      simp [sameDeclKeyB, mkDecl, hkind a (List.mem_cons_self a A)]
    by_cases hm : sameDeclKeyB a (mkDecl p v imp) = true
    · rw [List.eraseP_cons_of_pos (by rw [hpred, hm])]
      have ham := (sameDeclKeyB_iff a (mkDecl p v imp)).mp hm
      have hfa : ((a :: A).filter fun e => ! sameDeclKeyB e (mkDecl p v imp)) =
          A.filter fun e => ! sameDeclKeyB e (mkDecl p v imp) := by
        simp [List.filter_cons, hm]
      rw [hfa]
      symm
      apply List.filter_eq_self.mpr
      intro d hd
      have hde : sameDeclKeyB d (mkDecl p v imp) = false := by
        by_contra hc
        simp only [Bool.not_eq_false] at hc
        have hdm := (sameDeclKeyB_iff d (mkDecl p v imp)).mp hc
        have : sameDeclKeyB a d = true := by
          rw [sameDeclKeyB_iff]
          exact ⟨ham.1.trans hdm.1.symm, ham.2.trans hdm.2.symm⟩
        rw [hpair.1 d hd] at this
        exact Bool.false_ne_true this
      simp [hde]
    · have hm2 : sameDeclKeyB a (mkDecl p v imp) = false :=
        Bool.eq_false_iff.mpr hm
      rw [List.eraseP_cons_of_neg (by rw [hpred]; exact hm)]
      have hfa : ((a :: A).filter fun e => ! sameDeclKeyB e (mkDecl p v imp)) =
          a :: A.filter fun e => ! sameDeclKeyB e (mkDecl p v imp) := by
        simp [List.filter_cons, hm2]
      rw [hfa, ih (fun d hd => hkind d (List.mem_cons_of_mem a hd)) hpair.2]

/-- Helper: the declaration sequence of a block, one step. -/
theorem atruleBlockDecls_cons_decl (p v : String) (imp : Bool)
    (rest : List CssNode) :
    atruleBlockDecls (CssNode.declNode p v imp :: rest) =
      mkDecl p v imp :: atruleBlockDecls rest := by
  simp [atruleBlockDecls, List.filterMap_cons]

/-- Helper: the declaration loop of `extractRules`, started from any key-distinct state whose seen-key set matches its accumulated declarations, computes the last-wins deduplication of the combined sequence. -/
theorem ebd_general :
    ∀ (children : List CssNode) (A : List Declaration) (K : List String),
    (∀ d ∈ A, d.kind = DeclKind.decl) →
    (∀ p imp, (declKeyStr p imp ∈ K) ↔
      ∃ d ∈ A, d.property = some p ∧ d.important = imp) →
    A.Pairwise (fun d e => sameDeclKeyB d e = false) →
    (children.foldl
      (fun acc n =>
        match n with
        | CssNode.declNode p v imp =>
          let key := declKeyStr p imp
          let declarations :=
            if acc.2.contains key then
              acc.1.eraseP fun d =>
                decide (d.kind = DeclKind.decl ∧ d.property = some p ∧
                  d.important = imp)
            else acc.1
          (declarations ++ [mkDecl p v imp], key :: acc.2)
        | _ => acc)
      (A, K)).1 = keepLastDecls (A ++ atruleBlockDecls children) := by
  intro children
  induction children with
  | nil =>
    intro A K hkind hK hpair
    show A = keepLastDecls (A ++ atruleBlockDecls [])
    rw [show atruleBlockDecls [] = [] from rfl, List.append_nil,
      keepLast_pairwise A hpair]
  | cons n rest ih =>
    intro A K hkind hK hpair
    cases n with
    | rule s cs => exact ih A K hkind hK hpair
    | media q cs => exact ih A K hkind hK hpair
    | keyframes a b c cs => exact ih A K hkind hK hpair
    | atruleBlock a b cs => exact ih A K hkind hK hpair
    | commentNode t => exact ih A K hkind hK hpair
    | declNode p v imp =>
      have hD : (if K.contains (declKeyStr p imp) then
            A.eraseP fun d =>
              decide (d.kind = DeclKind.decl ∧ d.property = some p ∧
                d.important = imp)
          else A) =
          A.filter fun e => ! sameDeclKeyB e (mkDecl p v imp) := by
        by_cases hc : K.contains (declKeyStr p imp) = true
        · rw [if_pos hc, erase_matchkey p v imp A hkind hpair]
        · rw [if_neg hc]
          symm
          apply List.filter_eq_self.mpr
          intro d hd
          by_contra hcc
          have hcc2 : sameDeclKeyB d (mkDecl p v imp) = true := by
            simpa using hcc
          have hdm := (sameDeclKeyB_iff d (mkDecl p v imp)).mp hcc2
          have hmem : declKeyStr p imp ∈ K :=
            (hK p imp).mpr ⟨d, hd, hdm.1, hdm.2⟩
          exact hc (by simpa using hmem)
      have hkind2 : ∀ d ∈ (A.filter fun e =>
          ! sameDeclKeyB e (mkDecl p v imp)) ++ [mkDecl p v imp],
          d.kind = DeclKind.decl := by
        intro d hd
        rcases List.mem_append.mp hd with hd | hd
        · exact hkind d (List.mem_filter.mp hd).1
        · rw [List.mem_singleton] at hd
          subst hd
          rfl
      have hK2 : ∀ p' imp',
          (declKeyStr p' imp' ∈ declKeyStr p imp :: K) ↔
          ∃ d ∈ (A.filter fun e =>
            ! sameDeclKeyB e (mkDecl p v imp)) ++ [mkDecl p v imp],
            d.property = some p' ∧ d.important = imp' := by
        intro p' imp'
        by_cases hpp : p' = p ∧ imp' = imp
        · constructor
          · intro _
            refine ⟨mkDecl p v imp,
              List.mem_append.mpr (Or.inr (List.mem_singleton.mpr rfl)),
              ?_, ?_⟩
            · rw [hpp.1]
              rfl
            · rw [hpp.2]
              rfl
          · intro _
            rw [show declKeyStr p' imp' = declKeyStr p imp from by
              rw [hpp.1, hpp.2]]
            exact List.mem_cons_self _ _
        · constructor
          · intro hmem
            rcases List.mem_cons.mp hmem with heq | hmem2
            · obtain ⟨h1, h2⟩ := declKeyStr_inj heq
              exact absurd ⟨h1, h2⟩ hpp
            · obtain ⟨d, hd, hd1, hd2⟩ := (hK p' imp').mp hmem2
              refine ⟨d, List.mem_append.mpr (Or.inl ?_), hd1, hd2⟩
              rw [List.mem_filter]
              refine ⟨hd, ?_⟩
              by_contra hcc
              have hcc2 : sameDeclKeyB d (mkDecl p v imp) = true := by
                simpa using hcc
              have hdm := (sameDeclKeyB_iff d (mkDecl p v imp)).mp hcc2
              rw [hd1] at hdm
              have hp1 : p' = p := by
                have := hdm.1
                simpa [mkDecl] using this
              have hp2 : imp' = imp := by
                rw [← hd2]
                exact hdm.2
              exact hpp ⟨hp1, hp2⟩
          · intro hex
            obtain ⟨d, hd, hd1, hd2⟩ := hex
            rcases List.mem_append.mp hd with hd | hd
            · exact List.mem_cons_of_mem _
                ((hK p' imp').mpr ⟨d, (List.mem_filter.mp hd).1, hd1, hd2⟩)
            · rw [List.mem_singleton] at hd
              subst hd
              have hp1 : p' = p := by simpa [mkDecl] using hd1.symm
              have hp2 : imp' = imp := by simpa [mkDecl] using hd2.symm
              exact absurd ⟨hp1, hp2⟩ hpp
      have hpair2 : ((A.filter fun e =>
          ! sameDeclKeyB e (mkDecl p v imp)) ++ [mkDecl p v imp]).Pairwise
          fun d e => sameDeclKeyB d e = false := by
        rw [List.pairwise_append]
        refine ⟨List.Pairwise.filter _ hpair, List.pairwise_singleton _ _, ?_⟩
        intro d hd e he
        rw [List.mem_singleton] at he
        subst he
        have := (List.mem_filter.mp hd).2
        simpa using this
      have hmain := ih
        ((A.filter fun e => ! sameDeclKeyB e (mkDecl p v imp)) ++
          [mkDecl p v imp])
        (declKeyStr p imp :: K) hkind2 hK2 hpair2
      show (rest.foldl
        (fun acc n =>
          match n with
          | CssNode.declNode p v imp =>
            let key := declKeyStr p imp
            let declarations :=
              if acc.2.contains key then
                acc.1.eraseP fun d =>
                  decide (d.kind = DeclKind.decl ∧ d.property = some p ∧
                    d.important = imp)
              else acc.1
            (declarations ++ [mkDecl p v imp], key :: acc.2)
          | _ => acc)
        ((if K.contains (declKeyStr p imp) then
            A.eraseP fun d =>
              decide (d.kind = DeclKind.decl ∧ d.property = some p ∧
                d.important = imp)
          else A) ++ [mkDecl p v imp], declKeyStr p imp :: K)).1 =
        keepLastDecls (A ++ atruleBlockDecls (CssNode.declNode p v imp :: rest))
      rw [hD, atruleBlockDecls_cons_decl, keepLast_congr,
        List.append_cons (A.filter fun e => ! sameDeclKeyB e (mkDecl p v imp))
          (mkDecl p v imp) (atruleBlockDecls rest)]
      exact hmain

/-- C8: within one style-rule block, a repeated (property, important) pair
keeps only its last occurrence, all other declarations staying in source
order: the declaration loop of `extractRules` computes exactly the
last-wins deduplication `keepLastDecls` of the block's declaration
sequence. -/
theorem c8_last_wins_declarations (children : List CssNode) :
    extractBlockDecls children = keepLastDecls (atruleBlockDecls children) := by
  exact ebd_general children [] [] (by intro d hd; cases hd)
    (by intro p imp; simp) List.Pairwise.nil

/-- Helper: map lookup, one step. -/
theorem jmGet_cons {α : Type} (p : String × α) (m : List (String × α))
    (k : String) :
    jmGet (p :: m) k = if p.1 = k then some p.2 else jmGet m k := by
  by_cases h : p.1 = k
  · simp [jmGet, List.find?_cons, h]
  · simp [jmGet, List.find?_cons, h]

/-- Helper: lookup of an absent key yields nothing. -/
theorem jmGet_none_of_has_false {α : Type} {m : List (String × α)}
    {k : String} (h : jmHas m k = false) : jmGet m k = none := by
  induction m with
  | nil => rfl
  | cons p m ih =>
    simp only [jmHas, List.any_cons, Bool.or_eq_false_iff] at h
    rw [jmGet_cons, if_neg (of_decide_eq_false h.1)]
    exact ih (by simp [jmHas, h.2])

/-- Helper: overwriting one key leaves other lookups unchanged. -/
theorem jmGet_mapset_ne {α : Type} (m : List (String × α)) (k : String)
    (v : α) (k' : String) (hne : ¬ k' = k) :
    jmGet (m.map fun p => if p.1 = k then (k, v) else p) k' = jmGet m k' := by
  induction m with
  | nil => rfl
  | cons p m ih =>
    rw [List.map_cons]
    by_cases hp : p.1 = k
    · rw [if_pos hp, jmGet_cons, jmGet_cons,
        if_neg (fun hc => hne hc.symm),
        if_neg (fun hc : p.1 = k' => hne (hp ▸ hc).symm)]
      exact ih
    · rw [if_neg hp, jmGet_cons, jmGet_cons]
      by_cases hpk : p.1 = k'
      · rw [if_pos hpk, if_pos hpk]
      · rw [if_neg hpk, if_neg hpk]
        exact ih

/-- Helper: overwriting a present key makes its lookup the new value. -/
theorem jmGet_mapset_self {α : Type} (m : List (String × α)) (k : String)
    (v : α) (hk : jmHas m k = true) :
    jmGet (m.map fun p => if p.1 = k then (k, v) else p) k = some v := by
  induction m with
  | nil => simp [jmHas] at hk
  | cons p m ih =>
    rw [List.map_cons]
    by_cases hp : p.1 = k
    · rw [if_pos hp, jmGet_cons, if_pos rfl]
    · rw [if_neg hp, jmGet_cons, if_neg hp]
      apply ih
      simp only [jmHas, List.any_cons, Bool.or_eq_true] at hk
      rcases hk with hk | hk
      · exact absurd (of_decide_eq_true hk) hp
      · exact hk

/-- Helper: lookup across a single appended entry. -/
theorem jmGet_append_one {α : Type} (m : List (String × α)) (q : String × α)
    (k' : String) :
    jmGet (m ++ [q]) k' =
      match jmGet m k' with
      | some x => some x
      | none => if q.1 = k' then some q.2 else none := by
  induction m with
  | nil =>
    show jmGet [q] k' = _
    rw [jmGet_cons]
    rfl
  | cons p m ih =>
    rw [List.cons_append, jmGet_cons, jmGet_cons]
    by_cases hp : p.1 = k'
    · rw [if_pos hp, if_pos hp]
    · rw [if_neg hp, if_neg hp]
      exact ih

/-- Helper: lookup after `jmSet`: the written key reads back the new value, every other key is unchanged. -/
theorem jmGet_jmSet {α : Type} (m : List (String × α)) (k : String) (v : α)
    (k' : String) :
    jmGet (jmSet m k v) k' = if k' = k then some v else jmGet m k' := by
  unfold jmSet
  by_cases hk : jmHas m k
  · rw [if_pos hk]
    by_cases hkk : k' = k
    · subst hkk
      rw [if_pos rfl]
      exact jmGet_mapset_self m k' v hk
    · rw [if_neg hkk]
      exact jmGet_mapset_ne m k v k' hkk
  · rw [if_neg hk]
    rw [jmGet_append_one]
    have hnone : jmGet m k = none :=
      jmGet_none_of_has_false (Bool.eq_false_iff.mpr hk)
    by_cases hkk : k' = k
    · subst hkk
      rw [hnone, if_pos rfl]
    · rw [if_neg hkk]
      cases hg : jmGet m k' with
      | some x => rfl
      | none =>
        show (if k = k' then some v else none) = none
        rw [if_neg (fun hc => hkk hc.symm)]

/-- Helper: the fold building the value-to-name map preserves `v2vOk`. -/
theorem v2v_foldl :
    ∀ (evars S : List (String × ExtractedVariable))
      (m : List (String × String)),
    v2vOk S m →
    v2vOk (S ++ evars)
      (evars.foldl (fun m e => jmSet m e.2.value e.2.name) m) := by
  intro evars
  induction evars with
  | nil =>
    intro S m h
    simpa using h
  | cons e evars ih =>
    intro S m h
    have hstep : v2vOk (S ++ [e]) (jmSet m e.2.value e.2.name) := by
      constructor
      · intro v name hg
        rw [jmGet_jmSet] at hg
        by_cases hv : v = e.2.value
        · rw [if_pos hv] at hg
          refine ⟨e, List.mem_append.mpr (Or.inr (List.mem_singleton.mpr rfl)),
            hv.symm, ?_⟩
          exact Option.some.inj hg
        · rw [if_neg hv] at hg
          obtain ⟨e2, he2, hv2, hn2⟩ := h.1 v name hg
          exact ⟨e2, List.mem_append.mpr (Or.inl he2), hv2, hn2⟩
      · intro e2 he2
        rcases List.mem_append.mp he2 with he2 | he2
        · obtain ⟨name, hname⟩ := h.2 e2 he2
          rw [jmGet_jmSet]
          by_cases hv : e2.2.value = e.2.value
          · exact ⟨e.2.name, by rw [if_pos hv]⟩
          · exact ⟨name, by rw [if_neg hv]; exact hname⟩
        · rw [List.mem_singleton] at he2
          subst he2
          exact ⟨e2.2.name, by rw [jmGet_jmSet, if_pos rfl]⟩
    have hmain := ih (S ++ [e]) (jmSet m e.2.value e.2.name) hstep
    simpa using hmain

/-- Helper: the value-to-name lookup map of `replaceValuesWithVariables` satisfies `v2vOk` with respect to the extracted variables. -/
theorem v2v_build (evars : List (String × ExtractedVariable)) :
    v2vOk evars (buildValueToVariable evars) := by
  have h0 : v2vOk [] [] := by
    constructor
    · intro v name hg
      cases hg
    · intro e he
      cases he
  have hx := v2v_foldl evars [] [] h0
  simpa [buildValueToVariable] using hx

/-- C10: variable rewriting is keyed by the value string alone: a
declaration of an enabled category whose value equals the value of some
extracted variable is rewritten to the looked-up variable's name (whether or
not its own property/value pair reached the occurrence threshold), keeping
the original literal in `originalValue` — except that a present but empty
variable name fails the source's truthiness guard and leaves the
declaration unchanged; declarations under the `@keyframes-block` property
are never rewritten, and a declaration whose value matches no extracted
variable is left unchanged. -/
theorem c10_value_keyed_replacement (cfg : Opts) (st : ConverterState) (rules : List ParsedRule)
    (d : Declaration) (p : String) (hp : d.property = some p)
    (hkind : d.kind = DeclKind.decl) (hpne : ¬ p = "")
    (hvne : ¬ d.value = "") :
    (∀ r ∈ rules,
      { r with
          declarations := r.declarations.map
            (replaceDecl cfg (buildValueToVariable st.extractedVariables)) } ∈
        replaceValuesWithVariables cfg st rules) ∧
    (p = "@keyframes-block" →
      replaceDecl cfg (buildValueToVariable st.extractedVariables) d = d) ∧
    (¬ p = "@keyframes-block" →
      shouldExtractCategory cfg (categorizeValue p d.value) = true →
      (∃ e ∈ st.extractedVariables, e.2.value = d.value) →
      ∃ name,
        (∃ e ∈ st.extractedVariables, e.2.value = d.value ∧ e.2.name = name) ∧
        (¬ name = "" →
          replaceDecl cfg (buildValueToVariable st.extractedVariables) d =
            { d with originalValue := some d.value, value := name }) ∧
        (name = "" →
          replaceDecl cfg (buildValueToVariable st.extractedVariables) d =
            d)) ∧
    ((∀ e ∈ st.extractedVariables, ¬ e.2.value = d.value) →
      replaceDecl cfg (buildValueToVariable st.extractedVariables) d = d) := by
  refine ⟨?_, ?_, ?_, ?_⟩
  · intro r hr
    exact List.mem_map_of_mem _ hr
  · intro hkf
    simp only [replaceDecl, hp]
    rw [if_pos ⟨hkind, hpne, hvne⟩, if_pos hkf]
  · intro hnkf hcat hex
    obtain ⟨e, he, hev⟩ := hex
    obtain ⟨name0, hname0⟩ := (v2v_build st.extractedVariables).2 e he
    rw [hev] at hname0
    obtain ⟨e2, he2, hv2, hn2⟩ :=
      (v2v_build st.extractedVariables).1 d.value name0 hname0
    refine ⟨name0, ⟨e2, he2, hv2, hn2⟩, ?_, ?_⟩
    · intro hne
      simp only [replaceDecl, hp]
      rw [if_pos ⟨hkind, hpne, hvne⟩, if_neg hnkf]
      simp only [hname0]
      rw [if_pos hne, if_pos hcat]
    · intro heq
      simp only [replaceDecl, hp]
      rw [if_pos ⟨hkind, hpne, hvne⟩, if_neg hnkf]
      simp only [hname0]
      rw [if_neg (fun hc => hc heq)]
  · intro hmiss
    have hlook : jmGet (buildValueToVariable st.extractedVariables) d.value =
        none := by
      cases hg : jmGet (buildValueToVariable st.extractedVariables) d.value with
      | none => rfl
      | some name =>
        obtain ⟨e, he, hev, _⟩ := (v2v_build st.extractedVariables).1 d.value
          name hg
        exact absurd hev (hmiss e he)
    simp only [replaceDecl, hp, hlook]
    split
    · split
      · rfl
      · rfl
    · rfl

/-- Witness for C10 at the state holding the single variable
`$color-white: #fff` and the declaration `color: #fff`. -/
theorem c10_value_keyed_replacement_witness :
    ∃ name,
      (∃ e ∈ stWhite.extractedVariables, e.2.value = declWhite.value ∧
        e.2.name = name) ∧
      (¬ name = "" →
        replaceDecl cfgDefault
          (buildValueToVariable stWhite.extractedVariables) declWhite =
          { declWhite with
              originalValue := some declWhite.value
              value := name }) ∧
      (name = "" →
        replaceDecl cfgDefault
          (buildValueToVariable stWhite.extractedVariables) declWhite =
          declWhite) :=
  (c10_value_keyed_replacement cfgDefault stWhite [] declWhite "color" rfl rfl
    (by decide) (by decide)).2.2.1 (by decide) (by decide) (by decide)


theorem mem_jmSet {α : Type} {m : List (String × α)} {k : String} {v : α}
    {p : String × α} (hp : p ∈ jmSet m k v) :
    (¬ p.1 = k ∧ p ∈ m) ∨ p = (k, v) := by
  unfold jmSet at hp
  by_cases hk : jmHas m k
  · rw [if_pos hk] at hp
    rw [List.mem_map] at hp
    obtain ⟨q, hq, rfl⟩ := hp
    by_cases hqk : q.1 = k
    · right
      rw [if_pos hqk]
    · left
      rw [if_neg hqk]
      exact ⟨hqk, hq⟩
  · rw [if_neg hk] at hp
    rw [List.mem_append] at hp
    rcases hp with hp | hp
    · have hqk := not_mem_key_of_jmHas_false (Bool.eq_false_iff.mpr hk) p hp
      exact Or.inl ⟨hqk, hp⟩
    · rw [List.mem_singleton] at hp
      exact Or.inr hp

theorem jmHas_jmSet {α : Type} (m : List (String × α)) (k : String) (v : α)
    (k' : String) :
    jmHas (jmSet m k v) k' = (jmHas m k' || decide (k = k')) := by
  unfold jmSet
  by_cases hk : jmHas m k
  · rw [if_pos hk]
    show (m.map fun p => if p.1 = k then (k, v) else p).any
      (fun p => p.1 = k') = _
    rw [List.any_map]
    have h1 : ((fun (p : String × α) => decide (p.1 = k')) ∘
        fun p => if p.1 = k then (k, v) else p) =
        fun p => decide ((if p.1 = k then k else p.1) = k') := by
      funext p
      simp only [Function.comp]
      split
      · rfl
      · rfl
    rw [h1]
    by_cases hkk : k = k'
    · subst hkk
      have h2 : (m.any fun p => decide ((if p.1 = k then k else p.1) = k)) =
          true := by
        rw [List.any_eq_true]
        rw [jmHas, List.any_eq_true] at hk
        obtain ⟨q, hq, hq2⟩ := hk
        exact ⟨q, hq, by simp [of_decide_eq_true hq2]⟩
      rw [h2]
      simp
    · have h2 : (m.any fun p => decide ((if p.1 = k then k else p.1) = k')) =
          (m.any fun p => decide (p.1 = k')) := by
        congr 1
        funext p
        by_cases hpk : p.1 = k
        · rw [if_pos hpk, hpk]
        · rw [if_neg hpk]
      rw [h2]
      simp [jmHas, hkk]
  · rw [if_neg hk]
    show (m ++ [(k, v)]).any (fun p => p.1 = k') = _
    rw [List.any_append]
    simp [jmHas]

theorem jmSet_absent {α : Type} {m : List (String × α)} {k : String}
    (v : α) (hk : jmHas m k = false) : jmSet m k v = m ++ [(k, v)] := by
  unfold jmSet
  rw [if_neg (by simp [hk])]

theorem jmGet_mem {α : Type} {m : List (String × α)} {k : String} {v : α}
    (h : jmGet m k = some v) : (k, v) ∈ m := by
  unfold jmGet at h
  cases hf : m.find? fun p => p.1 = k with
  | none => rw [hf] at h; cases h
  | some q =>
    rw [hf] at h
    have hq := List.mem_of_find?_eq_some hf
    have hk := List.find?_some hf
    have h2 : q.2 = v := by simpa using h
    have h1 : q.1 = k := of_decide_eq_true hk
    have : q = (k, v) := by
      cases q
      simp only at h1 h2
      rw [h1, h2]
    rwa [this] at hq

theorem jmHas_false_of_get_none {α : Type} {m : List (String × α)}
    {k : String} (h : jmGet m k = none) : jmHas m k = false := by
  unfold jmGet at h
  cases hf : m.find? fun p => p.1 = k with
  | some q => rw [hf] at h; cases h
  | none =>
    rw [List.find?_eq_none] at hf
    simp only [jmHas, List.any_eq_false]
    exact hf

theorem jmHas_true_get_some {α : Type} {m : List (String × α)} {k : String}
    (h : jmHas m k = true) : ∃ v, jmGet m k = some v := by
  cases hg : jmGet m k with
  | some v => exact ⟨v, rfl⟩
  | none =>
    rw [jmHas_false_of_get_none hg] at h
    cases h

theorem cntKey_snoc (P : List (String × Declaration))
    (sd : String × Declaration) (k : String) :
    cntKey (P ++ [sd]) k =
      cntKey P k + if declKeyOf sd.2 = k then 1 else 0 := by
  unfold cntKey
  rw [filter_snoc, List.length_append]
  congr 1
  by_cases hk : declKeyOf sd.2 = k
  · rw [if_pos (by simp [hk]), if_pos hk]
    rfl
  · rw [if_neg (by simp [hk]), if_neg hk]
    rfl

theorem analyzeStep_skip (cfg : Opts)
    (acc : List (String × OccInfo) × List (String × VariableCandidate))
    (sel : String) (d : Declaration)
    (he : eligibleDeclB cfg d = false) :
    analyzeStep cfg acc (sel, d) = acc := by
  cases hp : d.property with
  | none => simp only [analyzeStep, hp]
  | some p =>
    simp only [eligibleDeclB, hp, Bool.and_eq_false_iff] at he
    simp only [analyzeStep, hp]
    rcases he with he | he
    · rw [if_neg (of_decide_eq_false he)]
    · by_cases hc : d.kind = DeclKind.decl ∧ ¬ p = "" ∧ ¬ d.value = ""
      · rw [if_pos hc, if_neg (by simp [he])]
      · rw [if_neg hc]

theorem analyzeStep_elig (cfg : Opts) (occs : List (String × OccInfo))
    (cands : List (String × VariableCandidate)) (sel : String)
    (d : Declaration) (p : String) (hp : d.property = some p)
    (he : eligibleDeclB cfg d = true) :
    analyzeStep cfg (occs, cands) (sel, d) =
      (jmSet occs (p ++ ":" ++ d.value)
        (occ1Of occs (p ++ ":" ++ d.value) sel p),
       cands2Of cfg occs cands (p ++ ":" ++ d.value) sel p d.value) := by
  simp only [eligibleDeclB, hp, Bool.and_eq_true, decide_eq_true_eq] at he
  simp only [analyzeStep, hp]
  rw [if_pos he.1, if_pos he.2]
  rfl

theorem jmSet_keys {α : Type} (m : List (String × α)) (k : String) (v : α) :
    (jmSet m k v).map (fun p => p.1) =
      if jmHas m k then m.map (fun p => p.1)
      else m.map (fun p => p.1) ++ [k] := by
  unfold jmSet
  by_cases hk : jmHas m k
  · rw [if_pos (by simp [hk]), if_pos hk, List.map_map]
    apply List.map_congr_left
    intro p hp
    simp only [Function.comp]
    by_cases hpk : p.1 = k
    · rw [if_pos hpk, hpk]
    · rw [if_neg hpk]
  · rw [if_neg (by simp [hk]), if_neg hk, List.map_append]
    rfl

theorem occ1Of_count (occs : List (String × OccInfo)) (k sel p : String)
    (P : List (String × Declaration))
    (h1 : ∀ ko ∈ occs, ko.2.count = cntKey P ko.1)
    (h2 : ∀ k', jmHas occs k' = false → cntKey P k' = 0) :
    (occ1Of occs k sel p).count = cntKey P k + 1 := by
  unfold occ1Of
  cases hg : jmGet occs k with
  | some o =>
    simp only [hg]
    have hx := h1 (k, o) (jmGet_mem hg)
    simpa using hx
  | none =>
    simp only [hg]
    rw [h2 k (jmHas_false_of_get_none hg)]

theorem aInv_step (cfg : Opts) (P : List (String × Declaration))
    (occs : List (String × OccInfo))
    (cands : List (String × VariableCandidate)) (sel : String)
    (d : Declaration) (p : String) (hp : d.property = some p)
    (he : eligibleDeclB cfg d = true) (h : aInv cfg P (occs, cands)) :
    aInv cfg (P ++ [(sel, d)]) (analyzeStep cfg (occs, cands) (sel, d)) := by
  obtain ⟨h1, h2, h3, h4, h5⟩ := h
  rw [analyzeStep_elig cfg occs cands sel d p hp he]
  have hdk : declKeyOf d = p ++ ":" ++ d.value := by simp [declKeyOf, hp]
  have hocc1 := occ1Of_count occs (p ++ ":" ++ d.value) sel p P h1 h2
  refine ⟨?_, ?_, ?_, ?_, ?_⟩
  · intro ko hko
    rcases mem_jmSet hko with ⟨hne, hmem⟩ | hko2
    · rw [cntKey_snoc, if_neg (fun hc => hne (hdk.symm.trans hc).symm),
        Nat.add_zero]
      exact h1 ko hmem
    · subst hko2
      show (occ1Of occs (p ++ ":" ++ d.value) sel p).count = _
      rw [cntKey_snoc, if_pos hdk, hocc1]
  · intro k' hk'
    rw [jmHas_jmSet] at hk'
    rcases Bool.or_eq_false_iff.mp hk' with ⟨ha, hb⟩
    have hkk := of_decide_eq_false hb
    rw [cntKey_snoc, if_neg (fun hc => hkk (hdk.symm.trans hc)),
      Nat.add_zero]
    exact h2 k' ha
  · intro kc hkc
    by_cases hhas : jmHas cands (p ++ ":" ++ d.value)
    · obtain ⟨c, hgc⟩ := jmHas_true_get_some hhas
      have hc1eq : cands1Of cfg cands (p ++ ":" ++ d.value) p d.value =
          cands := by
        unfold cands1Of
        rw [if_pos (by simp [hhas])]
      have hc2eq : cands2Of cfg occs cands (p ++ ":" ++ d.value) sel p
          d.value = jmSet cands (p ++ ":" ++ d.value)
            { value := c.value, property := c.property,
              occurrences := (occ1Of occs (p ++ ":" ++ d.value) sel p).count,
              contexts := (occ1Of occs (p ++ ":" ++ d.value) sel p).contexts,
              category := c.category, suggestedName := c.suggestedName } := by
        unfold cands2Of
        rw [hc1eq, hgc]
      rw [hc2eq] at hkc
      rcases mem_jmSet hkc with ⟨hne, hmem⟩ | hkc2
      · obtain ⟨ha1, ha2, ha3, ha4, sd0, hsd0, hsd1, hsd2⟩ := h3 kc hmem
        refine ⟨?_, ha2, ha3, ha4, sd0, List.mem_append.mpr (Or.inl hsd0),
          hsd1, hsd2⟩
        rw [cntKey_snoc, if_neg (fun hc => hne (hdk.symm.trans hc).symm),
          Nat.add_zero]
        exact ha1
      · subst hkc2
        obtain ⟨hb1, hb2, hb3, hb4, sd0, hsd0, hsd1, hsd2⟩ :=
          h3 (p ++ ":" ++ d.value, c) (jmGet_mem hgc)
        refine ⟨?_, hb2, hb3, hb4, sd0, List.mem_append.mpr (Or.inl hsd0),
          hsd1, hsd2⟩
        show (occ1Of occs (p ++ ":" ++ d.value) sel p).count = _
        rw [cntKey_snoc, if_pos hdk, hocc1]
    · have hhasf : jmHas cands (p ++ ":" ++ d.value) = false := by
        simp [hhas]
      have hc1eq : cands1Of cfg cands (p ++ ":" ++ d.value) p d.value =
          jmSet cands (p ++ ":" ++ d.value)
            { value := d.value, property := p, occurrences := 0,
              contexts := [], category := categorizeValue p d.value,
              suggestedName := generateVariableName cfg.varPfx p d.value
                (categorizeValue p d.value) } := by
        unfold cands1Of
        rw [if_neg (by simp [hhasf])]
      have hgc : jmGet (cands1Of cfg cands (p ++ ":" ++ d.value) p d.value)
          (p ++ ":" ++ d.value) = some
          { value := d.value, property := p, occurrences := 0,
            contexts := [], category := categorizeValue p d.value,
            suggestedName := generateVariableName cfg.varPfx p d.value
              (categorizeValue p d.value) } := by
        rw [hc1eq, jmGet_jmSet, if_pos rfl]
      have hc2eq : cands2Of cfg occs cands (p ++ ":" ++ d.value) sel p
          d.value = jmSet (jmSet cands (p ++ ":" ++ d.value)
            { value := d.value, property := p, occurrences := 0,
              contexts := [], category := categorizeValue p d.value,
              suggestedName := generateVariableName cfg.varPfx p d.value
                (categorizeValue p d.value) })
            (p ++ ":" ++ d.value)
            { value := d.value, property := p,
              occurrences := (occ1Of occs (p ++ ":" ++ d.value) sel p).count,
              contexts := (occ1Of occs (p ++ ":" ++ d.value) sel p).contexts,
              category := categorizeValue p d.value,
              suggestedName := generateVariableName cfg.varPfx p d.value
                (categorizeValue p d.value) } := by
        unfold cands2Of
        rw [hgc, hc1eq]
      rw [hc2eq] at hkc
      rcases mem_jmSet hkc with ⟨hne, hmem1⟩ | hkc2
      · rcases mem_jmSet hmem1 with ⟨hne2, hmem⟩ | hkc3
        · obtain ⟨ha1, ha2, ha3, ha4, sd0, hsd0, hsd1, hsd2⟩ := h3 kc hmem
          refine ⟨?_, ha2, ha3, ha4, sd0, List.mem_append.mpr (Or.inl hsd0),
            hsd1, hsd2⟩
          rw [cntKey_snoc, if_neg (fun hc => hne (hdk.symm.trans hc).symm),
            Nat.add_zero]
          exact ha1
        · exact absurd (by rw [hkc3]) hne
      · subst hkc2
        refine ⟨?_, rfl, rfl, rfl, (sel, d),
          List.mem_append.mpr (Or.inr (List.mem_singleton.mpr rfl)), hp, rfl⟩
        show (occ1Of occs (p ++ ":" ++ d.value) sel p).count = _
        rw [cntKey_snoc, if_pos hdk, hocc1]
  · intro k' hk'
    by_cases hhas : jmHas cands (p ++ ":" ++ d.value)
    · obtain ⟨c, hgc⟩ := jmHas_true_get_some hhas
      have hc1eq : cands1Of cfg cands (p ++ ":" ++ d.value) p d.value =
          cands := by
        unfold cands1Of
        rw [if_pos (by simp [hhas])]
      have hk2 : jmHas (jmSet cands (p ++ ":" ++ d.value)
          { value := c.value, property := c.property,
            occurrences := (occ1Of occs (p ++ ":" ++ d.value) sel p).count,
            contexts := (occ1Of occs (p ++ ":" ++ d.value) sel p).contexts,
            category := c.category, suggestedName := c.suggestedName })
          k' = false := by
        have hc2eq : cands2Of cfg occs cands (p ++ ":" ++ d.value) sel p
            d.value = jmSet cands (p ++ ":" ++ d.value)
              { value := c.value, property := c.property,
                occurrences := (occ1Of occs (p ++ ":" ++ d.value) sel p).count,
                contexts := (occ1Of occs (p ++ ":" ++ d.value) sel p).contexts,
                category := c.category, suggestedName := c.suggestedName } := by
          unfold cands2Of
          rw [hc1eq, hgc]
        rwa [hc2eq] at hk'
      rw [jmHas_jmSet] at hk2
      rcases Bool.or_eq_false_iff.mp hk2 with ⟨ha, hb⟩
      have hkk := of_decide_eq_false hb
      rw [cntKey_snoc, if_neg (fun hc => hkk (hdk.symm.trans hc)),
        Nat.add_zero]
      exact h4 k' ha
    · have hhasf : jmHas cands (p ++ ":" ++ d.value) = false := by
        simp [hhas]
      have hc1eq : cands1Of cfg cands (p ++ ":" ++ d.value) p d.value =
          jmSet cands (p ++ ":" ++ d.value)
            { value := d.value, property := p, occurrences := 0,
              contexts := [], category := categorizeValue p d.value,
              suggestedName := generateVariableName cfg.varPfx p d.value
                (categorizeValue p d.value) } := by
        unfold cands1Of
        rw [if_neg (by simp [hhasf])]
      have hgc : jmGet (cands1Of cfg cands (p ++ ":" ++ d.value) p d.value)
          (p ++ ":" ++ d.value) = some
          { value := d.value, property := p, occurrences := 0,
            contexts := [], category := categorizeValue p d.value,
            suggestedName := generateVariableName cfg.varPfx p d.value
              (categorizeValue p d.value) } := by
        rw [hc1eq, jmGet_jmSet, if_pos rfl]
      have hc2eq : cands2Of cfg occs cands (p ++ ":" ++ d.value) sel p
          d.value = jmSet (cands1Of cfg cands (p ++ ":" ++ d.value) p
            d.value) (p ++ ":" ++ d.value)
            { value := d.value, property := p,
              occurrences := (occ1Of occs (p ++ ":" ++ d.value) sel p).count,
              contexts := (occ1Of occs (p ++ ":" ++ d.value) sel p).contexts,
              category := categorizeValue p d.value,
              suggestedName := generateVariableName cfg.varPfx p d.value
                (categorizeValue p d.value) } := by
        unfold cands2Of
        rw [hgc]
      rw [hc2eq, jmHas_jmSet] at hk'
      rcases Bool.or_eq_false_iff.mp hk' with ⟨ha, hb⟩
      have hkk := of_decide_eq_false hb
      rw [hc1eq, jmHas_jmSet] at ha
      rcases Bool.or_eq_false_iff.mp ha with ⟨ha2, _⟩
      rw [cntKey_snoc, if_neg (fun hc => hkk (hdk.symm.trans hc)),
        Nat.add_zero]
      exact h4 k' ha2
  · by_cases hhas : jmHas cands (p ++ ":" ++ d.value)
    · obtain ⟨c, hgc⟩ := jmHas_true_get_some hhas
      have hc1eq : cands1Of cfg cands (p ++ ":" ++ d.value) p d.value =
          cands := by
        unfold cands1Of
        rw [if_pos (by simp [hhas])]
      have hc2eq : cands2Of cfg occs cands (p ++ ":" ++ d.value) sel p
          d.value = jmSet cands (p ++ ":" ++ d.value)
            { value := c.value, property := c.property,
              occurrences := (occ1Of occs (p ++ ":" ++ d.value) sel p).count,
              contexts := (occ1Of occs (p ++ ":" ++ d.value) sel p).contexts,
              category := c.category, suggestedName := c.suggestedName } := by
        unfold cands2Of
        rw [hc1eq, hgc]
      rw [hc2eq, jmSet_keys, if_pos hhas]
      exact h5
    · have hhasf : jmHas cands (p ++ ":" ++ d.value) = false := by
        simp [hhas]
      have hc1eq : cands1Of cfg cands (p ++ ":" ++ d.value) p d.value =
          jmSet cands (p ++ ":" ++ d.value)
            { value := d.value, property := p, occurrences := 0,
              contexts := [], category := categorizeValue p d.value,
              suggestedName := generateVariableName cfg.varPfx p d.value
                (categorizeValue p d.value) } := by
        unfold cands1Of
        rw [if_neg (by simp [hhasf])]
      have hgc : jmGet (cands1Of cfg cands (p ++ ":" ++ d.value) p d.value)
          (p ++ ":" ++ d.value) = some
          { value := d.value, property := p, occurrences := 0,
            contexts := [], category := categorizeValue p d.value,
            suggestedName := generateVariableName cfg.varPfx p d.value
              (categorizeValue p d.value) } := by
        rw [hc1eq, jmGet_jmSet, if_pos rfl]
      have hc2eq : cands2Of cfg occs cands (p ++ ":" ++ d.value) sel p
          d.value = jmSet (cands1Of cfg cands (p ++ ":" ++ d.value) p
            d.value) (p ++ ":" ++ d.value)
            { value := d.value, property := p,
              occurrences := (occ1Of occs (p ++ ":" ++ d.value) sel p).count,
              contexts := (occ1Of occs (p ++ ":" ++ d.value) sel p).contexts,
              category := categorizeValue p d.value,
              suggestedName := generateVariableName cfg.varPfx p d.value
                (categorizeValue p d.value) } := by
        unfold cands2Of
        rw [hgc]
      have hhas1 : jmHas (cands1Of cfg cands (p ++ ":" ++ d.value) p d.value)
          (p ++ ":" ++ d.value) = true := by
        rw [hc1eq, jmHas_jmSet]
        simp
      rw [hc2eq, jmSet_keys, if_pos hhas1, hc1eq, jmSet_keys,
        if_neg (by simp [hhasf])]
      rw [← List.concat_eq_append]
      apply List.Nodup.concat
      · intro hmem
        rw [List.mem_map] at hmem
        obtain ⟨q, hq, hq1⟩ := hmem
        exact not_mem_key_of_jmHas_false hhasf q hq hq1
      · exact h5

theorem analyze_foldl_filter (cfg : Opts) :
    ∀ (pairs : List (String × Declaration))
      (acc : List (String × OccInfo) × List (String × VariableCandidate)),
    pairs.foldl (analyzeStep cfg) acc =
      (pairs.filter fun sd => eligibleDeclB cfg sd.2).foldl
        (analyzeStep cfg) acc := by
  intro pairs
  induction pairs with
  | nil => intro acc; rfl
  | cons sd rest ih =>
    intro acc
    by_cases he : eligibleDeclB cfg sd.2 = true
    · have hf : (sd :: rest).filter (fun sd => eligibleDeclB cfg sd.2) =
          sd :: rest.filter (fun sd => eligibleDeclB cfg sd.2) := by
        simp [List.filter_cons, he]
      rw [List.foldl_cons, hf, List.foldl_cons, ih]
    · have hf : (sd :: rest).filter (fun sd => eligibleDeclB cfg sd.2) =
          rest.filter (fun sd => eligibleDeclB cfg sd.2) := by
        simp [List.filter_cons, he]
      rw [List.foldl_cons, hf]
      have hskip : analyzeStep cfg acc sd = acc := by
        obtain ⟨sel, d⟩ := sd
        exact analyzeStep_skip cfg acc sel d (Bool.eq_false_iff.mpr he)
      rw [hskip, ih]

theorem elig_property_some {cfg : Opts} {d : Declaration}
    (he : eligibleDeclB cfg d = true) : ∃ p, d.property = some p := by
  cases hp : d.property with
  | none =>
    unfold eligibleDeclB at he
    rw [hp] at he
    cases he
  | some p => exact ⟨p, rfl⟩

theorem aInv_foldl (cfg : Opts) :
    ∀ (L P : List (String × Declaration))
      (acc : List (String × OccInfo) × List (String × VariableCandidate)),
    (∀ sd ∈ L, eligibleDeclB cfg sd.2 = true) →
    aInv cfg P acc →
    aInv cfg (P ++ L) (L.foldl (analyzeStep cfg) acc) := by
  intro L
  induction L with
  | nil =>
    intro P acc _ h
    simpa using h
  | cons sd rest ih =>
    intro P acc hL h
    obtain ⟨occs, cands⟩ := acc
    obtain ⟨sel, d⟩ := sd
    obtain ⟨p, hp⟩ := elig_property_some (hL (sel, d) (List.mem_cons_self _ _))
    have hstep := aInv_step cfg P occs cands sel d p hp
      (hL (sel, d) (List.mem_cons_self _ _)) h
    have hmain := ih (P ++ [(sel, d)])
      (analyzeStep cfg (occs, cands) (sel, d))
      (fun sd2 hsd2 => hL sd2 (List.mem_cons_of_mem _ hsd2)) hstep
    simpa [List.append_assoc] using hmain

theorem aInv_analysis (cfg : Opts) (rules : List ParsedRule) :
    aInv cfg (eligiblePairs cfg rules)
      ((declSelPairs rules).foldl (analyzeStep cfg) ([], [])) := by
  rw [analyze_foldl_filter]
  have h0 : aInv cfg [] ([], []) := by
    refine ⟨?_, ?_, ?_, ?_, ?_⟩
    · intro ko hko; cases hko
    · intro k _; rfl
    · intro kc hkc; cases hkc
    · intro k _; rfl
    · exact List.nodup_nil
  have hx := aInv_foldl cfg
    ((declSelPairs rules).filter fun sd => eligibleDeclB cfg sd.2) [] ([], [])
    (fun sd hsd => (List.mem_filter.mp hsd).2) h0
  simpa [eligiblePairs] using hx

theorem jmUpd_keys {α : Type} (m : List (String × α)) (k : String) (d : α)
    (f : α → α) :
    (jmUpd m k d f).map (fun p => p.1) =
      if jmHas m k then m.map (fun p => p.1)
      else m.map (fun p => p.1) ++ [k] := by
  unfold jmUpd
  by_cases hk : jmHas m k
  · rw [if_pos (by simp [hk]), if_pos hk, List.map_map]
    apply List.map_congr_left
    intro p hp
    simp only [Function.comp]
    split
    · rfl
    · rfl
  · rw [if_neg (by simp [hk]), if_neg hk]
    show ((jmSet m k d).map fun p =>
      if p.1 = k then (p.1, f p.2) else p).map (fun p => p.1) = _
    rw [List.map_map]
    have hx : (jmSet m k d).map ((fun (p : String × α) => p.1) ∘
        fun p => if p.1 = k then (p.1, f p.2) else p) =
        (jmSet m k d).map fun p => p.1 := by
      apply List.map_congr_left
      intro p hp
      simp only [Function.comp]
      split
      · rfl
      · rfl
    rw [hx, jmSet_keys, if_neg (by simp [hk])]

theorem gInv_step (cfg : Opts) (Q : List (String × VariableCandidate))
    (groups : List (String × List VariableCandidate))
    (kc : String × VariableCandidate) (h : gInv cfg Q groups) :
    gInv cfg (Q ++ [kc])
      (if cfg.minOccurrences ≤ kc.2.occurrences then
        jmPush groups (valueKeyOf kc.2) kc.2
      else groups) := by
  obtain ⟨h1, h2, h3, h4⟩ := h
  have hmapsnoc : (Q ++ [kc]).map (fun kc => kc.2) =
      Q.map (fun kc => kc.2) ++ [kc.2] := by
    rw [List.map_append]
    rfl
  by_cases hpass : cfg.minOccurrences ≤ kc.2.occurrences
  · rw [if_pos hpass]
    have hpassb : passB cfg kc.2 = true := by simp [passB, hpass]
    refine ⟨?_, ?_, ?_, ?_⟩
    · intro g hg
      have hg2 : g ∈ jmUpd groups (valueKeyOf kc.2) []
          (fun l => l ++ [kc.2]) := hg
      rw [hmapsnoc, filter_snoc]
      rcases mem_jmUpd hg2 with ⟨hne, hmem⟩ | ⟨heq, hrest⟩
      · rw [if_neg (by simp [hpassb]; exact fun hc => hne hc.symm),
          List.append_nil]
        exact h1 g hmem
      · rcases hrest with ⟨q, hq, hq1, hgeq⟩ | ⟨hhas, hgeq⟩
        · subst hgeq
          show q.2 ++ [kc.2] = _
          rw [if_pos (by simp [hpassb])]
          have hx := h1 q hq
          rw [hq1] at hx
          rw [hx]
        · subst hgeq
          show [] ++ [kc.2] = _
          rw [if_pos (by simp [hpassb])]
          have hx := h2 (valueKeyOf kc.2) hhas
          rw [hx]
    · intro gk hgk
      have hgk2 : jmHas (jmUpd groups (valueKeyOf kc.2) []
          (fun l => l ++ [kc.2])) gk = false := hgk
      rw [jmHas_jmUpd] at hgk2
      rcases Bool.or_eq_false_iff.mp hgk2 with ⟨ha, hb⟩
      have hkk := of_decide_eq_false hb
      rw [hmapsnoc, filter_snoc,
        if_neg (by simp [hpassb]; exact hkk), List.append_nil]
      exact h2 gk ha
    · show ((jmUpd groups (valueKeyOf kc.2) []
        (fun l => l ++ [kc.2])).map fun g => g.1).Nodup
      rw [jmUpd_keys]
      by_cases hhas : jmHas groups (valueKeyOf kc.2)
      · rw [if_pos hhas]
        exact h3
      · rw [if_neg hhas, ← List.concat_eq_append]
        apply List.Nodup.concat
        · intro hmem
          rw [List.mem_map] at hmem
          obtain ⟨q, hq, hq1⟩ := hmem
          exact not_mem_key_of_jmHas_false (Bool.eq_false_iff.mpr hhas) q hq
            hq1
        · exact h3
    · intro g hg
      have hg2 : g ∈ jmUpd groups (valueKeyOf kc.2) []
          (fun l => l ++ [kc.2]) := hg
      rcases mem_jmUpd hg2 with ⟨_, hmem⟩ | ⟨heq, hrest⟩
      · exact h4 g hmem
      · rcases hrest with ⟨q, hq, hq1, hgeq⟩ | ⟨hhas, hgeq⟩
        · subst hgeq
          simp
        · subst hgeq
          simp
  · rw [if_neg hpass]
    have hpassb : passB cfg kc.2 = false := by simp [passB, hpass]
    refine ⟨?_, ?_, h3, h4⟩
    · intro g hg
      rw [hmapsnoc, filter_snoc, if_neg (by simp [hpassb]), List.append_nil]
      exact h1 g hg
    · intro gk hgk
      rw [hmapsnoc, filter_snoc, if_neg (by simp [hpassb]), List.append_nil]
      exact h2 gk hgk

theorem gInv_buildValueGroups (cfg : Opts)
    (cands : List (String × VariableCandidate)) :
    gInv cfg cands (buildValueGroups cfg cands) := by
  have hgen : ∀ (R Q : List (String × VariableCandidate))
      (groups : List (String × List VariableCandidate)),
      gInv cfg Q groups →
      gInv cfg (Q ++ R) (R.foldl
        (fun groups kc =>
          if cfg.minOccurrences ≤ kc.2.occurrences then
            jmPush groups (valueKeyOf kc.2) kc.2
          else groups) groups) := by
    intro R
    induction R with
    | nil =>
      intro Q groups h
      simpa using h
    | cons kc R ih =>
      intro Q groups h
      have hstep := gInv_step cfg Q groups kc h
      have hmain := ih (Q ++ [kc]) _ hstep
      simpa [List.append_assoc] using hmain
  have h0 : gInv cfg [] [] := by
    refine ⟨?_, ?_, List.nodup_nil, ?_⟩
    · intro g hg; cases hg
    · intro gk _; rfl
    · intro g hg; cases hg
  have hx := hgen cands [] [] h0
  simpa [buildValueGroups] using hx

theorem mem_insertSorted {α : Type} (le : α → α → Bool) (x y : α) :
    ∀ (l : List α), y ∈ insertSorted le x l ↔ y = x ∨ y ∈ l := by
  intro l
  induction l with
  | nil => simp [insertSorted]
  | cons z zs ih =>
    show y ∈ (if le x z then x :: z :: zs else z :: insertSorted le x zs) ↔ _
    by_cases h : le x z
    · rw [if_pos h]
      simp [List.mem_cons]
    · rw [if_neg h]
      simp only [List.mem_cons, ih]
      constructor
      · rintro (h1 | h1 | h1)
        · exact Or.inr (Or.inl h1)
        · exact Or.inl h1
        · exact Or.inr (Or.inr h1)
      · rintro (h1 | h1 | h1)
        · exact Or.inr (Or.inl h1)
        · exact Or.inl h1
        · exact Or.inr (Or.inr h1)

theorem mem_stableSortBy {α : Type} (le : α → α → Bool) (y : α) :
    ∀ (l : List α), y ∈ stableSortBy le l ↔ y ∈ l := by
  intro l
  induction l with
  | nil => rfl
  | cons z zs ih =>
    show y ∈ insertSorted le z (stableSortBy le zs) ↔ _
    rw [mem_insertSorted, ih]
    simp [List.mem_cons]

theorem pairwise_insertSorted (x : VariableCandidate) :
    ∀ (l : List VariableCandidate),
    l.Pairwise (fun a b => candOccDesc a b = true) →
    (insertSorted candOccDesc x l).Pairwise
      (fun a b => candOccDesc a b = true) := by
  intro l
  induction l with
  | nil =>
    intro _
    exact List.pairwise_singleton _ _
  | cons z zs ih =>
    intro h
    rw [List.pairwise_cons] at h
    show (if candOccDesc x z then x :: z :: zs
      else z :: insertSorted candOccDesc x zs).Pairwise _
    by_cases hle : candOccDesc x z = true
    · rw [if_pos (by simp [hle])]
      rw [List.pairwise_cons]
      constructor
      · intro y hy
        rcases List.mem_cons.mp hy with hy | hy
        · subst hy
          exact hle
        · have hz := h.1 y hy
          simp only [candOccDesc, decide_eq_true_eq] at hle hz ⊢
          omega
      · rw [List.pairwise_cons]
        exact ⟨h.1, h.2⟩
    · rw [if_neg (by simp [hle])]
      rw [List.pairwise_cons]
      constructor
      · intro y hy
        rcases (mem_insertSorted candOccDesc x y zs).mp hy with hy | hy
        · subst hy
          simp only [candOccDesc, decide_eq_true_eq] at hle ⊢
          omega
        · exact h.1 y hy
      · exact ih h.2

theorem pairwise_stableSortBy :
    ∀ (l : List VariableCandidate),
    (stableSortBy candOccDesc l).Pairwise
      (fun a b => candOccDesc a b = true) := by
  intro l
  induction l with
  | nil => exact List.Pairwise.nil
  | cons z zs ih =>
    show (insertSorted candOccDesc z (stableSortBy candOccDesc zs)).Pairwise _
    exact pairwise_insertSorted z _ ih

theorem stableSort_head_max {l : List VariableCandidate}
    {best : VariableCandidate} {rest : List VariableCandidate}
    (hs : stableSortBy candOccDesc l = best :: rest) :
    best ∈ l ∧ ∀ c ∈ l, c.occurrences ≤ best.occurrences := by
  constructor
  · have : best ∈ stableSortBy candOccDesc l := by
      rw [hs]
      exact List.mem_cons_self _ _
    exact (mem_stableSortBy candOccDesc best l).mp this
  · intro c hc
    have hcmem : c ∈ stableSortBy candOccDesc l :=
      (mem_stableSortBy candOccDesc c l).mpr hc
    rw [hs] at hcmem
    rcases List.mem_cons.mp hcmem with hcm | hcm
    · subst hcm
      exact Nat.le_refl _
    · have hp := pairwise_stableSortBy l
      rw [hs, List.pairwise_cons] at hp
      have := hp.1 c hcm
      simpa [candOccDesc] using this

theorem insertSorted_ne_nil {α : Type} (le : α → α → Bool) (x : α)
    (l : List α) : ¬ insertSorted le x l = [] := by
  cases l with
  | nil => simp [insertSorted]
  | cons z zs =>
    show ¬ (if le x z then x :: z :: zs else z :: insertSorted le x zs) = []
    split
    · simp
    · simp

theorem stableSortBy_ne_nil {α : Type} (le : α → α → Bool) (l : List α)
    (h : ¬ l = []) : ¬ stableSortBy le l = [] := by
  cases l with
  | nil => exact absurd rfl h
  | cons z zs => exact insertSorted_ne_nil le z _

theorem freshVarName_shape (names : List String) (base : String) :
    freshVarName names base = base ∨
      ∃ k : Nat, freshVarName names base = base ++ "-" ++ toString k := by
  unfold freshVarName
  by_cases h : ¬ names.contains base
  · rw [if_pos h]
    exact Or.inl rfl
  · rw [if_neg h]
    right
    cases hf : (List.range (names.length + 1)).findSome? (fun i =>
        if names.contains (base ++ "-" ++ toString (i + 1)) then none
        else some (base ++ "-" ++ toString (i + 1))) with
    | some s =>
      obtain ⟨i, hi, hfi⟩ := List.exists_of_findSome?_eq_some hf
      refine ⟨i + 1, ?_⟩
      show s = _
      by_cases hc : names.contains (base ++ "-" ++ toString (i + 1))
      · rw [if_pos hc] at hfi
        cases hfi
      · rw [if_neg hc] at hfi
        exact (Option.some.inj hfi).symm
    | none =>
      refine ⟨names.length + 1, ?_⟩
      rfl

theorem colon_split_list :
    ∀ (a : List Char) (b : List Char) (c d : List Char), ':' ∉ a → ':' ∉ b →
    a ++ ':' :: c = b ++ ':' :: d → a = b ∧ c = d := by
  intro a
  induction a with
  | nil =>
    intro b c d _ hb h
    cases b with
    | nil =>
      simp only [List.nil_append] at h
      exact ⟨rfl, List.cons.inj h |>.2⟩
    | cons y bs =>
      simp only [List.nil_append, List.cons_append] at h
      have hy := (List.cons.inj h).1
      exact absurd (by rw [hy]; exact List.mem_cons_self _ _) hb
  | cons x as ih =>
    intro b c d ha hb h
    cases b with
    | nil =>
      simp only [List.cons_append, List.nil_append] at h
      have hx := (List.cons.inj h).1
      exact absurd (by rw [← hx]; exact List.mem_cons_self _ _) ha
    | cons y bs =>
      simp only [List.cons_append] at h
      have hx := (List.cons.inj h).1
      have ht := (List.cons.inj h).2
      have hih := ih bs c d (fun hm => ha (List.mem_cons_of_mem _ hm))
        (fun hm => hb (List.mem_cons_of_mem _ hm)) ht
      exact ⟨by rw [hx, hih.1], hih.2⟩

theorem key_inj {p1 v1 p2 v2 : String} (h1 : ¬ ':' ∈ p1.toList)
    (h2 : ¬ ':' ∈ p2.toList)
    (h : p1 ++ ":" ++ v1 = p2 ++ ":" ++ v2) : p1 = p2 ∧ v1 = v2 := by
  have hd := congrArg String.data h
  rw [String.data_append, String.data_append, String.data_append,
    String.data_append] at hd
  have hd2 : p1.data ++ ':' :: v1.data = p2.data ++ ':' :: v2.data := by
    simpa using hd
  have hx := colon_split_list p1.data p2.data v1.data v2.data h1 h2 hd2
  exact ⟨String.ext hx.1, String.ext hx.2⟩

theorem catStr_colon_free (c : ValueCategory) :
    ¬ ':' ∈ (categoryStr c).toList := by
  cases c <;> decide

theorem catStr_inj {c1 c2 : ValueCategory}
    (h : categoryStr c1 = categoryStr c2) : c1 = c2 := by
  cases c1 <;> cases c2 <;> revert h <;> decide

theorem vkOf_inj {c1 c2 : VariableCandidate}
    (h : valueKeyOf c1 = valueKeyOf c2) :
    c1.category = c2.category ∧ c1.value = c2.value := by
  unfold valueKeyOf at h
  have hx := key_inj (catStr_colon_free c1.category)
    (catStr_colon_free c2.category) h
  exact ⟨catStr_inj hx.1, hx.2⟩

theorem extractGroupStep_eq (evars : List (String × ExtractedVariable))
    (g : String × List VariableCandidate) (best : VariableCandidate)
    (rest2 : List VariableCandidate)
    (hs : stableSortBy candOccDesc g.2 = best :: rest2) :
    extractGroupStep evars g =
      jmSet evars (best.property ++ ":" ++ best.value)
        { name := freshVarName (evars.map fun e => e.2.name)
            best.suggestedName,
          value := best.value, category := best.category,
          occurrences := sumOcc g.2 } := by
  unfold extractGroupStep
  rw [hs]
  rfl

theorem extract_foldl :
    ∀ (R G : List (String × List VariableCandidate))
      (evars : List (String × ExtractedVariable)),
    (∀ g ∈ R, ¬ g.2 = []) →
    (∀ g1 ∈ G, ∀ g2 ∈ R, ¬ bkOf g1 = bkOf g2) →
    R.Pairwise (fun g1 g2 => ¬ bkOf g1 = bkOf g2) →
    evars.length = G.length →
    (∀ e ∈ evars, EPayload G e) →
    (R.foldl extractGroupStep evars).length = (G ++ R).length ∧
      ∀ e ∈ R.foldl extractGroupStep evars, EPayload (G ++ R) e := by
  intro R
  induction R with
  | nil =>
    intro G evars _ _ _ hlen hpay
    constructor
    · simpa using hlen
    · intro e he
      simpa using hpay e he
  | cons g R ih =>
    intro G evars hne hdist hR hlen hpay
    obtain ⟨best, rest2, hs⟩ : ∃ best rest2,
        stableSortBy candOccDesc g.2 = best :: rest2 := by
      cases hcase : stableSortBy candOccDesc g.2 with
      | nil =>
        exact absurd hcase
          (stableSortBy_ne_nil candOccDesc g.2 (hne g (List.mem_cons_self _ _)))
      | cons b r => exact ⟨b, r, rfl⟩
    rw [List.pairwise_cons] at hR
    have hfresh : jmHas evars (best.property ++ ":" ++ best.value) = false := by
      by_contra hc
      have hc2 : jmHas evars (best.property ++ ":" ++ best.value) = true := by
        simpa using hc
      rw [jmHas, List.any_eq_true] at hc2
      obtain ⟨e, he, hek⟩ := hc2
      obtain ⟨g1, hg1, best1, rest1, hs1, hek1, _⟩ := hpay e he
      have hbk : bkOf g1 = bkOf g := by
        unfold bkOf
        rw [hs1, hs]
        show some (best1.property ++ ":" ++ best1.value) =
          some (best.property ++ ":" ++ best.value)
        rw [← hek1, of_decide_eq_true hek]
      exact hdist g1 hg1 g (List.mem_cons_self _ _) hbk
    have hstepeq := extractGroupStep_eq evars g best rest2 hs
    have habs : extractGroupStep evars g =
        evars ++ [(best.property ++ ":" ++ best.value,
          { name := freshVarName (evars.map fun e => e.2.name)
              best.suggestedName,
            value := best.value, category := best.category,
            occurrences := sumOcc g.2 })] := by
      rw [hstepeq, jmSet_absent _ hfresh]
    have hlen2 : (extractGroupStep evars g).length = (G ++ [g]).length := by
      rw [habs, List.length_append, List.length_append, hlen]
      rfl
    have hpay2 : ∀ e ∈ extractGroupStep evars g, EPayload (G ++ [g]) e := by
      intro e he
      rw [habs, List.mem_append] at he
      rcases he with he | he
      · obtain ⟨g1, hg1, rest⟩ := hpay e he
        exact ⟨g1, List.mem_append.mpr (Or.inl hg1), rest⟩
      · rw [List.mem_singleton] at he
        subst he
        refine ⟨g, List.mem_append.mpr (Or.inr (List.mem_singleton.mpr rfl)),
          best, rest2, hs, rfl, rfl, rfl, rfl, ?_⟩
        exact freshVarName_shape (evars.map fun e => e.2.name)
          best.suggestedName
    have hmain := ih (G ++ [g]) (extractGroupStep evars g)
      (fun g2 hg2 => hne g2 (List.mem_cons_of_mem _ hg2))
      (by
        intro g1 hg1 g2 hg2
        rcases List.mem_append.mp hg1 with hg1 | hg1
        · exact hdist g1 hg1 g2 (List.mem_cons_of_mem _ hg2)
        · rw [List.mem_singleton] at hg1
          subst hg1
          exact fun hc => hR.1 g2 hg2 hc)
      hR.2 hlen2 hpay2
    constructor
    · have := hmain.1
      rw [List.foldl_cons]
      rw [this]
      simp
    · intro e he
      rw [List.foldl_cons] at he
      have := hmain.2 e he
      obtain ⟨g1, hg1, rest⟩ := this
      refine ⟨g1, ?_, rest⟩
      rw [List.append_assoc] at hg1
      simpa using hg1

theorem nodup_length_eq_of_mem_iff {α : Type} [DecidableEq α]
    {l1 l2 : List α} (h1 : l1.Nodup) (h2 : l2.Nodup)
    (h : ∀ a, a ∈ l1 ↔ a ∈ l2) : l1.length = l2.length :=
  ((List.perm_ext_iff_of_nodup h1 h2).mpr h).length_eq

theorem dedup_length_map_inj {α β : Type} [DecidableEq α] [DecidableEq β]
    (f : α → β) (hf : ∀ a b, f a = f b → a = b) :
    ∀ l : List α, ((l.map f).dedup).length = l.dedup.length := by
  intro l
  induction l with
  | nil => rfl
  | cons a l ih =>
    rw [List.map_cons]
    by_cases h : a ∈ l
    · rw [List.dedup_cons_of_mem h,
        List.dedup_cons_of_mem (by rw [List.mem_map]; exact ⟨a, h, rfl⟩), ih]
    · rw [List.dedup_cons_of_not_mem h, List.dedup_cons_of_not_mem (by
        intro hc
        rw [List.mem_map] at hc
        obtain ⟨b, hb, hfb⟩ := hc
        rw [hf b a hfb] at hb
        exact h hb)]
      simp only [List.length_cons, ih]

theorem foldl_add_shift :
    ∀ (cs : List VariableCandidate) (n : Nat),
    cs.foldl (fun s c => s + c.occurrences) n =
      n + cs.foldl (fun s c => s + c.occurrences) 0 := by
  intro cs
  induction cs with
  | nil => intro n; simp
  | cons c cs ih =>
    intro n
    rw [List.foldl_cons, List.foldl_cons, ih (n + c.occurrences),
      ih (0 + c.occurrences)]
    omega

theorem sumOcc_cons (c : VariableCandidate) (cs : List VariableCandidate) :
    sumOcc (c :: cs) = c.occurrences + sumOcc cs := by
  unfold sumOcc
  rw [List.foldl_cons, foldl_add_shift]
  omega

theorem length_filter_or {α : Type} (p q : α → Bool) :
    ∀ (E : List α), (∀ x ∈ E, ¬(p x = true ∧ q x = true)) →
    (E.filter fun x => p x || q x).length =
      (E.filter p).length + (E.filter q).length := by
  intro E
  induction E with
  | nil => intro _; rfl
  | cons x E ih =>
    intro h
    have htail := ih fun y hy => h y (List.mem_cons_of_mem _ hy)
    rw [List.filter_cons, List.filter_cons, List.filter_cons]
    by_cases hp : p x = true
    · have hq : ¬ q x = true := fun hq => h x (List.mem_cons_self _ _) ⟨hp, hq⟩
      rw [if_pos (by simp [hp]), if_pos (by simp [hp]), if_neg (by simp [hq])]
      simp only [List.length_cons]
      rw [htail]
      omega
    · by_cases hq : q x = true
      · rw [if_pos (by simp [hq]), if_neg (by simp [hp]),
          if_pos (by simp [hq])]
        simp only [List.length_cons]
        rw [htail]
        omega
      · rw [if_neg (by simp [hp, hq]), if_neg (by simp [hp]),
          if_neg (by simp [hq])]
        exact htail

theorem sumOcc_eq_filter_len (E : List (String × Declaration)) :
    ∀ (cs : List VariableCandidate),
    (∀ c ∈ cs, c.occurrences = cntKey E (keyC c)) →
    (cs.Pairwise fun c1 c2 => ¬ keyC c1 = keyC c2) →
    sumOcc cs =
      (E.filter fun sd => decide (declKeyOf sd.2 ∈ cs.map keyC)).length := by
  intro cs
  induction cs with
  | nil =>
    intro _ _
    have hf : (E.filter fun sd =>
        decide (declKeyOf sd.2 ∈ ([] : List VariableCandidate).map keyC)) =
        E.filter fun _ => false :=
      List.filter_congr (by intro x _; simp)
    rw [hf, List.filter_false]
    rfl
  | cons c cs ih =>
    intro hocc hpair
    rw [List.pairwise_cons] at hpair
    rw [sumOcc_cons]
    have hf : (E.filter fun sd =>
        decide (declKeyOf sd.2 ∈ (c :: cs).map keyC)) =
        E.filter fun sd => decide (declKeyOf sd.2 = keyC c) ||
          decide (declKeyOf sd.2 ∈ cs.map keyC) :=
      List.filter_congr (by
        intro x _
        simp [List.mem_cons])
    rw [hf, length_filter_or _ _ E (by
      intro x _ hc
      obtain ⟨h1, h2⟩ := hc
      have h1p := of_decide_eq_true h1
      have h2p := of_decide_eq_true h2
      rw [List.mem_map] at h2p
      obtain ⟨c2, hc2, hkc2⟩ := h2p
      exact hpair.1 c2 hc2 (by rw [hkc2, ← h1p]))]
    have hcnt : (E.filter fun sd => decide (declKeyOf sd.2 = keyC c)).length =
        cntKey E (keyC c) := rfl
    rw [hcnt, ← hocc c (List.mem_cons_self _ _),
      ih (fun c2 hc2 => hocc c2 (List.mem_cons_of_mem _ hc2)) hpair.2]

theorem pairKeyStr_inj {a b : ValueCategory × String}
    (h : pairKeyStr a = pairKeyStr b) : a = b := by
  unfold pairKeyStr at h
  have hx := key_inj (catStr_colon_free a.1) (catStr_colon_free b.1) h
  have h1 := catStr_inj hx.1
  obtain ⟨a1, a2⟩ := a
  obtain ⟨b1, b2⟩ := b
  simp only at h1 hx
  rw [h1, hx.2]

theorem bkOf_eq_some {g : String × List VariableCandidate}
    {best : VariableCandidate} {rest2 : List VariableCandidate}
    (hs : stableSortBy candOccDesc g.2 = best :: rest2) :
    bkOf g = some (best.property ++ ":" ++ best.value) := by
  unfold bkOf
  rw [hs]

theorem sorted_of_ne_nil {g : String × List VariableCandidate}
    (h : ¬ g.2 = []) :
    ∃ best rest2, stableSortBy candOccDesc g.2 = best :: rest2 := by
  cases hcase : stableSortBy candOccDesc g.2 with
  | nil => exact absurd hcase (stableSortBy_ne_nil candOccDesc g.2 h)
  | cons b r => exact ⟨b, r, rfl⟩

theorem c1_core (cfg : Opts) (E : List (String × Declaration))
    (cands : List (String × VariableCandidate))
    (hElig : ∀ sd ∈ E, eligibleDeclB cfg sd.2 = true)
    (hcolE : ∀ sd ∈ E, ∀ p, sd.2.property = some p → ¬ ':' ∈ p.toList)
    (h3 : ∀ kc ∈ cands, kc.2.occurrences = cntKey E kc.1 ∧
      kc.1 = kc.2.property ++ ":" ++ kc.2.value ∧
      kc.2.category = categorizeValue kc.2.property kc.2.value ∧
      kc.2.suggestedName = generateVariableName cfg.varPfx kc.2.property
        kc.2.value kc.2.category ∧
      ∃ sd ∈ E, sd.2.property = some kc.2.property ∧
        sd.2.value = kc.2.value)
    (h4 : ∀ k, jmHas cands k = false → cntKey E k = 0)
    (h5 : (cands.map fun kc => kc.1).Nodup) :
    ((buildValueGroups cfg cands).foldl extractGroupStep []).length =
      ((((E.filter fun sd => decide (cfg.minOccurrences ≤
          cntKey E (declKeyOf sd.2))).map fun sd =>
        (declCatOf sd.2, sd.2.value)).dedup).length) ∧
    ∀ e ∈ (buildValueGroups cfg cands).foldl extractGroupStep [],
      e.2.occurrences = (E.filter fun sd =>
        decide ((declCatOf sd.2, sd.2.value) =
          (e.2.category, e.2.value)) &&
        decide (cfg.minOccurrences ≤ cntKey E (declKeyOf sd.2))).length ∧
      ∃ sd ∈ E, ∃ p, sd.2.property = some p ∧
        declCatOf sd.2 = e.2.category ∧ sd.2.value = e.2.value ∧
        cfg.minOccurrences ≤ cntKey E (declKeyOf sd.2) ∧
        (∀ sd2 ∈ E, declCatOf sd2.2 = e.2.category →
          sd2.2.value = e.2.value →
          cntKey E (declKeyOf sd2.2) ≤ cntKey E (declKeyOf sd.2)) ∧
        (e.2.name = generateVariableName cfg.varPfx p sd.2.value
            e.2.category ∨
          ∃ k : Nat, e.2.name = generateVariableName cfg.varPfx p
            sd.2.value e.2.category ++ "-" ++ toString k) := by
  have hcand : ∀ kc ∈ cands, kc.2.occurrences = cntKey E kc.1 ∧
      kc.1 = kc.2.property ++ ":" ++ kc.2.value ∧
      kc.2.category = categorizeValue kc.2.property kc.2.value ∧
      kc.2.suggestedName = generateVariableName cfg.varPfx kc.2.property
        kc.2.value kc.2.category ∧
      ¬ ':' ∈ kc.2.property.toList ∧
      ∃ sd ∈ E, sd.2.property = some kc.2.property ∧
        sd.2.value = kc.2.value := by
    intro kc hkc
    obtain ⟨ho, hk, hcat, hsn, sd, hsd, hsdp, hsdv⟩ := h3 kc hkc
    exact ⟨ho, hk, hcat, hsn, hcolE sd hsd _ hsdp, sd, hsd, hsdp, hsdv⟩
  obtain ⟨hG1, hG2, hG3, hG4⟩ := gInv_buildValueGroups cfg cands
  have hdk : ∀ (sd : String × Declaration) (p : String),
      sd.2.property = some p → declKeyOf sd.2 = p ++ ":" ++ sd.2.value := by
    intro sd p hp
    simp [declKeyOf, hp]
  have hdc : ∀ (sd : String × Declaration) (p : String),
      sd.2.property = some p →
      declCatOf sd.2 = categorizeValue p sd.2.value := by
    intro sd p hp
    simp [declCatOf, hp]
  have hpsome : ∀ sd ∈ E, ∃ p, sd.2.property = some p := by
    intro sd hsd
    exact elig_property_some (hElig sd hsd)
  have hintro : ∀ sd ∈ E, ∃ kc ∈ cands, kc.1 = declKeyOf sd.2 := by
    intro sd hsd
    cases hj : jmHas cands (declKeyOf sd.2) with
    | false =>
      exfalso
      have hz := h4 _ hj
      have hmem : sd ∈ E.filter fun sd2 =>
          decide (declKeyOf sd2.2 = declKeyOf sd.2) :=
        List.mem_filter.mpr ⟨hsd, by simp⟩
      have hpos : 0 < cntKey E (declKeyOf sd.2) :=
        List.length_pos.mpr (List.ne_nil_of_mem hmem)
      omega
    | true =>
      rw [jmHas, List.any_eq_true] at hj
      obtain ⟨kc, hkc, hkck⟩ := hj
      exact ⟨kc, hkc, of_decide_eq_true hkck⟩
  have hbest : ∀ g ∈ buildValueGroups cfg cands,
      ∀ best rest2, stableSortBy candOccDesc g.2 = best :: rest2 →
      best ∈ g.2 ∧ passB cfg best = true ∧ valueKeyOf best = g.1 ∧
      (∀ c ∈ g.2, c.occurrences ≤ best.occurrences) ∧
      ∃ kcb ∈ cands, kcb.2 = best := by
    intro g hg best rest2 hs
    obtain ⟨hbm, hmax⟩ := stableSort_head_max hs
    have hbm2 := hbm
    rw [hG1 g hg] at hbm2
    obtain ⟨hmm, hpred⟩ := List.mem_filter.mp hbm2
    have hpred2 : passB cfg best = true ∧ valueKeyOf best = g.1 := by
      simpa using hpred
    obtain ⟨kcb, hkcb, hkcb2⟩ := List.mem_map.mp hmm
    exact ⟨hbm, hpred2.1, hpred2.2, hmax, kcb, hkcb, hkcb2⟩
  have hgmem : ∀ g ∈ buildValueGroups cfg cands, ∀ c ∈ g.2,
      passB cfg c = true ∧ valueKeyOf c = g.1 ∧
      ∃ kcc ∈ cands, kcc.2 = c := by
    intro g hg c hc
    rw [hG1 g hg] at hc
    obtain ⟨hmm, hpred⟩ := List.mem_filter.mp hc
    have hpred2 : passB cfg c = true ∧ valueKeyOf c = g.1 := by
      simpa using hpred
    obtain ⟨kcc, hkcc, hkcc2⟩ := List.mem_map.mp hmm
    exact ⟨hpred2.1, hpred2.2, kcc, hkcc, hkcc2⟩
  have hbkne : ∀ g1 ∈ buildValueGroups cfg cands,
      ∀ g2 ∈ buildValueGroups cfg cands, ¬ g1.1 = g2.1 →
      ¬ bkOf g1 = bkOf g2 := by
    intro g1 hg1 g2 hg2 hne hbk
    obtain ⟨best1, rest1, hs1⟩ := sorted_of_ne_nil (hG4 g1 hg1)
    obtain ⟨best2, rest2, hs2⟩ := sorted_of_ne_nil (hG4 g2 hg2)
    rw [bkOf_eq_some hs1, bkOf_eq_some hs2] at hbk
    have hkey := Option.some.inj hbk
    obtain ⟨_, _, hvk1, _, kcb1, hkcb1, hkcb1e⟩ := hbest g1 hg1 best1 rest1 hs1
    obtain ⟨_, _, hvk2, _, kcb2, hkcb2, hkcb2e⟩ := hbest g2 hg2 best2 rest2 hs2
    obtain ⟨_, _, hcat1, _, hcol1, _⟩ := hcand kcb1 hkcb1
    obtain ⟨_, _, hcat2, _, hcol2, _⟩ := hcand kcb2 hkcb2
    rw [hkcb1e] at hcat1 hcol1
    rw [hkcb2e] at hcat2 hcol2
    obtain ⟨hpe, hve⟩ := key_inj hcol1 hcol2 hkey
    apply hne
    rw [← hvk1, ← hvk2]
    unfold valueKeyOf
    rw [hcat1, hcat2, hpe, hve]
  have hdistR : (buildValueGroups cfg cands).Pairwise
      (fun g1 g2 => ¬ bkOf g1 = bkOf g2) := by
    have hnp : (buildValueGroups cfg cands).Pairwise
        (fun g1 g2 => ¬ g1.1 = g2.1) := List.pairwise_map.mp hG3
    exact List.Pairwise.imp_of_mem
      (fun ha hb hr => hbkne _ ha _ hb hr) hnp
  have hext := extract_foldl (buildValueGroups cfg cands) [] []
    hG4 (fun g1 hg1 => absurd hg1 (List.not_mem_nil g1)) hdistR rfl
    (fun e he => absurd he (List.not_mem_nil e))
  have hbridge : ∀ s : String,
      (s ∈ ((cands.map fun kc => kc.2).filter (passB cfg)).map valueKeyOf) ↔
      s ∈ ((E.filter fun sd => decide (cfg.minOccurrences ≤
          cntKey E (declKeyOf sd.2))).map fun sd =>
        (declCatOf sd.2, sd.2.value)).map pairKeyStr := by
    intro s
    constructor
    · intro hsk
      obtain ⟨c, hc, hvk⟩ := List.mem_map.mp hsk
      obtain ⟨hcm, hpass⟩ := List.mem_filter.mp hc
      obtain ⟨kc, hkc, hkce⟩ := List.mem_map.mp hcm
      obtain ⟨ho, hk, hcat, _, _, sd, hsd, hsdp, hsdv⟩ := hcand kc hkc
      rw [hkce] at ho hk hcat hsdp hsdv
      have hdksd : declKeyOf sd.2 = c.property ++ ":" ++ sd.2.value :=
        hdk sd c.property hsdp
      have hdksd2 : declKeyOf sd.2 = kc.1 := by
        rw [hdksd, hsdv]
        exact hk.symm
      have hcnteq : cntKey E (declKeyOf sd.2) = c.occurrences := by
        rw [hdksd2, ho]
      have hsdpass : sd ∈ E.filter fun sd2 => decide (cfg.minOccurrences ≤
          cntKey E (declKeyOf sd2.2)) := by
        apply List.mem_filter.mpr
        refine ⟨hsd, ?_⟩
        rw [hcnteq]
        simpa [passB] using hpass
      apply List.mem_map.mpr
      refine ⟨(declCatOf sd.2, sd.2.value), List.mem_map.mpr ⟨sd, hsdpass,
        rfl⟩, ?_⟩
      show pairKeyStr (declCatOf sd.2, sd.2.value) = s
      unfold pairKeyStr
      rw [← hvk]
      unfold valueKeyOf
      rw [hdc sd c.property hsdp, hsdv, hcat]
    · intro hsk
      obtain ⟨cv, hcv, hcvs⟩ := List.mem_map.mp hsk
      obtain ⟨sd, hsdf, hsde⟩ := List.mem_map.mp hcv
      obtain ⟨hsd, hsdpass⟩ := List.mem_filter.mp hsdf
      obtain ⟨p, hp⟩ := hpsome sd hsd
      obtain ⟨kc, hkc, hkck⟩ := hintro sd hsd
      obtain ⟨ho, hk, hcat, _, hcol, _⟩ := hcand kc hkc
      have hdksd : declKeyOf sd.2 = p ++ ":" ++ sd.2.value := hdk sd p hp
      have hkeys : kc.2.property ++ ":" ++ kc.2.value =
          p ++ ":" ++ sd.2.value := by
        rw [← hk, hkck, hdksd]
      obtain ⟨hpe, hve⟩ := key_inj hcol (hcolE sd hsd p hp) hkeys
      apply List.mem_map.mpr
      refine ⟨kc.2, ?_, ?_⟩
      · apply List.mem_filter.mpr
        refine ⟨List.mem_map.mpr ⟨kc, hkc, rfl⟩, ?_⟩
        have hcnteq : cntKey E (declKeyOf sd.2) = kc.2.occurrences := by
          rw [hkck] at ho
          rw [ho]
        simp only [passB, decide_eq_true_eq]
        have := of_decide_eq_true hsdpass
        omega
      · rw [← hcvs, ← hsde]
        show valueKeyOf kc.2 = pairKeyStr (declCatOf sd.2, sd.2.value)
        unfold valueKeyOf pairKeyStr
        rw [hcat, hpe, hve, hdc sd p hp]
  constructor
  · have hlen : ((buildValueGroups cfg cands).foldl
        extractGroupStep []).length = (buildValueGroups cfg cands).length := by
      have hx := hext.1
      simpa using hx
    have hmemkeys : ∀ s : String,
        s ∈ (buildValueGroups cfg cands).map (fun g => g.1) ↔
        s ∈ ((cands.map fun kc => kc.2).filter (passB cfg)).map valueKeyOf := by
      intro s
      constructor
      · intro hsk
        obtain ⟨g, hg, hgs⟩ := List.mem_map.mp hsk
        obtain ⟨c, hc⟩ := List.exists_mem_of_ne_nil g.2 (hG4 g hg)
        obtain ⟨hpass, hvk, _⟩ := hgmem g hg c hc
        have hcm : c ∈ cands.map fun kc => kc.2 := by
          have hx := hc
          rw [hG1 g hg] at hx
          exact (List.mem_filter.mp hx).1
        exact List.mem_map.mpr ⟨c, List.mem_filter.mpr ⟨hcm, hpass⟩,
          by rw [hvk, hgs]⟩
      · intro hsk
        obtain ⟨c, hc, hvk⟩ := List.mem_map.mp hsk
        obtain ⟨hcm, hpass⟩ := List.mem_filter.mp hc
        by_contra hns
        have hjh : jmHas (buildValueGroups cfg cands) s = false := by
          simp only [jmHas, List.any_eq_false, decide_eq_true_eq]
          intro g hg hgs
          exact hns (List.mem_map.mpr ⟨g, hg, hgs⟩)
        have hflt := hG2 s hjh
        have hcmem : c ∈ (cands.map fun kc => kc.2).filter fun c2 =>
            passB cfg c2 && decide (valueKeyOf c2 = s) :=
          List.mem_filter.mpr ⟨hcm, by simp [hpass, hvk]⟩
        rw [hflt] at hcmem
        exact absurd hcmem (List.not_mem_nil c)
    have hstep1 : (buildValueGroups cfg cands).length =
        ((((cands.map fun kc => kc.2).filter (passB cfg)).map
          valueKeyOf).dedup).length := by
      rw [← List.length_map (buildValueGroups cfg cands) (fun g => g.1)]
      apply nodup_length_eq_of_mem_iff hG3 (List.nodup_dedup _)
      intro a
      rw [List.mem_dedup]
      exact hmemkeys a
    have hstep2 : ((((cands.map fun kc => kc.2).filter (passB cfg)).map
        valueKeyOf).dedup).length =
        ((((E.filter fun sd => decide (cfg.minOccurrences ≤
            cntKey E (declKeyOf sd.2))).map fun sd =>
          (declCatOf sd.2, sd.2.value)).map pairKeyStr).dedup).length := by
      apply nodup_length_eq_of_mem_iff (List.nodup_dedup _)
        (List.nodup_dedup _)
      intro a
      rw [List.mem_dedup, List.mem_dedup]
      exact hbridge a
    have hstep3 : ((((E.filter fun sd => decide (cfg.minOccurrences ≤
          cntKey E (declKeyOf sd.2))).map fun sd =>
        (declCatOf sd.2, sd.2.value)).map pairKeyStr).dedup).length =
        ((((E.filter fun sd => decide (cfg.minOccurrences ≤
            cntKey E (declKeyOf sd.2))).map fun sd =>
          (declCatOf sd.2, sd.2.value)).dedup)).length :=
      dedup_length_map_inj pairKeyStr (fun a b h => pairKeyStr_inj h) _
    rw [hlen, hstep1, hstep2, hstep3]
  · intro e he
    obtain ⟨g, hg, best, rest2, hs, hkey, hval, hcat, hocc, hname⟩ :=
      hext.2 e he
    have hg2 : g ∈ buildValueGroups cfg cands := hg
    obtain ⟨hbm, hbpass, hbvk, hbmax, kcb, hkcb, hkcbe⟩ :=
      hbest g hg2 best rest2 hs
    obtain ⟨hbo, hbk, hbcat, hbsn, hbcol, sdb, hsdb, hsdbp, hsdbv⟩ :=
      hcand kcb hkcb
    rw [hkcbe] at hbo hbk hbcat hbsn hbcol hsdbp hsdbv
    have hvkg : ∀ (c : VariableCandidate), c.category = best.category →
        c.value = best.value → valueKeyOf c = g.1 := by
      intro c h1 h2
      rw [← hbvk]
      unfold valueKeyOf
      rw [h1, h2]
    have hpairfacts : ∀ sd2 ∈ E, ∃ kc2 ∈ cands,
        kc2.1 = declKeyOf sd2.2 ∧
        cntKey E (declKeyOf sd2.2) = kc2.2.occurrences ∧
        kc2.2.value = sd2.2.value ∧
        kc2.2.category = declCatOf sd2.2 := by
      intro sd2 hsd2
      obtain ⟨p2, hp2⟩ := hpsome sd2 hsd2
      obtain ⟨kc2, hkc2m, hkc2k⟩ := hintro sd2 hsd2
      obtain ⟨ho2, hk2, hcat2, _, hcol2, _⟩ := hcand kc2 hkc2m
      have hkeys2 : kc2.2.property ++ ":" ++ kc2.2.value =
          p2 ++ ":" ++ sd2.2.value := by
        rw [← hk2, hkc2k, hdk sd2 p2 hp2]
      obtain ⟨hpe2, hve2⟩ := key_inj hcol2 (hcolE sd2 hsd2 p2 hp2) hkeys2
      refine ⟨kc2, hkc2m, hkc2k, ?_, hve2, ?_⟩
      · rw [← hkc2k]
        exact ho2.symm
      · rw [hcat2, hpe2, hve2, ← hdc sd2 p2 hp2]
    have hing : ∀ (c : VariableCandidate), (∃ kcc ∈ cands, kcc.2 = c) →
        passB cfg c = true → valueKeyOf c = g.1 → c ∈ g.2 := by
      intro c hkcc hpc hvc
      obtain ⟨kcc, hkccm, hkcce⟩ := hkcc
      rw [hG1 g hg2]
      apply List.mem_filter.mpr
      refine ⟨List.mem_map.mpr ⟨kcc, hkccm, hkcce⟩, by simp [hpc, hvc]⟩
    have hpairc : (cands.map fun kc => kc.2).Pairwise
        (fun c1 c2 => ¬ keyC c1 = keyC c2) := by
      have hnp : cands.Pairwise (fun kc1 kc2 => ¬ kc1.1 = kc2.1) :=
        List.pairwise_map.mp h5
      have hnp2 : cands.Pairwise
          (fun kc1 kc2 => ¬ keyC kc1.2 = keyC kc2.2) := by
        apply List.Pairwise.imp_of_mem ?_ hnp
        intro a b ha hb hne hkeq
        obtain ⟨_, hka, _⟩ := hcand a ha
        obtain ⟨_, hkb, _⟩ := hcand b hb
        apply hne
        rw [hka, hkb]
        exact hkeq
      exact List.pairwise_map.mpr hnp2
    have hpairg : g.2.Pairwise (fun c1 c2 => ¬ keyC c1 = keyC c2) := by
      rw [hG1 g hg2]
      exact List.Pairwise.filter _ hpairc
    have hoccmem : ∀ c ∈ g.2, c.occurrences = cntKey E (keyC c) := by
      intro c hc
      obtain ⟨_, _, kcc, hkcc, hkcce⟩ := hgmem g hg2 c hc
      obtain ⟨hoc, hkc2, _⟩ := hcand kcc hkcc
      rw [hkcce] at hoc hkc2
      show c.occurrences = cntKey E (c.property ++ ":" ++ c.value)
      rw [hoc, hkc2]
    have hsum := sumOcc_eq_filter_len E g.2 hoccmem hpairg
    have hcntb : cntKey E (declKeyOf sdb.2) = best.occurrences := by
      rw [hdk sdb best.property hsdbp, hsdbv, ← hbk]
      exact hbo.symm
    refine ⟨?_, sdb, hsdb, best.property, hsdbp, ?_, ?_, ?_, ?_, ?_⟩
    · rw [hocc, hsum]
      apply congrArg List.length
      apply List.filter_congr
      intro sd hsdE
      rw [Bool.eq_iff_iff]
      simp only [decide_eq_true_eq, Bool.and_eq_true]
      constructor
      · intro hmemk
        obtain ⟨c, hc, hkc⟩ := List.mem_map.mp hmemk
        obtain ⟨hcpass, hcvk, kcc, hkcc, hkcce⟩ := hgmem g hg2 c hc
        obtain ⟨hoc, hkc2, hccat, _, hccol, _⟩ := hcand kcc hkcc
        rw [hkcce] at hoc hkc2 hccat hccol
        obtain ⟨p2, hp2⟩ := hpsome sd hsdE
        have hkeys2 : c.property ++ ":" ++ c.value =
            p2 ++ ":" ++ sd.2.value := by
          have h1 : keyC c = declKeyOf sd.2 := hkc
          rw [hdk sd p2 hp2] at h1
          exact h1
        obtain ⟨hpe2, hve2⟩ := key_inj hccol (hcolE sd hsdE p2 hp2) hkeys2
        have hvkeq : valueKeyOf c = valueKeyOf best := by
          rw [hcvk, hbvk]
        obtain ⟨hcatcb, hvalcb⟩ := vkOf_inj hvkeq
        constructor
        · rw [hdc sd p2 hp2, hcat, hval, ← hpe2, ← hve2, ← hccat,
            hcatcb, hvalcb]
        · have hceq : cntKey E (declKeyOf sd.2) = c.occurrences := by
            rw [hdk sd p2 hp2, ← hkeys2, hoc, hkc2]
          rw [hceq]
          simpa [passB] using hcpass
      · rintro ⟨hcveq, hpass⟩
        obtain ⟨kc2, hkc2m, hkc2k, hcnt2, hval2, hcat2⟩ :=
          hpairfacts sd hsdE
        have hcatb : kc2.2.category = best.category := by
          rw [hcat2]
          have hx := congrArg Prod.fst hcveq
          simp only at hx
          rw [hx, hcat]
        have hvalb : kc2.2.value = best.value := by
          rw [hval2]
          have hx := congrArg Prod.snd hcveq
          simp only at hx
          rw [hx, hval]
        have hpassb2 : passB cfg kc2.2 = true := by
          simp only [passB, decide_eq_true_eq]
          omega
        have hcing : kc2.2 ∈ g.2 :=
          hing kc2.2 ⟨kc2, hkc2m, rfl⟩ hpassb2 (hvkg kc2.2 hcatb hvalb)
        apply List.mem_map.mpr
        refine ⟨kc2.2, hcing, ?_⟩
        obtain ⟨_, hk2, _⟩ := hcand kc2 hkc2m
        show kc2.2.property ++ ":" ++ kc2.2.value = declKeyOf sd.2
        rw [← hk2, hkc2k]
    · rw [hdc sdb best.property hsdbp, hsdbv, ← hbcat]
      exact hcat.symm
    · rw [hsdbv]
      exact hval.symm
    · rw [hcntb]
      simpa [passB] using hbpass
    · intro sd2 hsd2 hc2cat hc2val
      rw [hcntb]
      obtain ⟨kc2, hkc2m, hkc2k, hcnt2, hval2, hcat2⟩ := hpairfacts sd2 hsd2
      rw [hcnt2]
      by_cases hpassc : cfg.minOccurrences ≤ kc2.2.occurrences
      · have hcatb : kc2.2.category = best.category := by
          rw [hcat2, hc2cat, hcat]
        have hvalb : kc2.2.value = best.value := by
          rw [hval2, hc2val, hval]
        have hpassb2 : passB cfg kc2.2 = true := by
          simp only [passB, decide_eq_true_eq]
          exact hpassc
        have hcing : kc2.2 ∈ g.2 :=
          hing kc2.2 ⟨kc2, hkc2m, rfl⟩ hpassb2 (hvkg kc2.2 hcatb hvalb)
        exact hbmax kc2.2 hcing
      · have hb2 : cfg.minOccurrences ≤ best.occurrences := by
          simpa [passB] using hbpass
        omega
    · rcases hname with h | ⟨k, h⟩
      · left
        rw [h, hbsn, hsdbv, hcat]
      · right
        exact ⟨k, by rw [h, hbsn, hsdbv, hcat]⟩

/-- C1 (amended): with extraction enabled, the number of emitted variables
equals the number of distinct (category, value) pairs among candidates whose
INDIVIDUAL `property:value` occurrence count reaches `minOccurrences` (the
threshold is applied per candidate before grouping, not to the summed
total); each variable merges the threshold-passing candidates of one
(category, value) key, carries their summed occurrence count, and is named
from the suggested name of a contributing pair with the highest individual
count, possibly with a numeric uniqueness suffix.  The hypothesis that
property names contain no colon reflects CSS syntax and makes the
`property:value` key decomposition unambiguous. -/
theorem c1_amended_variable_extraction (cfg : Opts)
    (rules : List ParsedRule)
    (hcol : ∀ r ∈ rules, ∀ d ∈ r.declarations,
      ¬ ':' ∈ ((d.property).getD "").toList) :
    (runFreshVariableAnalysis cfg rules).extractedVariables.length =
      codeVariableCountC1 cfg rules ∧
    ∀ e ∈ (runFreshVariableAnalysis cfg rules).extractedVariables,
      e.2.occurrences =
        codeTotalOccCountC1 cfg rules (e.2.category, e.2.value) ∧
      ∃ sd ∈ eligiblePairs cfg rules, ∃ p, sd.2.property = some p ∧
        declCatOf sd.2 = e.2.category ∧ sd.2.value = e.2.value ∧
        cfg.minOccurrences ≤ indOccCountC1 cfg rules (declKeyOf sd.2) ∧
        (∀ sd2 ∈ eligiblePairs cfg rules,
          declCatOf sd2.2 = e.2.category → sd2.2.value = e.2.value →
          indOccCountC1 cfg rules (declKeyOf sd2.2) ≤
            indOccCountC1 cfg rules (declKeyOf sd.2)) ∧
        (e.2.name = generateVariableName cfg.varPfx p sd.2.value
            e.2.category ∨
          ∃ k : Nat, e.2.name = generateVariableName cfg.varPfx p
            sd.2.value e.2.category ++ "-" ++ toString k) := by
  have hE : ∀ sd ∈ eligiblePairs cfg rules, eligibleDeclB cfg sd.2 = true :=
    fun sd hsd => (List.mem_filter.mp hsd).2
  have hcolE : ∀ sd ∈ eligiblePairs cfg rules, ∀ p,
      sd.2.property = some p → ¬ ':' ∈ p.toList := by
    intro sd hsd p hp
    have hsd2 : sd ∈ declSelPairs rules := (List.mem_filter.mp hsd).1
    unfold declSelPairs at hsd2
    rw [List.mem_flatMap] at hsd2
    obtain ⟨r, hr, hsd3⟩ := hsd2
    rw [List.mem_map] at hsd3
    obtain ⟨d, hd, hde⟩ := hsd3
    subst hde
    have hx := hcol r hr d hd
    have hp2 : d.property = some p := hp
    rw [hp2] at hx
    exact hx
  obtain ⟨_, _, h3, h4, h5⟩ := aInv_analysis cfg rules
  exact c1_core cfg (eligiblePairs cfg rules)
    ((declSelPairs rules).foldl (analyzeStep cfg) ([], [])).2
    hE hcolE h3 h4 h5

/-- Witness for C1 at the stylesheet `.a { color: red; } .b { color: red; }`
with default options: one variable is emitted and the amended count agrees. -/
theorem c1_amended_variable_extraction_witness :
    (runFreshVariableAnalysis cfgDefault
      [ruleDotA, ruleDotB]).extractedVariables.length =
      codeVariableCountC1 cfgDefault [ruleDotA, ruleDotB] :=
  (c1_amended_variable_extraction cfgDefault [ruleDotA, ruleDotB]
    (by decide)).1
